import Mathlib

/-!
# Black hole simulation: the particle and field engine of `src/blackhole.cpp`

The C++ classes are embedded as Lean structures and their member functions as
functions on those structures.

* A `float` is an element of a linearly ordered field `F` (exact arithmetic:
  no rounding, no NaN, no infinities).  Every definition is generic in `F`, so
  it can be evaluated over `ℚ`; the theorems hold over every such field and
  are instantiated over `ℝ`.
* `BlackHole::getGravity` and `SpacetimeGrid::getWarp` are read a second time on
  IEEE 754 binary32 values (`F32`: round to nearest, ties to even, overflow to an
  infinity, gradual underflow, signed zeros, NaN, and a correctly rounded `sqrtf`),
  as `getGravity32` and `getWarp32`: the statements on the magnitude of
  `getGravity` and on the values of `getWarp`, which rounding, overflow and
  underflow affect, are made of that reading.
* The `<cmath>` functions `sqrtf`, `cosf`, `sinf` are passed as a record
  `CMath F`; what a theorem needs of them is an explicit hypothesis
  (`CMath.SqrtExact`, ...), which `Real.sqrt`, `Real.cos`, `Real.sin` satisfy.
* `(float)rand() / RAND_MAX` reads the next element of a sequence of draws
  (`RandState`); `rand()` lies in `0..RAND_MAX`, so the theorems that depend
  on the draws assume each of them in `[0, 1]`.
* `raymath.h` is an external header; its `Vector3` functions are written out
  as raylib defines them.
* A `BlackHole*` member is a field holding the black hole's value.
* `std::vector` is a `List`; `push_back` appends at the end.
-/

namespace BlackHoleSim

/-- The raylib `Vector3`. -/
structure Vector3 (F : Type) where
  x : F
  y : F
  z : F

/-- The raylib `Color`: four `unsigned char` channels. -/
structure Color where
  r : Nat
  g : Nat
  b : Nat
  a : Nat
deriving DecidableEq

/-- The `<cmath>` functions the program calls. -/
structure CMath (F : Type) where
  sqrtf : F → F
  cosf : F → F
  sinf : F → F

/-- The state of the C library generator: `seq n` is the value of the `n`-th
evaluation of `(float)rand() / RAND_MAX`, `used` counts the calls made so far. -/
structure RandState (F : Type) where
  seq : Nat → F
  used : Nat

section Definitions

variable {F : Type} [LinearOrderedField F]

/-- The hypothesis that `sqrtf` is the exact square root of non-negative numbers. -/
def CMath.SqrtExact (m : CMath F) : Prop :=
  ∀ x : F, 0 ≤ x → 0 ≤ m.sqrtf x ∧ m.sqrtf x * m.sqrtf x = x

/-- One evaluation of `(float)rand() / RAND_MAX`: the value and the advanced generator. -/
def RandState.draw (g : RandState F) : F × RandState F :=
  (g.seq g.used, { g with used := g.used + 1 })

/-- Every value of `(float)rand() / RAND_MAX` lies in `[0, 1]`. -/
def RandState.InUnit (g : RandState F) : Prop :=
  ∀ n : Nat, 0 ≤ g.seq n ∧ g.seq n ≤ 1

/-- The constant `BH_PI = 3.14159265359f`. -/
def BH_PI : F := 3.14159265359

/-! ### raymath -/

/-- The raymath `Vector3Add`. -/
def Vector3Add (v1 v2 : Vector3 F) : Vector3 F :=
  ⟨v1.x + v2.x, v1.y + v2.y, v1.z + v2.z⟩

/-- The raymath `Vector3Subtract`. -/
def Vector3Subtract (v1 v2 : Vector3 F) : Vector3 F :=
  ⟨v1.x - v2.x, v1.y - v2.y, v1.z - v2.z⟩

/-- The raymath `Vector3Scale`. -/
def Vector3Scale (v : Vector3 F) (scalar : F) : Vector3 F :=
  ⟨v.x * scalar, v.y * scalar, v.z * scalar⟩

/-- The raymath `Vector3Length`: `sqrtf(v.x*v.x + v.y*v.y + v.z*v.z)`. -/
def Vector3Length (m : CMath F) (v : Vector3 F) : F :=
  m.sqrtf (v.x * v.x + v.y * v.y + v.z * v.z)

/-- The raymath `Vector3DotProduct`. -/
def Vector3DotProduct (v1 v2 : Vector3 F) : F :=
  v1.x * v2.x + v1.y * v2.y + v1.z * v2.z

/-- The raymath `Vector3CrossProduct`. -/
def Vector3CrossProduct (v1 v2 : Vector3 F) : Vector3 F :=
  ⟨v1.y * v2.z - v1.z * v2.y, v1.z * v2.x - v1.x * v2.z, v1.x * v2.y - v1.y * v2.x⟩

/-- The raymath `Vector3Normalize`: the vector is scaled by `1.0f/length` when
`length != 0.0f` and returned unchanged otherwise. -/
def Vector3Normalize (m : CMath F) (v : Vector3 F) : Vector3 F :=
  let length := m.sqrtf (v.x * v.x + v.y * v.y + v.z * v.z)
  if length ≠ 0 then
    let ilength := 1 / length
    ⟨v.x * ilength, v.y * ilength, v.z * ilength⟩
  else v

/-- A float division that records a zero divisor as `none`. -/
def checkedDiv (a b : F) : Option F :=
  if b = 0 then none else some (a / b)

/-- The raymath `Vector3Normalize` with its division `1.0f/length` checked. -/
def Vector3NormalizeChecked (m : CMath F) (v : Vector3 F) : Option (Vector3 F) :=
  let length := m.sqrtf (v.x * v.x + v.y * v.y + v.z * v.z)
  if length ≠ 0 then
    (checkedDiv 1 length).map fun ilength => ⟨v.x * ilength, v.y * ilength, v.z * ilength⟩
  else some v

/-! ### BlackHole -/

/-- The class `BlackHole`. -/
structure BlackHole (F : Type) where
  position : Vector3 F
  mass : F
  eventHorizonRadius : F
  accretionDiskInner : F
  accretionDiskOuter : F
  rotationSpeed : F
  currentRotation : F

/-- The constructor `BlackHole::BlackHole()`. -/
def BlackHole.new : BlackHole F where
  position := ⟨0, 0, 0⟩
  mass := 50.0
  eventHorizonRadius := 2.0
  accretionDiskInner := 3.5
  accretionDiskOuter := 14.0
  rotationSpeed := 0.4
  currentRotation := 0

/-- The member `BlackHole::update(dt)`. -/
def BlackHole.update (bh : BlackHole F) (dt : F) : BlackHole F :=
  { bh with currentRotation := bh.currentRotation + bh.rotationSpeed * dt }

/-- The member `BlackHole::getGravity(point)`. -/
def BlackHole.getGravity (m : CMath F) (bh : BlackHole F) (point : Vector3 F) : Vector3 F :=
  let dir := Vector3Subtract bh.position point
  let dist := Vector3Length m dir
  let dist := if dist < 0.1 then 0.1 else dist
  let strength := bh.mass / (dist * dist)
  Vector3Scale (Vector3Normalize m dir) strength

/-- The member `BlackHole::getGravity(point)` with both of its divisions checked:
`none` as soon as a divisor is zero. -/
def BlackHole.getGravityChecked (m : CMath F) (bh : BlackHole F) (point : Vector3 F) :
    Option (Vector3 F) :=
  let dir := Vector3Subtract bh.position point
  let dist := Vector3Length m dir
  let dist := if dist < 0.1 then 0.1 else dist
  (checkedDiv bh.mass (dist * dist)).bind fun strength =>
    (Vector3NormalizeChecked m dir).map fun n => Vector3Scale n strength

/-! ### SpacetimeGrid -/

/-- The class `SpacetimeGrid`. -/
structure SpacetimeGrid (F : Type) where
  blackHole : BlackHole F
  gridSize : Int
  gridSpacing : F
  warpStrength : F

/-- The constructor `SpacetimeGrid::SpacetimeGrid(bh)`. -/
def SpacetimeGrid.new (bh : BlackHole F) : SpacetimeGrid F where
  blackHole := bh
  gridSize := 30
  gridSpacing := 2.0
  warpStrength := 8.0

/-- The member `SpacetimeGrid::getWarp(x, z)`. -/
def SpacetimeGrid.getWarp (m : CMath F) (grid : SpacetimeGrid F) (x z : F) : F :=
  let dist := m.sqrtf (x * x + z * z)
  if dist < grid.blackHole.eventHorizonRadius then -100.0
  else -grid.warpStrength / (dist * 0.5)

/-- The test `y1 < -50 || y2 < -50` under which `SpacetimeGrid::draw` skips an edge. -/
def SpacetimeGrid.skipsEdge (y1 y2 : F) : Prop :=
  y1 < -50 ∨ y2 < -50

/-! ### Integer conversions -/

/-- The conversion `(size_t)n` of an `int` to the 64-bit unsigned type. -/
def toSizeT (n : Int) : Nat :=
  (n % 2 ^ 64).toNat

/-- The conversion `(int)n` of a `size_t` to the 32-bit signed type. -/
def toInt32 (n : Nat) : Int :=
  ((n : Int) + 2 ^ 31) % 2 ^ 32 - 2 ^ 31

/-! ### GravityFieldLines -/

/-- The class `GravityFieldLines`. -/
structure GravityFieldLines (F : Type) where
  blackHole : BlackHole F
  lineCount : Int
  fieldLines : List (List (Vector3 F))

/-- The integration step of `generateLines`:
`pos = Vector3Add(pos, Vector3Scale(blackHole->getGravity(pos), 0.15f))`. -/
def GravityFieldLines.advance (m : CMath F) (bh : BlackHole F) (pos : Vector3 F) : Vector3 F :=
  let gravity := bh.getGravity m pos
  Vector3Add pos (Vector3Scale gravity 0.15)

/-- The inner loop `for (int step = 0; step < 100; step++)` of `generateLines`, with
the number of iterations still allowed as first argument: the point is stored, advanced,
and the loop is left when the new point is closer to the origin than
`eventHorizonRadius * 1.2f`. -/
def GravityFieldLines.traceLine (m : CMath F) (bh : BlackHole F) :
    Nat → Vector3 F → List (Vector3 F) → List (Vector3 F)
  | 0, _, line => line
  | n + 1, pos, line =>
    let line := line ++ [pos]
    let pos := GravityFieldLines.advance m bh pos
    let dist := Vector3Length m pos
    if dist < bh.eventHorizonRadius * 1.2 then line
    else GravityFieldLines.traceLine m bh n pos line

/-- The starting point of line `i` in `generateLines`. -/
def GravityFieldLines.seed (m : CMath F) (lineCount : Int) (i : Nat) : Vector3 F :=
  let angle := (i : F) / (lineCount : F) * BH_PI * 2.0
  let startDist := 25.0
  ⟨m.cosf angle * startDist, 0, m.sinf angle * startDist⟩

/-- The member `GravityFieldLines::generateLines()`: one line per `i < lineCount`,
each traced for at most 100 steps from its seed. -/
def GravityFieldLines.generateLines (m : CMath F) (gfl : GravityFieldLines F) :
    GravityFieldLines F :=
  { gfl with
    fieldLines := (List.range gfl.lineCount.toNat).map fun i =>
      GravityFieldLines.traceLine m gfl.blackHole 100
        (GravityFieldLines.seed m gfl.lineCount i) [] }

/-- The constructor `GravityFieldLines::GravityFieldLines(bh)`. -/
def GravityFieldLines.new (m : CMath F) (bh : BlackHole F) : GravityFieldLines F :=
  GravityFieldLines.generateLines m { blackHole := bh, lineCount := 24, fieldLines := [] }

/-- The point `generateLines` holds after `k` integration steps from `seed`: the seed for
`k = 0`, and the position computed at step `k - 1` of the loop otherwise. -/
def GravityFieldLines.pointAt (m : CMath F) (bh : BlackHole F) (seed : Vector3 F) (k : Nat) :
    Vector3 F :=
  (GravityFieldLines.advance m bh)^[k] seed

/-- An input of `generateLines`: the default black hole moved to `(25, 0, 0)`, the seed of
the line at angle 0. -/
def displacedHole : BlackHole F :=
  { (BlackHole.new : BlackHole F) with position := ⟨25, 0, 0⟩ }

/-- An input of `generateLines`: a black hole at the origin with the default mass, whose
horizon radius puts the threshold `eventHorizonRadius * 1.2f` at the distance of the point
reached after 99 steps from `(25, 0, 0)`; the disk radii lie beyond the horizon. -/
def lastStepHole (m : CMath F) : BlackHole F :=
  { (BlackHole.new : BlackHole F) with
    eventHorizonRadius :=
      (GravityFieldLines.pointAt m (BlackHole.new : BlackHole F) ⟨25, 0, 0⟩ 99).x / 1.2
    accretionDiskInner := 30
    accretionDiskOuter := 40 }

/-- An input of `generateLines`: a black hole at the origin with the default mass and a
horizon radius of 30, beyond the seeds; the disk radii lie beyond the horizon. -/
def wideHole : BlackHole F :=
  { (BlackHole.new : BlackHole F) with
    eventHorizonRadius := 30
    accretionDiskInner := 40
    accretionDiskOuter := 50 }

/-! ### AccretionDisk -/

/-- The struct `Particle`. -/
structure Particle (F : Type) where
  pos : Vector3 F
  life : F
  maxLife : F
  color : Color
  orbitRadius : F
  orbitAngle : F
  orbitSpeed : F
  orbitHeight : F

/-- The class `AccretionDisk`. -/
structure AccretionDisk (F : Type) where
  particles : List (Particle F)
  particleCount : Int
  blackHole : BlackHole F

/-- The particle `p` that `AccretionDisk::spawnParticle()` builds before it pushes it. -/
def AccretionDisk.newParticle (m : CMath F) (bh : BlackHole F) (g : RandState F) :
    Particle F × RandState F :=
  let r1 := g.draw
  let orbitRadius := bh.accretionDiskInner +
    r1.1 * (bh.accretionDiskOuter - bh.accretionDiskInner)
  let r2 := r1.2.draw
  let orbitAngle := r2.1 * BH_PI * 2.0
  let r3 := r2.2.draw
  let orbitHeight := (r3.1 - 0.5) * 0.6 * (1.0 - (orbitRadius - bh.accretionDiskInner) /
    (bh.accretionDiskOuter - bh.accretionDiskInner) * 0.5)
  let pos : Vector3 F := ⟨m.cosf orbitAngle * orbitRadius, orbitHeight,
    m.sinf orbitAngle * orbitRadius⟩
  let orbitVel := m.sqrtf (bh.mass / orbitRadius) * 0.15
  let orbitSpeed := orbitVel / orbitRadius
  let r4 := r3.2.draw
  let maxLife := 10.0 + r4.1 * 20.0
  let r5 := r4.2.draw
  let life := r5.1 * maxLife
  let temp := 1.0 - (orbitRadius - bh.accretionDiskInner) /
    (bh.accretionDiskOuter - bh.accretionDiskInner)
  let color : Color :=
    if temp > 0.85 then ⟨255, 255, 255, 255⟩
    else if temp > 0.7 then ⟨255, 240, 200, 255⟩
    else if temp > 0.5 then ⟨255, 200, 120, 255⟩
    else if temp > 0.3 then ⟨255, 140, 60, 255⟩
    else if temp > 0.15 then ⟨255, 80, 30, 255⟩
    else ⟨180, 40, 20, 255⟩
  ({ pos := pos, life := life, maxLife := maxLife, color := color, orbitRadius := orbitRadius,
     orbitAngle := orbitAngle, orbitSpeed := orbitSpeed, orbitHeight := orbitHeight }, r5.2)

/-- The member `AccretionDisk::spawnParticle()`. -/
def AccretionDisk.spawnParticle (m : CMath F) (disk : AccretionDisk F) (g : RandState F) :
    AccretionDisk F × RandState F :=
  let r := AccretionDisk.newParticle m disk.blackHole g
  ({ disk with particles := disk.particles ++ [r.1] }, r.2)

/-- The loop `for (int i = 0; i < particleCount; i++) spawnParticle();` with the number
of iterations left as first argument. -/
def AccretionDisk.spawnLoop (m : CMath F) :
    Nat → AccretionDisk F → RandState F → AccretionDisk F × RandState F
  | 0, disk, g => (disk, g)
  | n + 1, disk, g =>
    let r := AccretionDisk.spawnParticle m disk g
    AccretionDisk.spawnLoop m n r.1 r.2

/-- The member `AccretionDisk::initParticles()`. -/
def AccretionDisk.initParticles (m : CMath F) (disk : AccretionDisk F) (g : RandState F) :
    AccretionDisk F × RandState F :=
  AccretionDisk.spawnLoop m disk.particleCount.toNat { disk with particles := [] } g

/-- The constructor `AccretionDisk::AccretionDisk(bh, count)`. -/
def AccretionDisk.new (m : CMath F) (bh : BlackHole F) (count : Int) (g : RandState F) :
    AccretionDisk F × RandState F :=
  AccretionDisk.initParticles m { particles := [], particleCount := count, blackHole := bh } g

/-- The recycle test `p.life <= 0 || p.orbitRadius < blackHole->eventHorizonRadius` of
`AccretionDisk::update`, on the particle's life and radius before the call. -/
def AccretionDisk.recycles (bh : BlackHole F) (dt : F) (p : Particle F) : Prop :=
  p.life - dt ≤ 0 ∨
    p.orbitRadius - 0.02 * dt * (bh.mass / (p.orbitRadius * p.orbitRadius)) * 0.01 <
      bh.eventHorizonRadius

/-- The body of the loop of `AccretionDisk::update(dt)` for one particle. -/
def AccretionDisk.updateParticle (m : CMath F) (bh : BlackHole F) (dt : F) (p : Particle F)
    (g : RandState F) : Particle F × RandState F :=
  let orbitAngle := p.orbitAngle + p.orbitSpeed * dt
  let spiralFactor := 0.02 * dt
  let orbitRadius := p.orbitRadius -
    spiralFactor * (bh.mass / (p.orbitRadius * p.orbitRadius)) * 0.01
  let posx := m.cosf orbitAngle * orbitRadius
  let posz := m.sinf orbitAngle * orbitRadius
  let posy := p.orbitHeight * (orbitRadius / bh.accretionDiskOuter)
  let posy := posy + m.sinf (orbitAngle * 3.0 + orbitRadius) * 0.08
  let life := p.life - dt
  let p : Particle F :=
    { p with pos := ⟨posx, posy, posz⟩, orbitAngle := orbitAngle, orbitRadius := orbitRadius,
             life := life }
  if p.life ≤ 0 ∨ p.orbitRadius < bh.eventHorizonRadius then
    let r1 := g.draw
    let r2 := r1.2.draw
    ({ p with
       orbitRadius := bh.accretionDiskInner +
         r1.1 * (bh.accretionDiskOuter - bh.accretionDiskInner),
       orbitAngle := r2.1 * BH_PI * 2.0,
       life := p.maxLife }, r2.2)
  else (p, g)

/-- The loop of `AccretionDisk::update(dt)` over the particles, in index order. -/
def AccretionDisk.updateParticles (m : CMath F) (bh : BlackHole F) (dt : F) :
    List (Particle F) → RandState F → List (Particle F) × RandState F
  | [], g => ([], g)
  | p :: ps, g =>
    let r := AccretionDisk.updateParticle m bh dt p g
    let rs := AccretionDisk.updateParticles m bh dt ps r.2
    (r.1 :: rs.1, rs.2)

/-- The member `AccretionDisk::update(dt)`. -/
def AccretionDisk.update (m : CMath F) (disk : AccretionDisk F) (dt : F) (g : RandState F) :
    AccretionDisk F × RandState F :=
  let r := AccretionDisk.updateParticles m disk.blackHole dt disk.particles g
  ({ disk with particles := r.1 }, r.2)

/-- A finite sequence of `update(dt)` calls, as the main loop makes them; each call comes
with the state the generator has when it is made. -/
def AccretionDisk.updates (m : CMath F) (disk : AccretionDisk F) :
    List (F × RandState F) → AccretionDisk F
  | [] => disk
  | c :: cs => AccretionDisk.updates m (AccretionDisk.update m disk c.1 c.2).1 cs

/-! ### InfallingMatter -/

/-- The struct `InfallingMatter::Streamer`. -/
structure Streamer (F : Type) where
  pos : Vector3 F
  vel : Vector3 F
  trail : List (Vector3 F)
  maxTrail : Int
  color : Color
  active : Bool
  life : F

/-- The class `InfallingMatter`. -/
structure InfallingMatter (F : Type) where
  streamers : List (Streamer F)
  blackHole : BlackHole F
  maxStreamers : Int

/-- The member `InfallingMatter::spawnStreamer()`. -/
def InfallingMatter.spawnStreamer (m : CMath F) (im : InfallingMatter F) (g : RandState F) :
    InfallingMatter F × RandState F :=
  let r1 := g.draw
  let angle := r1.1 * BH_PI * 2.0
  let r2 := r1.2.draw
  let dist := 18.0 + r2.1 * 12.0
  let r3 := r2.2.draw
  let height := (r3.1 - 0.5) * 8.0
  let pos : Vector3 F := ⟨m.cosf angle * dist, height, m.sinf angle * dist⟩
  let toCenter := Vector3Normalize m (Vector3Subtract im.blackHole.position pos)
  let perpendicular := Vector3CrossProduct toCenter ⟨0, 1, 0⟩
  let perpendicular := Vector3Normalize m perpendicular
  let r4 := r3.2.draw
  let tangentStrength := 0.5 + r4.1 * 0.5
  let vel := Vector3Add (Vector3Scale toCenter 2.0)
    (Vector3Scale perpendicular (tangentStrength * 3.0))
  let r5 := r4.2.draw
  let life := 15.0 + r5.1 * 10.0
  let r6 := r5.2.draw
  let colorChoice := r6.1
  let color : Color :=
    if colorChoice > 0.7 then ⟨255, 220, 150, 255⟩
    else if colorChoice > 0.4 then ⟨255, 160, 80, 255⟩
    else ⟨255, 100, 50, 255⟩
  let s : Streamer F :=
    { pos := pos, vel := vel, trail := [], maxTrail := 30, color := color, active := true,
      life := life }
  ({ im with streamers := im.streamers ++ [s] }, r6.2)

/-- The loop `for (int i = 0; i < maxStreamers; i++) spawnStreamer();` with the number
of iterations left as first argument. -/
def InfallingMatter.spawnLoop (m : CMath F) :
    Nat → InfallingMatter F → RandState F → InfallingMatter F × RandState F
  | 0, im, g => (im, g)
  | n + 1, im, g =>
    let r := InfallingMatter.spawnStreamer m im g
    InfallingMatter.spawnLoop m n r.1 r.2

/-- The constructor `InfallingMatter::InfallingMatter(bh, count)`. -/
def InfallingMatter.new (m : CMath F) (bh : BlackHole F) (count : Int) (g : RandState F) :
    InfallingMatter F × RandState F :=
  InfallingMatter.spawnLoop m count.toNat
    { streamers := [], blackHole := bh, maxStreamers := count } g

/-- The position `InfallingMatter::update(dt)` computes for a streamer before it tests
the recycle condition: `vel += gravity * dt`, then `pos += vel * dt`. -/
def InfallingMatter.steppedPos (m : CMath F) (bh : BlackHole F) (dt : F) (s : Streamer F) :
    Vector3 F :=
  let gravity := bh.getGravity m s.pos
  let vel := Vector3Add s.vel (Vector3Scale gravity dt)
  Vector3Add s.pos (Vector3Scale vel dt)

/-- The body of the loop of `InfallingMatter::update(dt)` for one streamer. -/
def InfallingMatter.updateStreamer (m : CMath F) (bh : BlackHole F) (dt : F) (s : Streamer F)
    (g : RandState F) : Streamer F × RandState F :=
  if !s.active then (s, g)
  else
    let gravity := bh.getGravity m s.pos
    let vel := Vector3Add s.vel (Vector3Scale gravity dt)
    let pos := Vector3Add s.pos (Vector3Scale vel dt)
    let trail := s.trail ++ [pos]
    let trail := if trail.length > toSizeT s.maxTrail then trail.tail else trail
    let life := s.life - dt
    let dist := Vector3Length m pos
    if dist < bh.eventHorizonRadius ∨ life ≤ 0 ∨ dist > 50.0 then
      let r1 := g.draw
      let angle := r1.1 * BH_PI * 2.0
      let r2 := r1.2.draw
      let spawnDist := 18.0 + r2.1 * 12.0
      let r3 := r2.2.draw
      let height := (r3.1 - 0.5) * 8.0
      let pos : Vector3 F := ⟨m.cosf angle * spawnDist, height, m.sinf angle * spawnDist⟩
      let toCenter := Vector3Normalize m (Vector3Subtract bh.position pos)
      let perpendicular := Vector3CrossProduct toCenter ⟨0, 1, 0⟩
      let perpendicular := Vector3Normalize m perpendicular
      let r4 := r3.2.draw
      let tangentStrength := 0.5 + r4.1 * 0.5
      let vel := Vector3Add (Vector3Scale toCenter 2.0)
        (Vector3Scale perpendicular (tangentStrength * 3.0))
      let r5 := r4.2.draw
      let life := 15.0 + r5.1 * 10.0
      ({ s with pos := pos, vel := vel, trail := [], life := life }, r5.2)
    else ({ s with pos := pos, vel := vel, trail := trail, life := life }, g)

/-- The loop of `InfallingMatter::update(dt)` over the streamers, in index order. -/
def InfallingMatter.updateStreamers (m : CMath F) (bh : BlackHole F) (dt : F) :
    List (Streamer F) → RandState F → List (Streamer F) × RandState F
  | [], g => ([], g)
  | s :: ss, g =>
    let r := InfallingMatter.updateStreamer m bh dt s g
    let rs := InfallingMatter.updateStreamers m bh dt ss r.2
    (r.1 :: rs.1, rs.2)

/-- The member `InfallingMatter::update(dt)`. -/
def InfallingMatter.update (m : CMath F) (im : InfallingMatter F) (dt : F) (g : RandState F) :
    InfallingMatter F × RandState F :=
  let r := InfallingMatter.updateStreamers m im.blackHole dt im.streamers g
  ({ im with streamers := r.1 }, r.2)

/-- A finite sequence of `update(dt)` calls, as the main loop makes them; each call comes
with the state the generator has when it is made. -/
def InfallingMatter.updates (m : CMath F) (im : InfallingMatter F) :
    List (F × RandState F) → InfallingMatter F
  | [] => im
  | c :: cs => InfallingMatter.updates m (InfallingMatter.update m im c.1 c.2).1 cs

/-! ### JetStream -/

/-- The struct `JetStream::JetParticle`. -/
structure JetParticle (F : Type) where
  pos : Vector3 F
  vel : Vector3 F
  life : F
  maxLife : F

/-- The class `JetStream`. -/
structure JetStream (F : Type) where
  particles : List (JetParticle F)
  blackHole : BlackHole F
  maxParticles : Int
  topJet : Bool

/-- The constructor `JetStream::JetStream(bh, top, count)`. -/
def JetStream.new (bh : BlackHole F) (top : Bool) (count : Int) : JetStream F where
  particles := []
  blackHole := bh
  maxParticles := count
  topJet := top

/-- The first part of `JetStream::update`: one particle is pushed when
`(int)particles.size() < maxParticles`. -/
def JetStream.spawn (m : CMath F) (js : JetStream F) (g : RandState F) :
    JetStream F × RandState F :=
  if toInt32 js.particles.length < js.maxParticles then
    let r1 := g.draw
    let angle := r1.1 * BH_PI * 2.0
    let r2 := r1.2.draw
    let radius := 0.2 + r2.1 * 0.4
    let pos := js.blackHole.position
    let pos : Vector3 F := { pos with x := pos.x + m.cosf angle * radius }
    let pos : Vector3 F := { pos with z := pos.z + m.sinf angle * radius }
    let pos : Vector3 F :=
      { pos with y := pos.y + (if js.topJet then js.blackHole.eventHorizonRadius
                               else -js.blackHole.eventHorizonRadius) }
    let r3 := r2.2.draw
    let speed := 10.0 + r3.1 * 5.0
    let spread := 0.15
    let r4 := r3.2.draw
    let r5 := r4.2.draw
    let vel : Vector3 F := ⟨(r4.1 - 0.5) * spread, if js.topJet then speed else -speed,
      (r5.1 - 0.5) * spread⟩
    let r6 := r5.2.draw
    let maxLife := 2.5 + r6.1 * 1.5
    let p : JetParticle F := { pos := pos, vel := vel, life := maxLife, maxLife := maxLife }
    ({ js with particles := js.particles ++ [p] }, r6.2)
  else (js, g)

/-- The body of the loop of `JetStream::update(dt, time)` for one particle. -/
def JetStream.updateParticle (m : CMath F) (bh : BlackHole F) (topJet : Bool) (dt time : F)
    (p : JetParticle F) (g : RandState F) : JetParticle F × RandState F :=
  let pos := Vector3Add p.pos (Vector3Scale p.vel dt)
  let life := p.life - dt
  let vel : Vector3 F := { p.vel with x := p.vel.x + m.sinf (time * 6.0 + pos.y) * 0.08 * dt }
  let vel : Vector3 F := { vel with z := vel.z + m.cosf (time * 6.0 + pos.y) * 0.08 * dt }
  if life ≤ 0 then
    let life := p.maxLife
    let r1 := g.draw
    let angle := r1.1 * BH_PI * 2.0
    let r2 := r1.2.draw
    let radius := 0.2 + r2.1 * 0.4
    let pos := bh.position
    let pos : Vector3 F := { pos with x := pos.x + m.cosf angle * radius }
    let pos : Vector3 F := { pos with z := pos.z + m.sinf angle * radius }
    let pos : Vector3 F :=
      { pos with y := pos.y + (if topJet then bh.eventHorizonRadius
                               else -bh.eventHorizonRadius) }
    let r3 := r2.2.draw
    let speed := 10.0 + r3.1 * 5.0
    let r4 := r3.2.draw
    let r5 := r4.2.draw
    let vel : Vector3 F := ⟨(r4.1 - 0.5) * 0.15, if topJet then speed else -speed,
      (r5.1 - 0.5) * 0.15⟩
    ({ p with pos := pos, vel := vel, life := life }, r5.2)
  else ({ p with pos := pos, vel := vel, life := life }, g)

/-- The loop of `JetStream::update(dt, time)` over the particles, in index order. -/
def JetStream.updateParticles (m : CMath F) (bh : BlackHole F) (topJet : Bool) (dt time : F) :
    List (JetParticle F) → RandState F → List (JetParticle F) × RandState F
  | [], g => ([], g)
  | p :: ps, g =>
    let r := JetStream.updateParticle m bh topJet dt time p g
    let rs := JetStream.updateParticles m bh topJet dt time ps r.2
    (r.1 :: rs.1, rs.2)

/-- The member `JetStream::update(dt, time)`. -/
def JetStream.update (m : CMath F) (js : JetStream F) (dt time : F) (g : RandState F) :
    JetStream F × RandState F :=
  let r := JetStream.spawn m js g
  let rs := JetStream.updateParticles m r.1.blackHole r.1.topJet dt time r.1.particles r.2
  ({ r.1 with particles := rs.1 }, rs.2)

/-- A finite sequence of `update(dt, time)` calls, as the main loop makes them; each call
comes with its `dt`, its `time` and the state the generator has when it is made. -/
def JetStream.updates (m : CMath F) (js : JetStream F) :
    List (F × F × RandState F) → JetStream F
  | [] => js
  | c :: cs => JetStream.updates m (JetStream.update m js c.1 c.2.1 c.2.2).1 cs

/-- The hypothesis that `cosf` and `sinf` satisfy `cos^2 + sin^2 = 1`. -/
def CMath.Pythagorean (m : CMath F) : Prop :=
  ∀ a : F, m.cosf a * m.cosf a + m.sinf a * m.sinf a = 1

/-! ### PhotonSphere -/

/-- The class `PhotonSphere`. -/
structure PhotonSphere (F : Type) where
  blackHole : BlackHole F
  particleCount : Int
  angles : List F
  speeds : List F
  phases : List F

/-- The loop `for (int i = 0; i < particleCount; i++)` of the constructor of
`PhotonSphere`, with the number of iterations left as first argument: three draws per
particle, pushed on `angles`, `speeds` and `phases`. -/
def PhotonSphere.fillLoop :
    Nat → PhotonSphere F → RandState F → PhotonSphere F × RandState F
  | 0, ps, g => (ps, g)
  | n + 1, ps, g =>
    let r1 := g.draw
    let r2 := r1.2.draw
    let r3 := r2.2.draw
    PhotonSphere.fillLoop n
      { ps with
        angles := ps.angles ++ [r1.1 * BH_PI * 2.0]
        speeds := ps.speeds ++ [3.0 + r2.1 * 3.0]
        phases := ps.phases ++ [r3.1 * BH_PI * 2.0] }
      r3.2

/-- The constructor `PhotonSphere::PhotonSphere(bh)`. -/
def PhotonSphere.new (bh : BlackHole F) (g : RandState F) : PhotonSphere F × RandState F :=
  PhotonSphere.fillLoop 150
    { blackHole := bh, particleCount := 150, angles := [], speeds := [], phases := [] } g

/-- The point `{x, y, z}` that the body of the loop of `PhotonSphere::draw(time)` passes to
`DrawPoint3D` for a particle with the given `angles[i]`, `speeds[i]` and `phases[i]`. -/
def PhotonSphere.point (m : CMath F) (bh : BlackHole F) (time angle0 speed phase : F) :
    Vector3 F :=
  let radius := bh.eventHorizonRadius * 1.5
  let angle := angle0 + time * speed
  let heightAngle := phase + time * speed * 0.7
  let x := m.cosf angle * radius * m.cosf (heightAngle * 0.5)
  let y := m.sinf (heightAngle * 0.5) * radius * 0.3
  let z := m.sinf angle * radius * m.cosf (heightAngle * 0.5)
  ⟨x, y, z⟩

/-- The points drawn by `PhotonSphere::draw(time)`, for `i` from `0` to `particleCount - 1`;
the three vectors hold `particleCount` entries each after the constructor, and an index
beyond a vector reads `0` here. -/
def PhotonSphere.draw (m : CMath F) (ps : PhotonSphere F) (time : F) : List (Vector3 F) :=
  (List.range ps.particleCount.toNat).map fun i =>
    PhotonSphere.point m ps.blackHole time (ps.angles.getD i 0) (ps.speeds.getD i 0)
      (ps.phases.getD i 0)

/-- The recycle test `dist < blackHole->eventHorizonRadius || s.life <= 0 || dist > 50.0f`
of `InfallingMatter::update(dt)`, on the state the streamer has before the call: `dist` is
the length of the position the call integrates, the life the one it reduces by `dt`. -/
def InfallingMatter.recycles (m : CMath F) (bh : BlackHole F) (dt : F) (s : Streamer F) :
    Prop :=
  Vector3Length m (InfallingMatter.steppedPos m bh dt s) < bh.eventHorizonRadius ∨
    s.life - dt ≤ 0 ∨ Vector3Length m (InfallingMatter.steppedPos m bh dt s) > 50.0

/-- The state of one streamer after a finite sequence of `update(dt)` calls; each call
comes with its `dt` and the state the generator has when the loop reaches the streamer. -/
def InfallingMatter.streamerAfter (m : CMath F) (bh : BlackHole F) :
    Streamer F → List (F × RandState F) → Streamer F
  | s, [] => s
  | s, c :: cs =>
    InfallingMatter.streamerAfter m bh (InfallingMatter.updateStreamer m bh c.1 s c.2).1 cs

/-- The positions one streamer holds after each call of a finite sequence of `update(dt)`
calls, in chronological order. -/
def InfallingMatter.positionsAfter (m : CMath F) (bh : BlackHole F) :
    Streamer F → List (F × RandState F) → List (Vector3 F)
  | _, [] => []
  | s, c :: cs =>
    (InfallingMatter.updateStreamer m bh c.1 s c.2).1.pos ::
      InfallingMatter.positionsAfter m bh (InfallingMatter.updateStreamer m bh c.1 s c.2).1 cs

/-- No call of a finite sequence of `update(dt)` calls recycles the streamer. -/
def InfallingMatter.neverRecycles (m : CMath F) (bh : BlackHole F) :
    Streamer F → List (F × RandState F) → Prop
  | _, [] => True
  | s, c :: cs =>
    ¬ InfallingMatter.recycles m bh c.1 s ∧
      InfallingMatter.neverRecycles m bh (InfallingMatter.updateStreamer m bh c.1 s c.2).1 cs

/-- The streamer that the recycle branch of `InfallingMatter::update(dt)` leaves in place
of `s`: the trail cleared, and a position, velocity and life drawn afresh, in this order:
angle, distance, height, tangent strength, life.  `maxTrail`, `color` and `active` are
not written. -/
def InfallingMatter.respawned (m : CMath F) (bh : BlackHole F) (s : Streamer F)
    (g : RandState F) : Streamer F :=
  let r1 := g.draw
  let angle := r1.1 * BH_PI * 2.0
  let r2 := r1.2.draw
  let spawnDist := 18.0 + r2.1 * 12.0
  let r3 := r2.2.draw
  let height := (r3.1 - 0.5) * 8.0
  let pos : Vector3 F := ⟨m.cosf angle * spawnDist, height, m.sinf angle * spawnDist⟩
  let toCenter := Vector3Normalize m (Vector3Subtract bh.position pos)
  let perpendicular := Vector3CrossProduct toCenter ⟨0, 1, 0⟩
  let perpendicular := Vector3Normalize m perpendicular
  let r4 := r3.2.draw
  let tangentStrength := 0.5 + r4.1 * 0.5
  let vel := Vector3Add (Vector3Scale toCenter 2.0)
    (Vector3Scale perpendicular (tangentStrength * 3.0))
  let r5 := r4.2.draw
  let life := 15.0 + r5.1 * 10.0
  { s with pos := pos, vel := vel, trail := [], life := life }

/-! ### binary32

The `float` of the program read as the IEEE 754 binary32 format, with round to nearest,
ties to even, overflow to an infinity, gradual underflow, signed zeros and NaN. -/

/-- A value of the binary32 format: a signed zero, a non-zero rational, a signed
infinity, or NaN.  The arithmetic below returns rationals of the binary32 grid only. -/
inductive F32 where
  | zero (negative : Bool)
  | finite (q : ℚ)
  | inf (negative : Bool)
  | nan
deriving DecidableEq

/-- Rounding of a rational to an integer, halves to the even neighbour. -/
def F32.roundHalfEven (t : ℚ) : ℤ :=
  if t - ⌊t⌋ < 1 / 2 then ⌊t⌋
  else if 1 / 2 < t - ⌊t⌋ then ⌊t⌋ + 1
  else if ⌊t⌋ % 2 = 0 then ⌊t⌋
  else ⌊t⌋ + 1

/-- The spacing of the binary32 grid at magnitude `a > 0`: `2^(e - 23)` for
`2^e ≤ a < 2^(e + 1)`, and `2^(-149)` below `2^(-126)`. -/
def F32.spacing (a : ℚ) : ℚ :=
  (2 : ℚ) ^ (max (Int.log 2 a) (-126) - 23)

/-- The multiple of the grid spacing nearest to the magnitude `a > 0`, ties to even. -/
def F32.mag (a : ℚ) : ℚ :=
  (F32.roundHalfEven (a / F32.spacing a) : ℚ) * F32.spacing a

/-- The binary32 value of a non-zero real result `q`: an infinity when the magnitude is
`2^128 - 2^103` or more, a signed zero when it rounds to zero. -/
def F32.round (q : ℚ) : F32 :=
  if 2 ^ 128 - 2 ^ 103 ≤ |q| then F32.inf (decide (q < 0))
  else if F32.mag |q| = 0 then F32.zero (decide (q < 0))
  else if q < 0 then F32.finite (-F32.mag |q|)
  else F32.finite (F32.mag |q|)

/-- The binary32 value of a decimal literal such as `0.1f`. -/
def F32.lit (q : ℚ) : F32 :=
  if q = 0 then F32.zero false else F32.round q

/-- Unary minus. -/
def F32.neg : F32 → F32
  | F32.zero s => F32.zero (!s)
  | F32.finite q => F32.finite (-q)
  | F32.inf s => F32.inf (!s)
  | F32.nan => F32.nan

/-- The sign bit of a value other than NaN. -/
def F32.sign : F32 → Bool
  | F32.zero s => s
  | F32.finite q => decide (q < 0)
  | F32.inf s => s
  | F32.nan => false

/-- Addition. -/
def F32.add : F32 → F32 → F32
  | F32.nan, _ => F32.nan
  | _, F32.nan => F32.nan
  | F32.inf s, F32.inf t => if s = t then F32.inf s else F32.nan
  | F32.inf s, _ => F32.inf s
  | _, F32.inf t => F32.inf t
  | F32.zero s, F32.zero t => F32.zero (s && t)
  | F32.zero _, F32.finite q => F32.finite q
  | F32.finite q, F32.zero _ => F32.finite q
  | F32.finite a, F32.finite b => if a + b = 0 then F32.zero false else F32.round (a + b)

/-- Subtraction. -/
def F32.sub (a b : F32) : F32 :=
  F32.add a (F32.neg b)

/-- Multiplication. -/
def F32.mul : F32 → F32 → F32
  | F32.nan, _ => F32.nan
  | _, F32.nan => F32.nan
  | F32.inf _, F32.zero _ => F32.nan
  | F32.zero _, F32.inf _ => F32.nan
  | F32.finite a, F32.finite b => F32.round (a * b)
  | F32.inf s, y => F32.inf (s != y.sign)
  | x, F32.inf t => F32.inf (x.sign != t)
  | F32.zero s, y => F32.zero (s != y.sign)
  | x, F32.zero t => F32.zero (x.sign != t)

/-- Division. -/
def F32.div : F32 → F32 → F32
  | F32.nan, _ => F32.nan
  | _, F32.nan => F32.nan
  | F32.inf _, F32.inf _ => F32.nan
  | F32.zero _, F32.zero _ => F32.nan
  | F32.finite a, F32.finite b => F32.round (a / b)
  | F32.inf s, y => F32.inf (s != y.sign)
  | x, F32.inf t => F32.zero (x.sign != t)
  | F32.zero s, y => F32.zero (s != y.sign)
  | x, F32.zero t => F32.inf (x.sign != t)

/-- The correctly rounded square root of a rational `q > 0`: with `2^h ≤ sqrt q < 2^(h + 1)`
and `u = 2^(h - 23)`, the integer `n = floor (sqrt q / u)` is an integer square root, and
`q` is compared with the square of the midpoint `(n + 1/2) * u`. -/
def F32.roundSqrt (q : ℚ) : F32 :=
  let u : ℚ := (2 : ℚ) ^ (Int.fdiv (Int.log 2 q) 2 - 23)
  let n : ℕ := Nat.sqrt ⌊q / (u * u)⌋₊
  let mid : ℚ := ((n : ℚ) + 1 / 2) * u
  if q < mid * mid then F32.finite ((n : ℚ) * u)
  else if mid * mid < q then F32.finite (((n : ℚ) + 1) * u)
  else if n % 2 = 0 then F32.finite ((n : ℚ) * u)
  else F32.finite (((n : ℚ) + 1) * u)

/-- The function `sqrtf`. -/
def F32.sqrt : F32 → F32
  | F32.zero s => F32.zero s
  | F32.finite q => if q < 0 then F32.nan else F32.roundSqrt q
  | F32.inf s => if s then F32.nan else F32.inf false
  | F32.nan => F32.nan

/-- The comparison `a < b`. -/
def F32.lt : F32 → F32 → Bool
  | F32.nan, _ => false
  | _, F32.nan => false
  | F32.inf s, F32.inf t => s && !t
  | F32.inf s, _ => s
  | _, F32.inf t => !t
  | F32.zero _, F32.zero _ => false
  | F32.zero _, F32.finite q => decide (0 < q)
  | F32.finite q, F32.zero _ => decide (q < 0)
  | F32.finite a, F32.finite b => decide (a < b)

/-- The comparison `a == b`. -/
def F32.eq : F32 → F32 → Bool
  | F32.zero _, F32.zero _ => true
  | F32.finite a, F32.finite b => decide (a = b)
  | F32.inf s, F32.inf t => s == t
  | _, _ => false

/-- The comparison `a <= b`. -/
def F32.le (a b : F32) : Bool :=
  F32.lt a b || F32.eq a b

/-- A zero or a non-zero finite value: neither an infinity nor NaN. -/
def F32.isFinite : F32 → Bool
  | F32.zero _ => true
  | F32.finite _ => true
  | _ => false

/-- A value other than NaN. -/
def F32.isNumber : F32 → Bool
  | F32.nan => false
  | _ => true

/-- A zero of either sign. -/
def F32.isZero : F32 → Bool
  | F32.zero _ => true
  | _ => false

/-- A binary32 division that records a zero divisor as `none`. -/
def F32.checkedDiv (a b : F32) : Option F32 :=
  if b.isZero then none else some (F32.div a b)

/-- The constructor `BlackHole::BlackHole()` on binary32 values. -/
def BlackHole.new32 : BlackHole F32 where
  position := ⟨F32.zero false, F32.zero false, F32.zero false⟩
  mass := F32.lit 50.0
  eventHorizonRadius := F32.lit 2.0
  accretionDiskInner := F32.lit 3.5
  accretionDiskOuter := F32.lit 14.0
  rotationSpeed := F32.lit 0.4
  currentRotation := F32.zero false

/-- The constructor `SpacetimeGrid::SpacetimeGrid(bh)` on binary32 values. -/
def SpacetimeGrid.new32 (bh : BlackHole F32) : SpacetimeGrid F32 where
  blackHole := bh
  gridSize := 30
  gridSpacing := F32.lit 2.0
  warpStrength := F32.lit 8.0

/-- The distance `sqrtf(x * x + z * z)` of `SpacetimeGrid::getWarp` on binary32 values. -/
def SpacetimeGrid.dist32 (x z : F32) : F32 :=
  F32.sqrt (F32.add (F32.mul x x) (F32.mul z z))

/-- The member `SpacetimeGrid::getWarp(x, z)` on binary32 values. -/
def SpacetimeGrid.getWarp32 (grid : SpacetimeGrid F32) (x z : F32) : F32 :=
  let dist := F32.sqrt (F32.add (F32.mul x x) (F32.mul z z))
  if F32.lt dist grid.blackHole.eventHorizonRadius then F32.neg (F32.lit 100.0)
  else F32.div (F32.neg grid.warpStrength) (F32.mul dist (F32.lit 0.5))

/-- The test `y1 < -50 || y2 < -50` of `SpacetimeGrid::draw` on binary32 values. -/
def SpacetimeGrid.skipsEdge32 (y1 y2 : F32) : Bool :=
  F32.lt y1 (F32.neg (F32.lit 50)) || F32.lt y2 (F32.neg (F32.lit 50))

/-- A value that is a zero, a positive finite value of at most `2^128`, or `+inf`: what
squares, their sums and the square roots of these are. -/
def F32.NonNeg (v : F32) : Prop :=
  (∃ s : Bool, v = F32.zero s) ∨ (∃ q : ℚ, v = F32.finite q ∧ 0 < q ∧ q ≤ (2 : ℚ) ^ (128 : ℤ)) ∨
    v = F32.inf false

end Definitions

section Theorems

variable {F : Type} [LinearOrderedField F]

/-- `Real.sqrt` is an exact square root. -/
theorem real_sqrtExact (c s : ℝ → ℝ) : (CMath.mk Real.sqrt c s).SqrtExact := by
  intro x hx
  exact ⟨Real.sqrt_nonneg x, Real.mul_self_sqrt hx⟩

/-- Sums of three squares are non-negative. -/
theorem sumSq_nonneg (v : Vector3 F) : 0 ≤ v.x * v.x + v.y * v.y + v.z * v.z := by
  nlinarith [mul_self_nonneg v.x, mul_self_nonneg v.y, mul_self_nonneg v.z]

/-- The clamped distance of `getGravity` is at least `0.1`. -/
theorem clamp_pos (d : F) : (0.1 : F) ≤ (if d < 0.1 then 0.1 else d) := by
  split_ifs with h
  · exact le_refl _
  · exact not_lt.mp h

/-- C1: for a black hole of positive mass, `getGravity p` has a non-negative dot
product with `position - p`: it points from `p` toward the black hole. -/
theorem getGravity_points_toward_position (m : CMath F) (hm : m.SqrtExact)
    (bh : BlackHole F) (hmass : 0 < bh.mass) (p : Vector3 F) :
    0 ≤ Vector3DotProduct (bh.getGravity m p) (Vector3Subtract bh.position p) := by
  set dir := Vector3Subtract bh.position p with hdir
  have hn := sumSq_nonneg dir
  have hlen := (hm _ hn).1
  have hc := clamp_pos (Vector3Length m dir)
  have hcpos : (0 : F) < (if Vector3Length m dir < 0.1 then 0.1 else Vector3Length m dir) :=
    lt_of_lt_of_le (by norm_num) hc
  have hs : 0 ≤ bh.mass /
      ((if Vector3Length m dir < 0.1 then 0.1 else Vector3Length m dir) *
        (if Vector3Length m dir < 0.1 then 0.1 else Vector3Length m dir)) :=
    div_nonneg hmass.le (mul_pos hcpos hcpos).le
  simp only [BlackHole.getGravity, ← hdir]
  set s := bh.mass /
      ((if Vector3Length m dir < 0.1 then 0.1 else Vector3Length m dir) *
        (if Vector3Length m dir < 0.1 then 0.1 else Vector3Length m dir)) with hsdef
  unfold Vector3Normalize
  by_cases h0 : m.sqrtf (dir.x * dir.x + dir.y * dir.y + dir.z * dir.z) ≠ 0
  · simp only [h0, if_true, ne_eq, not_false_eq_true, Vector3Scale, Vector3DotProduct]
    have hil : 0 ≤ 1 / m.sqrtf (dir.x * dir.x + dir.y * dir.y + dir.z * dir.z) :=
      div_nonneg zero_le_one hlen
    have : dir.x * (1 / m.sqrtf (dir.x * dir.x + dir.y * dir.y + dir.z * dir.z)) * s * dir.x +
        dir.y * (1 / m.sqrtf (dir.x * dir.x + dir.y * dir.y + dir.z * dir.z)) * s * dir.y +
        dir.z * (1 / m.sqrtf (dir.x * dir.x + dir.y * dir.y + dir.z * dir.z)) * s * dir.z =
        (dir.x * dir.x + dir.y * dir.y + dir.z * dir.z) *
          ((1 / m.sqrtf (dir.x * dir.x + dir.y * dir.y + dir.z * dir.z)) * s) := by ring
    rw [this]
    exact mul_nonneg hn (mul_nonneg hil hs)
  · simp only [h0, if_false, Vector3Scale, Vector3DotProduct]
    have : dir.x * s * dir.x + dir.y * s * dir.y + dir.z * s * dir.z =
        (dir.x * dir.x + dir.y * dir.y + dir.z * dir.z) * s := by ring
    rw [this]
    exact mul_nonneg hn hs

/-- C1 at a concrete input: the default black hole over the reals and the point `(3, 4, 0)`. -/
theorem getGravity_points_toward_position_witness :
    0 ≤ Vector3DotProduct
      ((BlackHole.new : BlackHole ℝ).getGravity (CMath.mk Real.sqrt Real.cos Real.sin) ⟨3, 4, 0⟩)
      (Vector3Subtract (BlackHole.new : BlackHole ℝ).position ⟨3, 4, 0⟩) :=
  getGravity_points_toward_position _ (real_sqrtExact _ _) _
    (by norm_num [BlackHole.new]) _

/-- The clamp `if (dist < 0.1f) dist = 0.1f` is `max dist 0.1`. -/
theorem clamp_eq_max (d : F) : (if d < 0.1 then (0.1 : F) else d) = max d 0.1 := by
  split_ifs with h
  · exact (max_eq_right h.le).symm
  · exact (max_eq_left (not_lt.mp h)).symm

/-- An exact square root returns `s` on `s * s` when `s` is non-negative. -/
theorem sqrtf_mul_self (m : CMath F) (hm : m.SqrtExact) (s : F) (hs : 0 ≤ s) :
    m.sqrtf (s * s) = s := by
  obtain ⟨h1, h2⟩ := hm (s * s) (mul_self_nonneg s)
  exact (mul_self_inj h1 hs).mp h2

/-- A vector other than zero has a non-zero length. -/
theorem length_ne_zero (m : CMath F) (hm : m.SqrtExact) (v : Vector3 F)
    (hv : v ≠ ⟨0, 0, 0⟩) : m.sqrtf (v.x * v.x + v.y * v.y + v.z * v.z) ≠ 0 := by
  intro h0
  have h2 := (hm _ (sumSq_nonneg v)).2
  rw [h0, mul_zero] at h2
  have hx : v.x = 0 := by
    nlinarith [mul_self_nonneg v.x, mul_self_nonneg v.y, mul_self_nonneg v.z]
  have hy : v.y = 0 := by
    nlinarith [mul_self_nonneg v.x, mul_self_nonneg v.y, mul_self_nonneg v.z]
  have hz : v.z = 0 := by
    nlinarith [mul_self_nonneg v.x, mul_self_nonneg v.y, mul_self_nonneg v.z]
  apply hv
  obtain ⟨x, y, z⟩ := v
  simp only at hx hy hz
  rw [hx, hy, hz]

/-- Scaling by a non-negative factor scales the length. -/
theorem length_scale (m : CMath F) (hm : m.SqrtExact) (v : Vector3 F) (c : F) (hc : 0 ≤ c) :
    Vector3Length m (Vector3Scale v c) = Vector3Length m v * c := by
  unfold Vector3Length Vector3Scale
  obtain ⟨h1, h2⟩ := hm _ (sumSq_nonneg v)
  have e : v.x * c * (v.x * c) + v.y * c * (v.y * c) + v.z * c * (v.z * c) =
      (m.sqrtf (v.x * v.x + v.y * v.y + v.z * v.z) * c) *
        (m.sqrtf (v.x * v.x + v.y * v.y + v.z * v.z) * c) := by
    have : (m.sqrtf (v.x * v.x + v.y * v.y + v.z * v.z) * c) *
        (m.sqrtf (v.x * v.x + v.y * v.y + v.z * v.z) * c) =
        (m.sqrtf (v.x * v.x + v.y * v.y + v.z * v.z) *
          m.sqrtf (v.x * v.x + v.y * v.y + v.z * v.z)) * (c * c) := by ring
    rw [this, h2]
    ring
  simp only [e]
  exact sqrtf_mul_self m hm _ (mul_nonneg h1 hc)

/-- The checked normalisation never meets a zero divisor. -/
theorem normalizeChecked_eq (m : CMath F) (v : Vector3 F) :
    Vector3NormalizeChecked m v = some (Vector3Normalize m v) := by
  unfold Vector3NormalizeChecked Vector3Normalize checkedDiv
  by_cases h : m.sqrtf (v.x * v.x + v.y * v.y + v.z * v.z) = 0
  · simp [h]
  · simp [h]

/-- The strength `mass / (dist * dist)` of `getGravity` lies in `[0, mass / 0.01]`. -/
theorem strength_bounds (mass d : F) (hmass : 0 < mass) :
    0 ≤ mass / ((if d < 0.1 then 0.1 else d) * (if d < 0.1 then 0.1 else d)) ∧
    mass / ((if d < 0.1 then 0.1 else d) * (if d < 0.1 then 0.1 else d)) ≤ mass / 0.01 := by
  have hc := clamp_pos d
  have hpos : (0 : F) < (if d < 0.1 then 0.1 else d) := lt_of_lt_of_le (by norm_num) hc
  refine ⟨div_nonneg hmass.le (mul_pos hpos hpos).le, ?_⟩
  apply div_le_div_of_nonneg_left hmass.le (by norm_num)
  have : (0.01 : F) = 0.1 * 0.1 := by norm_num
  rw [this]
  exact mul_le_mul hc hc (by norm_num) hpos.le

/-- The length of `getGravity p` never exceeds `mass / 0.01`. -/
theorem getGravity_length_le (m : CMath F) (hm : m.SqrtExact) (bh : BlackHole F)
    (hmass : 0 < bh.mass) (p : Vector3 F) :
    Vector3Length m (bh.getGravity m p) ≤ bh.mass / 0.01 := by
  obtain ⟨hs0, hs1⟩ := strength_bounds bh.mass
    (Vector3Length m (Vector3Subtract bh.position p)) hmass
  simp only [BlackHole.getGravity]
  rw [length_scale m hm _ _ hs0]
  have hn := hm _ (sumSq_nonneg (Vector3Subtract bh.position p))
  have hunit : Vector3Length m (Vector3Normalize m (Vector3Subtract bh.position p)) ≤ 1 := by
    unfold Vector3Normalize
    by_cases h0 : m.sqrtf ((Vector3Subtract bh.position p).x * (Vector3Subtract bh.position p).x +
        (Vector3Subtract bh.position p).y * (Vector3Subtract bh.position p).y +
        (Vector3Subtract bh.position p).z * (Vector3Subtract bh.position p).z) = 0
    · simp only [h0, ne_eq, not_true_eq_false, if_false]
      unfold Vector3Length
      rw [h0]
      exact zero_le_one
    · simp only [h0, ne_eq, not_false_eq_true, if_true]
      have := length_scale m hm (Vector3Subtract bh.position p) _
        (div_nonneg zero_le_one hn.1)
      unfold Vector3Scale at this
      rw [this]
      unfold Vector3Length
      rw [mul_one_div_cancel h0]
  have hlen0 : 0 ≤ Vector3Length m (Vector3Normalize m (Vector3Subtract bh.position p)) :=
    (hm _ (sumSq_nonneg _)).1
  calc Vector3Length m (Vector3Normalize m (Vector3Subtract bh.position p)) *
        (bh.mass / ((if Vector3Length m (Vector3Subtract bh.position p) < 0.1 then 0.1
          else Vector3Length m (Vector3Subtract bh.position p)) *
          (if Vector3Length m (Vector3Subtract bh.position p) < 0.1 then 0.1
          else Vector3Length m (Vector3Subtract bh.position p))))
      ≤ 1 * (bh.mass / 0.01) := mul_le_mul hunit hs1 hs0 zero_le_one
    _ = bh.mass / 0.01 := one_mul _

/-- In exact arithmetic `getGravity` never divides by zero, its length never exceeds
`mass / 0.01`, and at every point `p` other than the black hole's position, with
`d = |position - p|`, it is the unit vector `(position - p) / d` scaled by
`mass / max(d, 0.1)^2`, so that its length is exactly `mass / max(d, 0.1)^2`.  The
binary32 reading of the same code is `getGravity32`. -/
theorem getGravity_inverse_square_exact (m : CMath F) (hm : m.SqrtExact) (bh : BlackHole F)
    (hmass : 0 < bh.mass) :
    (∀ p : Vector3 F, bh.getGravityChecked m p = some (bh.getGravity m p) ∧
      Vector3Length m (bh.getGravity m p) ≤ bh.mass / 0.01) ∧
    (∀ p : Vector3 F, p ≠ bh.position →
      Vector3Length m (Vector3Subtract bh.position p) ≠ 0 ∧
      Vector3Length m (Vector3Scale (Vector3Subtract bh.position p)
        (1 / Vector3Length m (Vector3Subtract bh.position p))) = 1 ∧
      bh.getGravity m p =
        Vector3Scale
          (Vector3Scale (Vector3Subtract bh.position p)
            (1 / Vector3Length m (Vector3Subtract bh.position p)))
          (bh.mass / (max (Vector3Length m (Vector3Subtract bh.position p)) 0.1) ^ 2) ∧
      Vector3Length m (bh.getGravity m p) =
        bh.mass / (max (Vector3Length m (Vector3Subtract bh.position p)) 0.1) ^ 2) := by
  refine ⟨fun p => ⟨?_, getGravity_length_le m hm bh hmass p⟩, fun p hp => ?_⟩
  · have hc := clamp_pos (Vector3Length m (Vector3Subtract bh.position p))
    have hpos : (0 : F) < (if Vector3Length m (Vector3Subtract bh.position p) < 0.1 then 0.1
        else Vector3Length m (Vector3Subtract bh.position p)) :=
      lt_of_lt_of_le (by norm_num) hc
    simp only [BlackHole.getGravityChecked, BlackHole.getGravity, checkedDiv,
      normalizeChecked_eq, (mul_pos hpos hpos).ne', if_false, Option.some_bind, Option.map_some']
  · have hdir : Vector3Subtract bh.position p ≠ ⟨0, 0, 0⟩ := by
      intro h
      apply hp
      obtain ⟨px, py, pz⟩ := p
      simp only [Vector3Subtract, Vector3.mk.injEq] at h
      obtain ⟨h1, h2, h3⟩ := h
      show (⟨px, py, pz⟩ : Vector3 F) = ⟨bh.position.x, bh.position.y, bh.position.z⟩
      rw [sub_eq_zero.mp h1, sub_eq_zero.mp h2, sub_eq_zero.mp h3]
    have hd : Vector3Length m (Vector3Subtract bh.position p) ≠ 0 :=
      length_ne_zero m hm _ hdir
    have hn := hm _ (sumSq_nonneg (Vector3Subtract bh.position p))
    have hunit : Vector3Length m (Vector3Scale (Vector3Subtract bh.position p)
        (1 / Vector3Length m (Vector3Subtract bh.position p))) = 1 := by
      rw [length_scale m hm (Vector3Subtract bh.position p)
        (1 / Vector3Length m (Vector3Subtract bh.position p)) (div_nonneg zero_le_one hn.1)]
      exact mul_one_div_cancel hd
    have hnorm : Vector3Normalize m (Vector3Subtract bh.position p) =
        Vector3Scale (Vector3Subtract bh.position p)
          (1 / Vector3Length m (Vector3Subtract bh.position p)) := by
      unfold Vector3Length at hd
      simp only [Vector3Normalize, hd, ne_eq, not_false_eq_true, if_true, Vector3Scale,
        Vector3Length]
    have hgrav : bh.getGravity m p =
        Vector3Scale
          (Vector3Scale (Vector3Subtract bh.position p)
            (1 / Vector3Length m (Vector3Subtract bh.position p)))
          (bh.mass / (max (Vector3Length m (Vector3Subtract bh.position p)) 0.1) ^ 2) := by
      simp only [BlackHole.getGravity, hnorm, clamp_eq_max, sq]
    refine ⟨hd, hunit, hgrav, ?_⟩
    have hs0 : 0 ≤ bh.mass / (max (Vector3Length m (Vector3Subtract bh.position p)) 0.1) ^ 2 :=
      div_nonneg hmass.le (sq_nonneg _)
    rw [hgrav, length_scale m hm _ _ hs0, hunit, one_mul]

/-- The exact reading of `getGravity` at the default black hole over the reals and the
point `(3, 4, 0)`. -/
theorem getGravity_inverse_square_exact_example :
    ((BlackHole.new : BlackHole ℝ).getGravityChecked (CMath.mk Real.sqrt Real.cos Real.sin)
        ⟨3, 4, 0⟩ =
      some ((BlackHole.new : BlackHole ℝ).getGravity (CMath.mk Real.sqrt Real.cos Real.sin)
        ⟨3, 4, 0⟩)) ∧
    Vector3Length (CMath.mk Real.sqrt Real.cos Real.sin)
      ((BlackHole.new : BlackHole ℝ).getGravity (CMath.mk Real.sqrt Real.cos Real.sin)
        ⟨3, 4, 0⟩) ≤ (BlackHole.new : BlackHole ℝ).mass / 0.01 :=
  (getGravity_inverse_square_exact (CMath.mk Real.sqrt Real.cos Real.sin) (real_sqrtExact _ _)
    BlackHole.new (by norm_num [BlackHole.new])).1 ⟨3, 4, 0⟩

/-- In exact arithmetic, with a positive horizon radius and a positive warp strength,
`getWarp(x, z)` is `-100`, below the threshold `-50` under which `draw` skips an edge,
when `sqrt(x^2 + z^2)` is below the horizon radius; at or beyond the horizon radius it is
the negative value `-warpStrength / (0.5 * distance)`, and of two such points the one
at the larger distance gets the strictly larger value.  The binary32 reading of the same
code is `getWarp32`. -/
theorem getWarp_funnel_exact (m : CMath F) (grid : SpacetimeGrid F)
    (hh : 0 < grid.blackHole.eventHorizonRadius) (hw : 0 < grid.warpStrength) (x z : F) :
    (m.sqrtf (x * x + z * z) < grid.blackHole.eventHorizonRadius →
      grid.getWarp m x z ≤ -50 ∧
      (∀ y : F, SpacetimeGrid.skipsEdge (grid.getWarp m x z) y) ∧
      (∀ y : F, SpacetimeGrid.skipsEdge y (grid.getWarp m x z))) ∧
    (grid.blackHole.eventHorizonRadius ≤ m.sqrtf (x * x + z * z) →
      grid.getWarp m x z = -grid.warpStrength / (0.5 * m.sqrtf (x * x + z * z)) ∧
      grid.getWarp m x z < 0 ∧
      ∀ x2 z2 : F, m.sqrtf (x * x + z * z) < m.sqrtf (x2 * x2 + z2 * z2) →
        grid.getWarp m x z < grid.getWarp m x2 z2) := by
  constructor
  · intro hlt
    have e : grid.getWarp m x z = -100.0 := by
      simp only [SpacetimeGrid.getWarp, hlt, if_true]
    rw [e]
    refine ⟨by norm_num, fun y => Or.inl (by norm_num), fun y => Or.inr (by norm_num)⟩
  · intro hge
    have hd : 0 < m.sqrtf (x * x + z * z) := lt_of_lt_of_le hh hge
    have e : grid.getWarp m x z = -grid.warpStrength / (0.5 * m.sqrtf (x * x + z * z)) := by
      simp only [SpacetimeGrid.getWarp, not_lt.mpr hge, if_false, mul_comm]
    have hhalf : (0 : F) < 0.5 * m.sqrtf (x * x + z * z) := mul_pos (by norm_num) hd
    refine ⟨e, ?_, ?_⟩
    · rw [e]
      exact div_neg_of_neg_of_pos (neg_neg_of_pos hw) hhalf
    · intro x2 z2 hlt
      have hge2 : grid.blackHole.eventHorizonRadius ≤ m.sqrtf (x2 * x2 + z2 * z2) :=
        le_trans hge hlt.le
      have e2 : grid.getWarp m x2 z2 =
          -grid.warpStrength / (0.5 * m.sqrtf (x2 * x2 + z2 * z2)) := by
        simp only [SpacetimeGrid.getWarp, not_lt.mpr hge2, if_false, mul_comm]
      rw [e, e2, neg_div, neg_div, neg_lt_neg_iff]
      apply div_lt_div_of_pos_left hw hhalf
      exact mul_lt_mul_of_pos_left hlt (by norm_num)

/-- The exact reading of `getWarp` for the grid of the program over the reals at
`(x, z) = (3, 4)`. -/
theorem getWarp_funnel_exact_example :
    (SpacetimeGrid.new (BlackHole.new : BlackHole ℝ)).getWarp
          (CMath.mk Real.sqrt Real.cos Real.sin) 3 4 =
        -(SpacetimeGrid.new (BlackHole.new : BlackHole ℝ)).warpStrength /
          (0.5 * Real.sqrt (3 * 3 + 4 * 4)) ∧
      (SpacetimeGrid.new (BlackHole.new : BlackHole ℝ)).getWarp
          (CMath.mk Real.sqrt Real.cos Real.sin) 3 4 < 0 ∧
      ∀ x2 z2 : ℝ, Real.sqrt (3 * 3 + 4 * 4) < Real.sqrt (x2 * x2 + z2 * z2) →
        (SpacetimeGrid.new (BlackHole.new : BlackHole ℝ)).getWarp
            (CMath.mk Real.sqrt Real.cos Real.sin) 3 4 <
          (SpacetimeGrid.new (BlackHole.new : BlackHole ℝ)).getWarp
            (CMath.mk Real.sqrt Real.cos Real.sin) x2 z2 :=
  (getWarp_funnel_exact (CMath.mk Real.sqrt Real.cos Real.sin)
    (SpacetimeGrid.new (BlackHole.new : BlackHole ℝ))
    (by norm_num [SpacetimeGrid.new, BlackHole.new])
    (by norm_num [SpacetimeGrid.new]) 3 4).2
    (by
      show (2.0 : ℝ) ≤ Real.sqrt (3 * 3 + 4 * 4)
      have h : (3 * 3 + 4 * 4 : ℝ) = 5 ^ 2 := by norm_num
      rw [h, Real.sqrt_sq (by norm_num)]
      norm_num)

/-! ### binary32 rounding -/

/-- The grid spacing is positive. -/
theorem F32.spacing_pos (a : ℚ) : 0 < F32.spacing a := by
  unfold F32.spacing
  positivity

/-- Rounding to the nearest integer does not go below the floor. -/
theorem F32.floor_le_roundHalfEven (t : ℚ) : ⌊t⌋ ≤ F32.roundHalfEven t := by
  unfold F32.roundHalfEven
  split_ifs <;> omega

/-- Rounding to the nearest integer does not go above the floor plus one. -/
theorem F32.roundHalfEven_le_floor_add_one (t : ℚ) : F32.roundHalfEven t ≤ ⌊t⌋ + 1 := by
  unfold F32.roundHalfEven
  split_ifs <;> omega

/-- An integer rounds to itself. -/
theorem F32.roundHalfEven_intCast (n : ℤ) : F32.roundHalfEven (n : ℚ) = n := by
  unfold F32.roundHalfEven
  simp

/-- Rounding to the nearest integer stays at or below an integer upper bound. -/
theorem F32.roundHalfEven_le_of_le (t : ℚ) (n : ℤ) (h : t ≤ n) : F32.roundHalfEven t ≤ n := by
  have hf : ⌊t⌋ ≤ n := Int.cast_le.mp (le_trans (Int.floor_le t) h)
  rcases lt_or_eq_of_le hf with hlt | heq
  · have := F32.roundHalfEven_le_floor_add_one t
    omega
  · have ht : t = (n : ℚ) := le_antisymm h (by rw [← heq]; exact Int.floor_le t)
    rw [ht, F32.roundHalfEven_intCast]

/-- Rounding to the nearest integer stays at or above an integer lower bound. -/
theorem F32.le_roundHalfEven_of_le (t : ℚ) (n : ℤ) (h : (n : ℚ) ≤ t) :
    n ≤ F32.roundHalfEven t :=
  le_trans (Int.le_floor.mpr h) (F32.floor_le_roundHalfEven t)

/-- Rounding to the nearest integer is monotone. -/
theorem F32.roundHalfEven_mono (s t : ℚ) (h : s ≤ t) :
    F32.roundHalfEven s ≤ F32.roundHalfEven t := by
  have hf : ⌊s⌋ ≤ ⌊t⌋ := Int.floor_mono h
  rcases lt_or_eq_of_le hf with hlt | heq
  · have h1 := F32.roundHalfEven_le_floor_add_one s
    have h2 := F32.floor_le_roundHalfEven t
    omega
  · unfold F32.roundHalfEven
    rw [heq]
    split_ifs <;> first | omega | linarith

/-- A value within one half of an integer rounds to that integer. -/
theorem F32.roundHalfEven_eq_of_abs_lt (t : ℚ) (n : ℤ) (h : |t - n| < 1 / 2) :
    F32.roundHalfEven t = n := by
  rw [abs_lt] at h
  obtain ⟨h1, h2⟩ := h
  by_cases hn : (n : ℚ) ≤ t
  · have hfl : ⌊t⌋ = n := by
      rw [Int.floor_eq_iff]
      constructor
      · exact hn
      · linarith
    unfold F32.roundHalfEven
    rw [hfl, if_pos (by linarith)]
  · push_neg at hn
    have hfl : ⌊t⌋ = n - 1 := by
      rw [Int.floor_eq_iff]
      push_cast
      constructor <;> linarith
    unfold F32.roundHalfEven
    rw [hfl]
    push_cast
    rw [if_neg (by linarith), if_pos (by linarith)]
    ring

/-- The logarithm of a positive rational is fixed by the binade it lies in. -/
theorem F32.log_eq (a : ℚ) (e : ℤ) (h1 : (2 : ℚ) ^ e ≤ a) (h2 : a < (2 : ℚ) ^ (e + 1)) :
    Int.log 2 a = e := by
  have ha : 0 < a := lt_of_lt_of_le (by positivity) h1
  apply le_antisymm
  · have := (Int.lt_zpow_iff_log_lt (b := 2) (by norm_num) ha (x := e + 1)).mp
      (by simpa using h2)
    omega
  · exact (Int.zpow_le_iff_le_log (b := 2) (by norm_num) ha).mp (by simpa using h1)

/-- A positive rational is at least `2` to its logarithm. -/
theorem F32.zpow_log_le (a : ℚ) (ha : 0 < a) : (2 : ℚ) ^ Int.log 2 a ≤ a := by
  simpa using Int.zpow_log_le_self (b := 2) (by norm_num) ha

/-- A rational is below `2` to its logarithm plus one. -/
theorem F32.lt_zpow_log_succ (a : ℚ) : a < (2 : ℚ) ^ (Int.log 2 a + 1) := by
  simpa using Int.lt_zpow_succ_log_self (b := 2) (by norm_num) a

/-- The rounded magnitude is non-negative. -/
theorem F32.mag_nonneg (a : ℚ) (ha : 0 ≤ a) : 0 ≤ F32.mag a := by
  unfold F32.mag
  apply mul_nonneg _ (F32.spacing_pos a).le
  have h0 : (0 : ℚ) ≤ a / F32.spacing a := div_nonneg ha (F32.spacing_pos a).le
  have := F32.le_roundHalfEven_of_le (a / F32.spacing a) 0 (by simpa using h0)
  exact_mod_cast this

/-- The rounded magnitude stays at or below the top of the binade. -/
theorem F32.mag_le_top (a : ℚ) :
    F32.mag a ≤ (2 : ℚ) ^ (max (Int.log 2 a) (-126) + 1) := by
  have hu := F32.spacing_pos a
  have ha : a < (2 : ℚ) ^ (max (Int.log 2 a) (-126) + 1) :=
    lt_of_lt_of_le (F32.lt_zpow_log_succ a)
      (zpow_le_zpow_right₀ (by norm_num) (by omega))
  have e : (2 : ℚ) ^ (max (Int.log 2 a) (-126) + 1) = ((2 ^ 24 : ℤ) : ℚ) * F32.spacing a := by
    have c : ((2 ^ 24 : ℤ) : ℚ) = (2 : ℚ) ^ (24 : ℤ) := by norm_num
    unfold F32.spacing
    rw [c, ← zpow_add₀ (by norm_num)]
    congr 1
    ring
  rw [e]
  unfold F32.mag
  apply mul_le_mul_of_nonneg_right _ hu.le
  have : a / F32.spacing a ≤ ((2 ^ 24 : ℤ) : ℚ) := by
    rw [div_le_iff₀ hu, ← e]
    exact ha.le
  exact_mod_cast F32.roundHalfEven_le_of_le _ _ this

/-- The rounded magnitude of a normal number stays at or above the bottom of the binade. -/
theorem F32.bottom_le_mag (a : ℚ) (ha : 0 < a) (hn : -126 ≤ Int.log 2 a) :
    (2 : ℚ) ^ Int.log 2 a ≤ F32.mag a := by
  have hu := F32.spacing_pos a
  have e : (2 : ℚ) ^ Int.log 2 a = ((2 ^ 23 : ℤ) : ℚ) * F32.spacing a := by
    have c : ((2 ^ 23 : ℤ) : ℚ) = (2 : ℚ) ^ (23 : ℤ) := by norm_num
    unfold F32.spacing
    rw [max_eq_left hn, c, ← zpow_add₀ (by norm_num)]
    congr 1
    ring
  rw [e]
  unfold F32.mag
  apply mul_le_mul_of_nonneg_right _ hu.le
  have : ((2 ^ 23 : ℤ) : ℚ) ≤ a / F32.spacing a := by
    rw [le_div_iff₀ hu, ← e]
    exact F32.zpow_log_le a ha
  exact_mod_cast F32.le_roundHalfEven_of_le _ _ this

/-- The rounded magnitude is monotone. -/
theorem F32.mag_mono (a b : ℚ) (ha : 0 < a) (hab : a ≤ b) : F32.mag a ≤ F32.mag b := by
  have hb : 0 < b := lt_of_lt_of_le ha hab
  have hlog : Int.log 2 a ≤ Int.log 2 b := Int.log_mono_right ha hab
  by_cases he : max (Int.log 2 a) (-126) = max (Int.log 2 b) (-126)
  · have hs : F32.spacing a = F32.spacing b := by
      unfold F32.spacing
      rw [he]
    unfold F32.mag
    rw [hs]
    apply mul_le_mul_of_nonneg_right _ (F32.spacing_pos b).le
    have : a / F32.spacing b ≤ b / F32.spacing b :=
      div_le_div_of_nonneg_right hab (F32.spacing_pos b).le
    exact_mod_cast F32.roundHalfEven_mono _ _ this
  · have hlt : max (Int.log 2 a) (-126) + 1 ≤ Int.log 2 b := by
      rcases le_total (Int.log 2 a) (-126) with h1 | h1
      · rcases le_total (Int.log 2 b) (-126) with h2 | h2
        · rw [max_eq_right h1, max_eq_right h2] at he
          exact absurd rfl he
        · rw [max_eq_right h1, max_eq_left h2] at he
          rw [max_eq_right h1]
          omega
      · have h2 : -126 ≤ Int.log 2 b := le_trans h1 hlog
        rw [max_eq_left h1, max_eq_left h2] at he
        rw [max_eq_left h1]
        omega
    have hn : -126 ≤ Int.log 2 b := by
      have := le_max_right (Int.log 2 a) (-126)
      omega
    calc F32.mag a ≤ (2 : ℚ) ^ (max (Int.log 2 a) (-126) + 1) := F32.mag_le_top a
      _ ≤ (2 : ℚ) ^ Int.log 2 b := zpow_le_zpow_right₀ (by norm_num) hlt
      _ ≤ F32.mag b := F32.bottom_le_mag b hb hn

/-- A power of two from `2^(-149)` on is its own rounded magnitude. -/
theorem F32.mag_zpow (k : ℤ) (hk : -149 ≤ k) : F32.mag ((2 : ℚ) ^ k) = (2 : ℚ) ^ k := by
  have hlog : Int.log 2 ((2 : ℚ) ^ k) = k := by
    simpa using Int.log_zpow (R := ℚ) (b := 2) (by norm_num) k
  obtain ⟨n, hn⟩ : ∃ n : ℕ, (n : ℤ) = k - (max k (-126) - 23) := by
    refine ⟨(k - (max k (-126) - 23)).toNat, Int.toNat_of_nonneg ?_⟩
    rcases le_total k (-126) with h | h
    · rw [max_eq_right h]; omega
    · rw [max_eq_left h]; omega
  have hdiv : (2 : ℚ) ^ k / F32.spacing ((2 : ℚ) ^ k) = (((2 : ℤ) ^ n : ℤ) : ℚ) := by
    unfold F32.spacing
    rw [hlog, ← zpow_sub₀ (by norm_num), ← hn]
    push_cast
    rw [zpow_natCast]
  unfold F32.mag
  rw [hdiv, F32.roundHalfEven_intCast, ← hdiv]
  exact div_mul_cancel₀ _ (F32.spacing_pos _).ne'

/-- Rounding keeps a magnitude at or below a power of two that bounds it. -/
theorem F32.mag_le_zpow (a : ℚ) (k : ℤ) (hk : -149 ≤ k) (ha : 0 < a) (h : a ≤ (2 : ℚ) ^ k) :
    F32.mag a ≤ (2 : ℚ) ^ k := by
  rw [← F32.mag_zpow k hk]
  exact F32.mag_mono a _ ha h

/-- Rounding keeps a magnitude at or above a power of two that it bounds. -/
theorem F32.zpow_le_mag (a : ℚ) (k : ℤ) (hk : -149 ≤ k) (h : (2 : ℚ) ^ k ≤ a) :
    (2 : ℚ) ^ k ≤ F32.mag a := by
  rw [← F32.mag_zpow k hk]
  exact F32.mag_mono _ a (by positivity) h

/-- The three outcomes of rounding a positive real result. -/
theorem F32.round_pos (q : ℚ) (hq : 0 < q) :
    ((2 : ℚ) ^ 128 - 2 ^ 103 ≤ q ∧ F32.round q = F32.inf false) ∨
    (q < (2 : ℚ) ^ 128 - 2 ^ 103 ∧ F32.mag q = 0 ∧ F32.round q = F32.zero false) ∨
    (q < (2 : ℚ) ^ 128 - 2 ^ 103 ∧ 0 < F32.mag q ∧ F32.round q = F32.finite (F32.mag q)) := by
  have habs : |q| = q := abs_of_pos hq
  have hneg : ¬ q < 0 := not_lt.mpr hq.le
  unfold F32.round
  rw [habs]
  by_cases h1 : (2 : ℚ) ^ 128 - 2 ^ 103 ≤ q
  · left
    exact ⟨h1, by simp [h1, hneg]⟩
  · right
    by_cases h2 : F32.mag q = 0
    · left
      exact ⟨not_le.mp h1, h2, by simp [h1, h2, hneg]⟩
    · right
      exact ⟨not_le.mp h1, lt_of_le_of_ne (F32.mag_nonneg q hq.le) (Ne.symm h2),
        by simp [h1, h2, hneg]⟩

/-- The three outcomes of rounding a negative real result. -/
theorem F32.round_neg (q : ℚ) (hq : 0 < q) :
    ((2 : ℚ) ^ 128 - 2 ^ 103 ≤ q ∧ F32.round (-q) = F32.inf true) ∨
    (q < (2 : ℚ) ^ 128 - 2 ^ 103 ∧ F32.mag q = 0 ∧ F32.round (-q) = F32.zero true) ∨
    (q < (2 : ℚ) ^ 128 - 2 ^ 103 ∧ 0 < F32.mag q ∧
      F32.round (-q) = F32.finite (-F32.mag q)) := by
  have habs : |(-q)| = q := by rw [abs_neg, abs_of_pos hq]
  have hneg : -q < 0 := neg_neg_of_pos hq
  unfold F32.round
  rw [habs]
  by_cases h1 : (2 : ℚ) ^ 128 - 2 ^ 103 ≤ q
  · left
    exact ⟨h1, by simp [h1, hq]⟩
  · right
    by_cases h2 : F32.mag q = 0
    · left
      exact ⟨not_le.mp h1, h2, by simp [h1, h2, hq]⟩
    · right
      exact ⟨not_le.mp h1, lt_of_le_of_ne (F32.mag_nonneg q hq.le) (Ne.symm h2),
        by simp [h1, h2, hq]⟩

/-- The rounded magnitude of a normal number, from its binade and its nearest integer
multiple of the spacing. -/
theorem F32.mag_eq (q : ℚ) (e n : ℤ) (he : -126 ≤ e) (h1 : (2 : ℚ) ^ e ≤ q)
    (h2 : q < (2 : ℚ) ^ (e + 1)) (hn : |q / (2 : ℚ) ^ (e - 23) - n| < 1 / 2) :
    F32.mag q = (n : ℚ) * (2 : ℚ) ^ (e - 23) := by
  unfold F32.mag F32.spacing
  rw [F32.log_eq q e h1 h2, max_eq_left he, F32.roundHalfEven_eq_of_abs_lt _ n hn]

/-- A positive real result in a normal binade rounds to the nearest multiple of the
spacing of that binade. -/
theorem F32.round_eq (q : ℚ) (e n : ℤ) (he : -126 ≤ e) (he2 : e ≤ 126)
    (h1 : (2 : ℚ) ^ e ≤ q) (h2 : q < (2 : ℚ) ^ (e + 1))
    (hn : |q / (2 : ℚ) ^ (e - 23) - n| < 1 / 2) :
    F32.round q = F32.finite ((n : ℚ) * (2 : ℚ) ^ (e - 23)) := by
  have hq : 0 < q := lt_of_lt_of_le (by positivity) h1
  have hm := F32.mag_eq q e n he h1 h2 hn
  have hlt : q < (2 : ℚ) ^ 128 - 2 ^ 103 := by
    have : (2 : ℚ) ^ (e + 1) ≤ (2 : ℚ) ^ (127 : ℤ) :=
      zpow_le_zpow_right₀ (by norm_num) (by omega)
    have h3 : (2 : ℚ) ^ (127 : ℤ) < (2 : ℚ) ^ 128 - 2 ^ 103 := by norm_num
    linarith
  have hpos : 0 < F32.mag q :=
    lt_of_lt_of_le (by positivity) (F32.zpow_le_mag q e (by omega) h1)
  rcases F32.round_pos q hq with h | h | h
  · exact absurd h.1 (not_le.mpr hlt)
  · exact absurd h.2.1 hpos.ne'
  · rw [h.2.2, hm]

/-- A negative real result in a normal binade rounds to the nearest multiple of the
spacing of that binade. -/
theorem F32.round_neg_eq (q : ℚ) (e n : ℤ) (he : -126 ≤ e) (he2 : e ≤ 126)
    (h1 : (2 : ℚ) ^ e ≤ q) (h2 : q < (2 : ℚ) ^ (e + 1))
    (hn : |q / (2 : ℚ) ^ (e - 23) - n| < 1 / 2) :
    F32.round (-q) = F32.finite (-((n : ℚ) * (2 : ℚ) ^ (e - 23))) := by
  have hq : 0 < q := lt_of_lt_of_le (by positivity) h1
  have hm := F32.mag_eq q e n he h1 h2 hn
  have hlt : q < (2 : ℚ) ^ 128 - 2 ^ 103 := by
    have : (2 : ℚ) ^ (e + 1) ≤ (2 : ℚ) ^ (127 : ℤ) :=
      zpow_le_zpow_right₀ (by norm_num) (by omega)
    have h3 : (2 : ℚ) ^ (127 : ℤ) < (2 : ℚ) ^ 128 - 2 ^ 103 := by norm_num
    linarith
  have hpos : 0 < F32.mag q :=
    lt_of_lt_of_le (by positivity) (F32.zpow_le_mag q e (by omega) h1)
  rcases F32.round_neg q hq with h | h | h
  · exact absurd h.1 (not_le.mpr hlt)
  · exact absurd h.2.1 hpos.ne'
  · rw [h.2.2, hm]

/-- A positive real result of `2^128 - 2^103` or more overflows to `+inf`. -/
theorem F32.round_overflow (q : ℚ) (h : (2 : ℚ) ^ 128 - 2 ^ 103 ≤ q) :
    F32.round q = F32.inf false := by
  have hq : 0 < q := lt_of_lt_of_le (by norm_num) h
  rcases F32.round_pos q hq with h1 | h1 | h1
  · exact h1.2
  · exact absurd h (not_le.mpr h1.1)
  · exact absurd h (not_le.mpr h1.1)

/-- The literal `2.0f`. -/
theorem F32.lit_two : F32.lit 2.0 = F32.finite 2 := by
  have h := F32.round_eq 2 1 (2 ^ 23) (by norm_num) (by norm_num) (by norm_num) (by norm_num)
    (by norm_num)
  unfold F32.lit
  rw [if_neg (by norm_num)]
  norm_num at h ⊢
  exact h

/-- The literal `8.0f`. -/
theorem F32.lit_eight : F32.lit 8.0 = F32.finite 8 := by
  have h := F32.round_eq 8 3 (2 ^ 23) (by norm_num) (by norm_num) (by norm_num) (by norm_num)
    (by norm_num)
  unfold F32.lit
  rw [if_neg (by norm_num)]
  norm_num at h ⊢
  exact h

/-- The literal `50.0f`. -/
theorem F32.lit_fifty : F32.lit 50.0 = F32.finite 50 := by
  have h := F32.round_eq 50 5 13107200 (by norm_num) (by norm_num) (by norm_num) (by norm_num)
    (by norm_num)
  unfold F32.lit
  rw [if_neg (by norm_num)]
  norm_num at h ⊢
  exact h

/-- The literal `100.0f`. -/
theorem F32.lit_hundred : F32.lit 100.0 = F32.finite 100 := by
  have h := F32.round_eq 100 6 13107200 (by norm_num) (by norm_num) (by norm_num) (by norm_num)
    (by norm_num)
  unfold F32.lit
  rw [if_neg (by norm_num)]
  norm_num at h ⊢
  exact h

/-- The literal `0.5f`. -/
theorem F32.lit_half : F32.lit 0.5 = F32.finite (1 / 2) := by
  have h := F32.round_eq (1 / 2) (-1) (2 ^ 23) (by norm_num) (by norm_num) (by norm_num)
    (by norm_num) (by norm_num)
  unfold F32.lit
  rw [if_neg (by norm_num)]
  norm_num at h ⊢
  exact h

/-- The sum of a zero and a non-zero finite value. -/
theorem F32.add_zero_finite (s : Bool) (q : ℚ) :
    F32.add (F32.zero s) (F32.finite q) = F32.finite q := rfl

/-- The sum of a non-zero finite value and a zero. -/
theorem F32.add_finite_zero (q : ℚ) (s : Bool) :
    F32.add (F32.finite q) (F32.zero s) = F32.finite q := rfl

/-- The sum of an infinity and a zero. -/
theorem F32.add_inf_zero (s t : Bool) :
    F32.add (F32.inf s) (F32.zero t) = F32.inf s := rfl

/-- The sum of two non-zero finite values. -/
theorem F32.add_finite_finite (a b : ℚ) :
    F32.add (F32.finite a) (F32.finite b) =
      if a + b = 0 then F32.zero false else F32.round (a + b) := rfl

/-- The product of two non-zero finite values. -/
theorem F32.mul_finite_finite (a b : ℚ) :
    F32.mul (F32.finite a) (F32.finite b) = F32.round (a * b) := rfl

/-- The product of two zeros. -/
theorem F32.mul_zero_zero (s t : Bool) :
    F32.mul (F32.zero s) (F32.zero t) = F32.zero (s != t) := rfl

/-- The product of two infinities. -/
theorem F32.mul_inf_inf (s t : Bool) :
    F32.mul (F32.inf s) (F32.inf t) = F32.inf (s != t) := rfl

/-- The product of an infinity and a non-zero finite value. -/
theorem F32.mul_inf_finite (s : Bool) (q : ℚ) :
    F32.mul (F32.inf s) (F32.finite q) = F32.inf (s != decide (q < 0)) := rfl

/-- The quotient of two non-zero finite values. -/
theorem F32.div_finite_finite (a b : ℚ) :
    F32.div (F32.finite a) (F32.finite b) = F32.round (a / b) := rfl

/-- The quotient of a non-zero finite value and an infinity. -/
theorem F32.div_finite_inf (q : ℚ) (t : Bool) :
    F32.div (F32.finite q) (F32.inf t) = F32.zero (decide (q < 0) != t) := rfl

/-- The square root of the positive infinity. -/
theorem F32.sqrt_inf : F32.sqrt (F32.inf false) = F32.inf false := rfl

/-- The square root of a positive finite value. -/
theorem F32.sqrt_finite (q : ℚ) (hq : 0 < q) : F32.sqrt (F32.finite q) = F32.roundSqrt q := by
  show (if q < 0 then F32.nan else F32.roundSqrt q) = _
  rw [if_neg (not_lt.mpr hq.le)]

/-- The comparison of the positive infinity with a finite value. -/
theorem F32.lt_inf_finite (s : Bool) (q : ℚ) : F32.lt (F32.inf s) (F32.finite q) = s := rfl

/-- The comparison of a zero with a finite value. -/
theorem F32.lt_zero_finite (s : Bool) (q : ℚ) :
    F32.lt (F32.zero s) (F32.finite q) = decide (0 < q) := rfl

/-- The comparison of two non-zero finite values. -/
theorem F32.lt_finite_finite (a b : ℚ) :
    F32.lt (F32.finite a) (F32.finite b) = decide (a < b) := rfl

/-- The comparison of a non-zero finite value with a zero. -/
theorem F32.lt_finite_zero (q : ℚ) (s : Bool) :
    F32.lt (F32.finite q) (F32.zero s) = decide (q < 0) := rfl

/-- The comparison of two zeros. -/
theorem F32.lt_zero_zero (s t : Bool) : F32.lt (F32.zero s) (F32.zero t) = false := rfl

/-- A non-zero finite value and a zero do not compare equal. -/
theorem F32.eq_finite_zero (q : ℚ) (t : Bool) : F32.eq (F32.finite q) (F32.zero t) = false := rfl

/-- The square root of a positive finite value that rounds down: `n` is the integer
square root of `q / u^2` and `q` lies below the square of the midpoint. -/
theorem F32.roundSqrt_down (q : ℚ) (l h : ℤ) (N n : ℕ) (h1 : (2 : ℚ) ^ l ≤ q)
    (h2 : q < (2 : ℚ) ^ (l + 1)) (hh : Int.fdiv l 2 = h)
    (hN : q / ((2 : ℚ) ^ (h - 23) * (2 : ℚ) ^ (h - 23)) = (N : ℚ))
    (hn : n * n ≤ N ∧ N < (n + 1) * (n + 1))
    (hd : q < (((n : ℚ) + 1 / 2) * (2 : ℚ) ^ (h - 23)) * (((n : ℚ) + 1 / 2) * (2 : ℚ) ^ (h - 23))) :
    F32.roundSqrt q = F32.finite ((n : ℚ) * (2 : ℚ) ^ (h - 23)) := by
  have hs : Nat.sqrt N = n := (Nat.eq_sqrt.mpr hn).symm
  unfold F32.roundSqrt
  simp only [F32.log_eq q l h1 h2, hh, hN, Nat.floor_natCast, hs]
  rw [if_pos hd]

/-- The square root of a positive finite value that rounds up. -/
theorem F32.roundSqrt_up (q : ℚ) (l h : ℤ) (N n : ℕ) (h1 : (2 : ℚ) ^ l ≤ q)
    (h2 : q < (2 : ℚ) ^ (l + 1)) (hh : Int.fdiv l 2 = h)
    (hN : q / ((2 : ℚ) ^ (h - 23) * (2 : ℚ) ^ (h - 23)) = (N : ℚ))
    (hn : n * n ≤ N ∧ N < (n + 1) * (n + 1))
    (hd : (((n : ℚ) + 1 / 2) * (2 : ℚ) ^ (h - 23)) * (((n : ℚ) + 1 / 2) * (2 : ℚ) ^ (h - 23)) < q) :
    F32.roundSqrt q = F32.finite (((n : ℚ) + 1) * (2 : ℚ) ^ (h - 23)) := by
  have hs : Nat.sqrt N = n := (Nat.eq_sqrt.mpr hn).symm
  unfold F32.roundSqrt
  simp only [F32.log_eq q l h1 h2, hh, hN, Nat.floor_natCast, hs]
  rw [if_neg (not_lt.mpr hd.le), if_pos hd]

/-- The distance `sqrtf(31 * 31 + 0 * 0)` is `31`. -/
theorem dist32_thirtyOne :
    SpacetimeGrid.dist32 (F32.finite 31) (F32.zero false) = F32.finite 31 := by
  have hxx : F32.mul (F32.finite 31) (F32.finite 31) = F32.finite 961 := by
    have h := F32.round_eq (31 * 31) 9 15745024
      (by norm_num) (by norm_num) (by norm_num) (by norm_num) (by norm_num [abs_lt])
    norm_num at h
    show F32.round _ = _
    norm_num
    exact h
  have hsq : F32.roundSqrt 961 = F32.finite 31 := by
    have h := F32.roundSqrt_down 961 9 4 264157668573184 16252928
      (by norm_num) (by norm_num) (by decide) (by norm_num) (by norm_num) (by norm_num)
    norm_num at h
    exact h
  simp only [SpacetimeGrid.dist32, hxx, F32.mul_zero_zero, F32.add_finite_zero]
  rw [F32.sqrt_finite _ (by norm_num), hsq]

/-- The distance `sqrtf(x * x + 0 * 0)` at the float `x = 31 + 2^(-19)` next above `31` is
`x`. -/
theorem dist32_thirtyOne_next :
    SpacetimeGrid.dist32 (F32.finite (16252929 / 524288)) (F32.zero false) =
      F32.finite (16252929 / 524288) := by
  have hxx : F32.mul (F32.finite (16252929 / 524288)) (F32.finite (16252929 / 524288)) =
      F32.finite (7872513 / 8192) := by
    have h := F32.round_eq (16252929 / 524288 * (16252929 / 524288)) 9 15745026
      (by norm_num) (by norm_num) (by norm_num) (by norm_num) (by norm_num [abs_lt])
    norm_num at h
    show F32.round _ = _
    norm_num
    exact h
  have hsq : F32.roundSqrt (7872513 / 8192) = F32.finite (16252929 / 524288) := by
    have h := F32.roundSqrt_down (7872513 / 8192) 9 4 264157702127616 16252929
      (by norm_num) (by norm_num) (by decide) (by norm_num) (by norm_num) (by norm_num)
    norm_num at h
    exact h
  simp only [SpacetimeGrid.dist32, hxx, F32.mul_zero_zero, F32.add_finite_zero]
  rw [F32.sqrt_finite _ (by norm_num), hsq]

/-! ### binary32 order -/

/-- Rounding is monotone on negative real results. -/
theorem F32.le_round_neg_round_neg (a b : ℚ) (ha : 0 < a) (hab : a ≤ b) :
    F32.le (F32.round (-b)) (F32.round (-a)) = true := by
  have hb : 0 < b := lt_of_lt_of_le ha hab
  have hm := F32.mag_mono a b ha hab
  rcases F32.round_neg a ha with h1 | h1 | h1 <;> rcases F32.round_neg b hb with h2 | h2 | h2
  · rw [h1.2, h2.2]; rfl
  · exact absurd (le_trans h1.1 hab) (not_le.mpr h2.1)
  · exact absurd (le_trans h1.1 hab) (not_le.mpr h2.1)
  · rw [h1.2.2, h2.2]; rfl
  · rw [h1.2.2, h2.2.2]; rfl
  · rw [h1.2.2, h2.2.2]
    simp [F32.le, F32.lt, h2.2.1]
  · rw [h1.2.2, h2.2]; rfl
  · rw [h2.2.1] at hm
    exact absurd hm (not_le.mpr h1.2.1)
  · rw [h1.2.2, h2.2.2]
    simp only [F32.le, F32.lt, F32.eq, Bool.or_eq_true, decide_eq_true_eq, neg_lt_neg_iff,
      neg_inj]
    rcases lt_or_eq_of_le hm with h | h
    · exact Or.inl h
    · exact Or.inr h.symm

/-- A rounded negative real result is at or below `-0`. -/
theorem F32.le_round_neg_zero (a : ℚ) (ha : 0 < a) (s : Bool) :
    F32.le (F32.round (-a)) (F32.zero s) = true := by
  rcases F32.round_neg a ha with h | h | h
  · rw [h.2]; rfl
  · rw [h.2.2]; rfl
  · rw [h.2.2]
    simp [F32.le, F32.lt, h.2.1]

/-- The value of `getWarp` for the grid of the program, with its literals evaluated. -/
theorem getWarp32_eq (x z : F32) :
    (SpacetimeGrid.new32 BlackHole.new32).getWarp32 x z =
      if F32.lt (SpacetimeGrid.dist32 x z) (F32.finite 2) then F32.finite (-100)
      else F32.div (F32.finite (-8)) (F32.mul (SpacetimeGrid.dist32 x z) (F32.finite (1 / 2))) := by
  simp only [SpacetimeGrid.getWarp32, SpacetimeGrid.new32, BlackHole.new32, F32.lit_two,
    F32.lit_eight, F32.lit_half, F32.lit_hundred, F32.neg, SpacetimeGrid.dist32]

/-- The warp at an infinite computed distance is `-0`. -/
theorem warp32_inf :
    F32.div (F32.finite (-8)) (F32.mul (F32.inf false) (F32.finite (1 / 2))) = F32.zero true := by
  rw [F32.mul_inf_finite, F32.div_finite_inf]
  norm_num

/-- The warp at a finite computed distance `q ≥ 2`: `-0` when `q * 0.5` overflows, and
otherwise the rounded quotient of `-8` by the rounded half distance, which lies in
`[1, 2^128]`. -/
theorem warp32_finite (q : ℚ) (hq : 2 ≤ q) :
    ((2 : ℚ) ^ 128 - 2 ^ 103 ≤ q * (1 / 2) ∧
      F32.div (F32.finite (-8)) (F32.mul (F32.finite q) (F32.finite (1 / 2))) = F32.zero true) ∨
    (q * (1 / 2) < (2 : ℚ) ^ 128 - 2 ^ 103 ∧ 1 ≤ F32.mag (q * (1 / 2)) ∧
      F32.mag (q * (1 / 2)) ≤ (2 : ℚ) ^ (128 : ℤ) ∧
      F32.div (F32.finite (-8)) (F32.mul (F32.finite q) (F32.finite (1 / 2))) =
        F32.round (-(8 / F32.mag (q * (1 / 2))))) := by
  have hpos : 0 < q * (1 / 2) := by linarith
  have h1 : (1 : ℚ) ≤ F32.mag (q * (1 / 2)) := by
    have := F32.zpow_le_mag (q * (1 / 2)) 0 (by norm_num) (by norm_num; linarith)
    simpa using this
  rw [F32.mul_finite_finite]
  rcases F32.round_pos _ hpos with h | h | h
  · left
    refine ⟨h.1, ?_⟩
    rw [h.2, F32.div_finite_inf]
    norm_num
  · exfalso
    rw [h.2.1] at h1
    norm_num at h1
  · right
    refine ⟨h.1, h1, ?_, ?_⟩
    · apply F32.mag_le_zpow _ 128 (by norm_num) hpos
      have : (2 : ℚ) ^ 128 - 2 ^ 103 ≤ (2 : ℚ) ^ (128 : ℤ) := by norm_num
      linarith [h.1]
    · rw [h.2.2, F32.div_finite_finite, neg_div]

/-- The rounded quotient of `-8` by a value in `[1, 2^128]` is a non-zero finite value in
`[-8, 0)`. -/
theorem warp32_range (y : ℚ) (h1 : 1 ≤ y) (h2 : y ≤ (2 : ℚ) ^ (128 : ℤ)) :
    ∃ v : ℚ, F32.round (-(8 / y)) = F32.finite v ∧ -8 ≤ v ∧ v < 0 := by
  have hy : 0 < y := by linarith
  have hpos : 0 < 8 / y := by positivity
  have hle : 8 / y ≤ (2 : ℚ) ^ (3 : ℤ) := by
    rw [div_le_iff₀ hy]
    norm_num
    linarith
  have hge : (2 : ℚ) ^ (-125 : ℤ) ≤ 8 / y := by
    rw [le_div_iff₀ hy]
    calc (2 : ℚ) ^ (-125 : ℤ) * y ≤ (2 : ℚ) ^ (-125 : ℤ) * (2 : ℚ) ^ (128 : ℤ) :=
          mul_le_mul_of_nonneg_left h2 (by positivity)
      _ = 8 := by
          rw [← zpow_add₀ (by norm_num)]
          norm_num
  have hm1 := F32.mag_le_zpow (8 / y) 3 (by norm_num) hpos hle
  have hm2 := F32.zpow_le_mag (8 / y) (-125) (by norm_num) hge
  have hmpos : 0 < F32.mag (8 / y) := lt_of_lt_of_le (by positivity) hm2
  rcases F32.round_neg (8 / y) hpos with h | h | h
  · exfalso
    have : (2 : ℚ) ^ (3 : ℤ) < (2 : ℚ) ^ 128 - 2 ^ 103 := by norm_num
    linarith [h.1]
  · exact absurd h.2.1 hmpos.ne'
  · refine ⟨-F32.mag (8 / y), h.2.2, ?_, by linarith⟩
    have : (2 : ℚ) ^ (3 : ℤ) = 8 := by norm_num
    linarith

/-- Zero rounds to the integer zero. -/
theorem F32.roundHalfEven_zero : F32.roundHalfEven 0 = 0 := by
  have := F32.roundHalfEven_intCast 0
  simpa using this

/-- A rounded non-negative real result is a zero, a positive finite value or `+inf`. -/
theorem F32.nonNeg_round (q : ℚ) (hq : 0 ≤ q) : F32.NonNeg (F32.round q) := by
  rcases lt_or_eq_of_le hq with h0 | h0
  · rcases F32.round_pos q h0 with h | h | h
    · exact Or.inr (Or.inr h.2)
    · exact Or.inl ⟨false, h.2.2⟩
    · refine Or.inr (Or.inl ⟨_, h.2.2, h.2.1, ?_⟩)
      apply F32.mag_le_zpow q 128 (by norm_num) h0
      have : (2 : ℚ) ^ 128 - 2 ^ 103 ≤ (2 : ℚ) ^ (128 : ℤ) := by norm_num
      linarith [h.1]
  · left
    refine ⟨false, ?_⟩
    rw [← h0]
    unfold F32.round F32.mag
    simp [F32.roundHalfEven_zero]
    norm_num

/-- The square of a value other than NaN is a zero, a positive finite value or `+inf`. -/
theorem F32.nonNeg_mul_self (x : F32) (hx : x.isNumber = true) : F32.NonNeg (F32.mul x x) := by
  cases x with
  | zero s => exact Or.inl ⟨s != s, rfl⟩
  | finite q =>
    rw [F32.mul_finite_finite]
    exact F32.nonNeg_round _ (mul_self_nonneg q)
  | inf s =>
    right; right
    rw [F32.mul_inf_inf]
    simp
  | nan => exact absurd hx (by simp [F32.isNumber])

/-- Sums of zeros, positive finite values and `+inf` are of the same kind. -/
theorem F32.nonNeg_add (a b : F32) (ha : F32.NonNeg a) (hb : F32.NonNeg b) :
    F32.NonNeg (F32.add a b) := by
  rcases ha with ⟨s, rfl⟩ | ⟨p, rfl, hp, hp2⟩ | rfl <;>
    rcases hb with ⟨t, rfl⟩ | ⟨q, rfl, hq, hq2⟩ | rfl
  · exact Or.inl ⟨s && t, rfl⟩
  · exact Or.inr (Or.inl ⟨q, rfl, hq, hq2⟩)
  · exact Or.inr (Or.inr rfl)
  · exact Or.inr (Or.inl ⟨p, rfl, hp, hp2⟩)
  · rw [F32.add_finite_finite, if_neg (by linarith)]
    exact F32.nonNeg_round _ (by linarith)
  · exact Or.inr (Or.inr rfl)
  · exact Or.inr (Or.inr rfl)
  · exact Or.inr (Or.inr rfl)
  · exact Or.inr (Or.inr rfl)

/-- The rounded square root of a positive value of at most `2^128` is a finite value of
at most `2^65`. -/
theorem F32.roundSqrt_le (q : ℚ) (hq : 0 < q) (hq2 : q ≤ (2 : ℚ) ^ (128 : ℤ)) :
    ∃ r : ℚ, F32.roundSqrt q = F32.finite r ∧ r ≤ (2 : ℚ) ^ (65 : ℤ) := by
  have hl : Int.log 2 q < 129 := by
    apply (Int.lt_zpow_iff_log_lt (b := 2) (by norm_num) hq).mp
    have : (2 : ℚ) ^ (128 : ℤ) < (2 : ℚ) ^ (129 : ℤ) :=
      zpow_lt_zpow_right₀ (by norm_num) (by norm_num)
    simpa using lt_of_le_of_lt hq2 this
  have hfd : Int.fdiv (Int.log 2 q) 2 = Int.log 2 q / 2 := Int.fdiv_eq_ediv _ (by norm_num)
  set h := Int.fdiv (Int.log 2 q) 2 with hh
  have hh1 : h ≤ 64 := by omega
  have hh2 : Int.log 2 q + 1 ≤ 2 * h + 2 := by omega
  have hu : (0 : ℚ) < (2 : ℚ) ^ (h - 23) := by positivity
  have hquo : q / ((2 : ℚ) ^ (h - 23) * (2 : ℚ) ^ (h - 23)) < ((2 ^ 48 : ℕ) : ℚ) := by
    rw [div_lt_iff₀ (mul_pos hu hu)]
    have e : ((2 ^ 48 : ℕ) : ℚ) * ((2 : ℚ) ^ (h - 23) * (2 : ℚ) ^ (h - 23)) =
        (2 : ℚ) ^ (2 * h + 2) := by
      have c : ((2 ^ 48 : ℕ) : ℚ) = (2 : ℚ) ^ (48 : ℤ) := by norm_num
      rw [c, ← zpow_add₀ (by norm_num), ← zpow_add₀ (by norm_num)]
      congr 1
      ring
    rw [e]
    exact lt_of_lt_of_le (F32.lt_zpow_log_succ q) (zpow_le_zpow_right₀ (by norm_num) hh2)
  have hN : ⌊q / ((2 : ℚ) ^ (h - 23) * (2 : ℚ) ^ (h - 23))⌋₊ < 2 ^ 48 :=
    (Nat.floor_lt (div_nonneg hq.le (mul_pos hu hu).le)).mpr hquo
  have hn : Nat.sqrt ⌊q / ((2 : ℚ) ^ (h - 23) * (2 : ℚ) ^ (h - 23))⌋₊ < 2 ^ 24 := by
    rw [Nat.sqrt_lt']
    exact hN
  set n := Nat.sqrt ⌊q / ((2 : ℚ) ^ (h - 23) * (2 : ℚ) ^ (h - 23))⌋₊ with hndef
  have hn1 : ((n : ℚ) + 1) ≤ (2 : ℚ) ^ (24 : ℤ) := by
    have : n + 1 ≤ 2 ^ 24 := hn
    have h2 : ((n + 1 : ℕ) : ℚ) ≤ ((2 ^ 24 : ℕ) : ℚ) := Nat.cast_le.mpr this
    push_cast at h2
    norm_num
    linarith
  have hup : ((n : ℚ) + 1) * (2 : ℚ) ^ (h - 23) ≤ (2 : ℚ) ^ (65 : ℤ) := by
    calc ((n : ℚ) + 1) * (2 : ℚ) ^ (h - 23) ≤ (2 : ℚ) ^ (24 : ℤ) * (2 : ℚ) ^ (h - 23) :=
          mul_le_mul_of_nonneg_right hn1 hu.le
      _ = (2 : ℚ) ^ (h + 1) := by
          rw [← zpow_add₀ (by norm_num)]
          congr 1
          ring
      _ ≤ (2 : ℚ) ^ (65 : ℤ) := zpow_le_zpow_right₀ (by norm_num) (by omega)
  have hdown : (n : ℚ) * (2 : ℚ) ^ (h - 23) ≤ (2 : ℚ) ^ (65 : ℤ) := by
    have : (n : ℚ) * (2 : ℚ) ^ (h - 23) ≤ ((n : ℚ) + 1) * (2 : ℚ) ^ (h - 23) :=
      mul_le_mul_of_nonneg_right (by linarith) hu.le
    linarith
  unfold F32.roundSqrt
  simp only [← hh, ← hndef]
  split_ifs
  · exact ⟨_, rfl, hdown⟩
  · exact ⟨_, rfl, hup⟩
  · exact ⟨_, rfl, hdown⟩
  · exact ⟨_, rfl, hup⟩

/-- The square root of a zero, a positive finite value or `+inf` is a zero, a finite
value of at most `2^65`, or `+inf`. -/
theorem F32.sqrt_nonNeg (v : F32) (hv : F32.NonNeg v) :
    (∃ s : Bool, F32.sqrt v = F32.zero s) ∨
    (∃ r : ℚ, F32.sqrt v = F32.finite r ∧ r ≤ (2 : ℚ) ^ (65 : ℤ)) ∨
    F32.sqrt v = F32.inf false := by
  rcases hv with ⟨s, rfl⟩ | ⟨q, rfl, hq, hq2⟩ | rfl
  · exact Or.inl ⟨s, rfl⟩
  · right; left
    rw [F32.sqrt_finite q hq]
    exact F32.roundSqrt_le q hq hq2
  · exact Or.inr (Or.inr rfl)

/-- The distance computed by `getWarp` at coordinates other than NaN is a zero, a finite
value of at most `2^65`, or `+inf`. -/
theorem dist32_cases (x z : F32) (hx : x.isNumber = true) (hz : z.isNumber = true) :
    (∃ s : Bool, SpacetimeGrid.dist32 x z = F32.zero s) ∨
    (∃ r : ℚ, SpacetimeGrid.dist32 x z = F32.finite r ∧ r ≤ (2 : ℚ) ^ (65 : ℤ)) ∨
    SpacetimeGrid.dist32 x z = F32.inf false :=
  F32.sqrt_nonNeg _ (F32.nonNeg_add _ _ (F32.nonNeg_mul_self x hx) (F32.nonNeg_mul_self z hz))

/-- The warp at a finite computed distance `2 ≤ q ≤ 2^65`: the rounded quotient of `-8` by
the rounded half distance, a non-zero finite value in `[-8, 0)`. -/
theorem warp32_finite_value (q : ℚ) (hq : 2 ≤ q) (hq2 : q ≤ (2 : ℚ) ^ (65 : ℤ)) :
    1 ≤ F32.mag (q * (1 / 2)) ∧
    F32.div (F32.finite (-8)) (F32.mul (F32.finite q) (F32.finite (1 / 2))) =
      F32.round (-(8 / F32.mag (q * (1 / 2)))) ∧
    ∃ v : ℚ, F32.div (F32.finite (-8)) (F32.mul (F32.finite q) (F32.finite (1 / 2))) =
      F32.finite v ∧ -8 ≤ v ∧ v < 0 := by
  rcases warp32_finite q hq with h | h
  · exfalso
    have h1 : (2 : ℚ) ^ (65 : ℤ) < (2 : ℚ) ^ 128 - 2 ^ 103 := by norm_num
    linarith [h.1]
  · obtain ⟨_, h1, h2, h3⟩ := h
    refine ⟨h1, h3, ?_⟩
    rw [h3]
    exact warp32_range _ h1 h2

/-- C3, as the code has it on binary32 values, for the grid of the program (horizon
radius `2.0f`, warp strength `8.0f`) and coordinates other than NaN.  When the computed
distance `sqrtf(x*x + z*z)` is below the horizon radius, `getWarp(x, z)` is `-100`, under
the threshold `-50` of `draw`.  Otherwise it is `-warpStrength / (distance * 0.5f)` as
rounded: `-0` when the computed distance is `+inf`, and else a non-zero finite value in
`[-8, 0)`; and of two such points the one whose computed distance is at least as large
gets a value that is at least as large (not always a strictly larger one). -/
theorem getWarp32_funnel (x z : F32) (hx : x.isNumber = true) (hz : z.isNumber = true) :
    (F32.lt (SpacetimeGrid.dist32 x z) (BlackHole.new32).eventHorizonRadius = true →
      (SpacetimeGrid.new32 BlackHole.new32).getWarp32 x z = F32.finite (-100) ∧
      (∀ y : F32, SpacetimeGrid.skipsEdge32
        ((SpacetimeGrid.new32 BlackHole.new32).getWarp32 x z) y = true) ∧
      (∀ y : F32, SpacetimeGrid.skipsEdge32 y
        ((SpacetimeGrid.new32 BlackHole.new32).getWarp32 x z) = true)) ∧
    (F32.lt (SpacetimeGrid.dist32 x z) (BlackHole.new32).eventHorizonRadius = false →
      (SpacetimeGrid.new32 BlackHole.new32).getWarp32 x z =
        F32.div (F32.neg (SpacetimeGrid.new32 BlackHole.new32).warpStrength)
          (F32.mul (SpacetimeGrid.dist32 x z) (F32.lit 0.5)) ∧
      ((SpacetimeGrid.dist32 x z = F32.inf false ∧
          (SpacetimeGrid.new32 BlackHole.new32).getWarp32 x z = F32.zero true) ∨
        ∃ d v : ℚ, SpacetimeGrid.dist32 x z = F32.finite d ∧ 2 ≤ d ∧
          (SpacetimeGrid.new32 BlackHole.new32).getWarp32 x z = F32.finite v ∧
          -8 ≤ v ∧ v < 0) ∧
      ∀ x2 z2 : F32, x2.isNumber = true → z2.isNumber = true →
        F32.le (SpacetimeGrid.dist32 x z) (SpacetimeGrid.dist32 x2 z2) = true →
        F32.le ((SpacetimeGrid.new32 BlackHole.new32).getWarp32 x z)
          ((SpacetimeGrid.new32 BlackHole.new32).getWarp32 x2 z2) = true) := by
  have hH : (BlackHole.new32).eventHorizonRadius = F32.finite 2 := F32.lit_two
  rw [hH]
  constructor
  · intro hlt
    have e : (SpacetimeGrid.new32 BlackHole.new32).getWarp32 x z = F32.finite (-100) := by
      rw [getWarp32_eq, hlt, if_pos rfl]
    rw [e]
    have h50 : F32.neg (F32.lit 50) = F32.finite (-50) := by
      have := F32.lit_fifty
      norm_num at this
      rw [this]
      rfl
    have hcmp : F32.lt (F32.finite (-100)) (F32.finite (-50)) = true := by
      rw [F32.lt_finite_finite]
      norm_num
    refine ⟨rfl, fun y => ?_, fun y => ?_⟩
    · simp only [SpacetimeGrid.skipsEdge32, h50, hcmp, Bool.true_or]
    · simp only [SpacetimeGrid.skipsEdge32, h50, hcmp, Bool.or_true]
  · intro hge
    have e : (SpacetimeGrid.new32 BlackHole.new32).getWarp32 x z =
        F32.div (F32.finite (-8)) (F32.mul (SpacetimeGrid.dist32 x z) (F32.finite (1 / 2))) := by
      rw [getWarp32_eq, hge, if_neg (by simp)]
    have hW : F32.neg (SpacetimeGrid.new32 BlackHole.new32).warpStrength = F32.finite (-8) := by
      show F32.neg (F32.lit 8.0) = _
      rw [F32.lit_eight]
      rfl
    rw [hW, F32.lit_half]
    refine ⟨e, ?_, ?_⟩
    · rcases dist32_cases x z hx hz with ⟨s, hd⟩ | ⟨q, hd, hq2⟩ | hd
      · rw [hd, F32.lt_zero_finite] at hge
        norm_num at hge
      · right
        rw [hd, F32.lt_finite_finite, decide_eq_false_iff_not, not_lt] at hge
        obtain ⟨_, _, v, hv, hv1, hv2⟩ := warp32_finite_value q hge hq2
        exact ⟨q, v, hd, hge, by rw [e, hd, hv], hv1, hv2⟩
      · left
        exact ⟨hd, by rw [e, hd, warp32_inf]⟩
    · intro x2 z2 hx2 hz2 hle
      rcases dist32_cases x z hx hz with ⟨s, hd⟩ | ⟨q, hd, hq2⟩ | hd
      · rw [hd, F32.lt_zero_finite] at hge
        norm_num at hge
      · rw [hd, F32.lt_finite_finite, decide_eq_false_iff_not, not_lt] at hge
        obtain ⟨hy1, hv, _⟩ := warp32_finite_value q hge hq2
        rcases dist32_cases x2 z2 hx2 hz2 with ⟨s2, hd2⟩ | ⟨q2, hd2, hq22⟩ | hd2
        · rw [hd, hd2] at hle
          simp only [F32.le, F32.lt, F32.eq, Bool.or_false, decide_eq_true_eq] at hle
          linarith
        · rw [hd, hd2] at hle
          simp only [F32.le, F32.lt, F32.eq, Bool.or_eq_true, decide_eq_true_eq] at hle
          have hqq : q ≤ q2 := by
            rcases hle with h | h
            · exact h.le
            · exact h.le
          have hge2 : 2 ≤ q2 := le_trans hge hqq
          have e2 : (SpacetimeGrid.new32 BlackHole.new32).getWarp32 x2 z2 =
              F32.div (F32.finite (-8)) (F32.mul (F32.finite q2) (F32.finite (1 / 2))) := by
            rw [getWarp32_eq, hd2, F32.lt_finite_finite, if_neg (by simpa using hge2)]
          obtain ⟨hy2, hv2, _⟩ := warp32_finite_value q2 hge2 hq22
          rw [e, hd, hv, e2, hv2]
          have hm : F32.mag (q * (1 / 2)) ≤ F32.mag (q2 * (1 / 2)) :=
            F32.mag_mono _ _ (by linarith) (by linarith)
          apply F32.le_round_neg_round_neg
          · have : 0 < F32.mag (q2 * (1 / 2)) := by linarith
            positivity
          · apply div_le_div_of_nonneg_left (by norm_num) (by linarith) hm
        · have e2 : (SpacetimeGrid.new32 BlackHole.new32).getWarp32 x2 z2 = F32.zero true := by
            rw [getWarp32_eq, hd2, if_neg (by simp [F32.lt]), warp32_inf]
          rw [e, hd, hv, e2]
          apply F32.le_round_neg_zero
          have : 0 < F32.mag (q * (1 / 2)) := by linarith
          positivity
      · rcases dist32_cases x2 z2 hx2 hz2 with ⟨s2, hd2⟩ | ⟨q2, hd2, hq22⟩ | hd2
        · rw [hd, hd2] at hle
          simp [F32.le, F32.lt, F32.eq] at hle
        · rw [hd, hd2] at hle
          simp [F32.le, F32.lt, F32.eq] at hle
        · have e2 : (SpacetimeGrid.new32 BlackHole.new32).getWarp32 x2 z2 = F32.zero true := by
            rw [getWarp32_eq, hd2, if_neg (by simp [F32.lt]), warp32_inf]
          rw [e, hd, warp32_inf, e2]
          rfl

/-! ### getGravity on binary32 values -/

/-- The difference of a finite value and itself is `+0`. -/
theorem F32.sub_self (a : F32) (ha : a.isFinite = true) : F32.sub a a = F32.zero false := by
  cases a with
  | zero s => cases s <;> rfl
  | finite p =>
    show (if p + -p = 0 then F32.zero false else F32.round (p + -p)) = _
    rw [if_pos (by ring)]
  | inf s => exact absurd ha (by simp [F32.isFinite])
  | nan => exact absurd ha (by simp [F32.isFinite])

/-- C3 fails as stated on the floats of the program.  At `(2^70, 0)` the square `x * x`
overflows: the computed distance is `+inf` and `getWarp` returns `-0`, which is not
negative (the exact quotient `-8 / (0.5 * 2^70)` is the float `-2^(-66)`).  At `(31, 0)` and
at `(31 + 2^(-19), 0)`, the next float, the computed distances are `31` and `31 + 2^(-19)`,
both beyond the horizon radius `2`, and `getWarp` returns the same value
`-1082401 / 2097152` at both: the farther point does not get a strictly larger value. -/
theorem getWarp32_counterexample :
    SpacetimeGrid.dist32 (F32.finite (2 ^ 70)) (F32.zero false) = F32.inf false ∧
    (SpacetimeGrid.new32 BlackHole.new32).getWarp32 (F32.finite (2 ^ 70)) (F32.zero false) =
      F32.zero true ∧
    F32.lt ((SpacetimeGrid.new32 BlackHole.new32).getWarp32 (F32.finite (2 ^ 70))
      (F32.zero false)) (F32.zero false) = false ∧
    SpacetimeGrid.dist32 (F32.finite 31) (F32.zero false) = F32.finite 31 ∧
    SpacetimeGrid.dist32 (F32.finite (16252929 / 524288)) (F32.zero false) =
      F32.finite (16252929 / 524288) ∧
    F32.lt (SpacetimeGrid.dist32 (F32.finite 31) (F32.zero false))
      (SpacetimeGrid.dist32 (F32.finite (16252929 / 524288)) (F32.zero false)) = true ∧
    (SpacetimeGrid.new32 BlackHole.new32).getWarp32 (F32.finite 31) (F32.zero false) =
      F32.finite (-(1082401 / 2097152)) ∧
    (SpacetimeGrid.new32 BlackHole.new32).getWarp32 (F32.finite (16252929 / 524288))
      (F32.zero false) = F32.finite (-(1082401 / 2097152)) ∧
    F32.lt ((SpacetimeGrid.new32 BlackHole.new32).getWarp32 (F32.finite 31) (F32.zero false))
      ((SpacetimeGrid.new32 BlackHole.new32).getWarp32 (F32.finite (16252929 / 524288))
        (F32.zero false)) = false := by
  have hd70 : SpacetimeGrid.dist32 (F32.finite (2 ^ 70)) (F32.zero false) = F32.inf false := by
    have hxx : F32.mul (F32.finite (2 ^ 70)) (F32.finite (2 ^ 70)) = F32.inf false :=
      F32.round_overflow _ (by norm_num)
    simp only [SpacetimeGrid.dist32, hxx, F32.mul_zero_zero, F32.add_inf_zero, F32.sqrt_inf]
  have hw70 : (SpacetimeGrid.new32 BlackHole.new32).getWarp32 (F32.finite (2 ^ 70))
      (F32.zero false) = F32.zero true := by
    rw [getWarp32_eq, hd70, F32.lt_inf_finite, if_neg (by simp), warp32_inf]
  have hw31 : (SpacetimeGrid.new32 BlackHole.new32).getWarp32 (F32.finite 31)
      (F32.zero false) = F32.finite (-(1082401 / 2097152)) := by
    have hhalf : F32.mul (F32.finite 31) (F32.finite (1 / 2)) = F32.finite (31 / 2) := by
      have h := F32.round_eq (31 * (1 / 2)) 3 16252928
        (by norm_num) (by norm_num) (by norm_num) (by norm_num) (by norm_num [abs_lt])
      norm_num at h
      show F32.round _ = _
      norm_num
      exact h
    have hdiv : F32.div (F32.finite (-8)) (F32.finite (31 / 2)) =
        F32.finite (-(1082401 / 2097152)) := by
      have h := F32.round_neg_eq (8 / (31 / 2)) (-1) 8659208
        (by norm_num) (by norm_num) (by norm_num) (by norm_num) (by norm_num [abs_lt])
      norm_num at h
      show F32.round _ = _
      norm_num
      exact h
    rw [getWarp32_eq, dist32_thirtyOne, F32.lt_finite_finite, if_neg (by norm_num), hhalf, hdiv]
  have hw31n : (SpacetimeGrid.new32 BlackHole.new32).getWarp32 (F32.finite (16252929 / 524288))
      (F32.zero false) = F32.finite (-(1082401 / 2097152)) := by
    have hhalf : F32.mul (F32.finite (16252929 / 524288)) (F32.finite (1 / 2)) =
        F32.finite (16252929 / 1048576) := by
      have h := F32.round_eq (16252929 / 524288 * (1 / 2)) 3 16252929
        (by norm_num) (by norm_num) (by norm_num) (by norm_num) (by norm_num [abs_lt])
      norm_num at h
      show F32.round _ = _
      norm_num
      exact h
    have hdiv : F32.div (F32.finite (-8)) (F32.finite (16252929 / 1048576)) =
        F32.finite (-(1082401 / 2097152)) := by
      have h := F32.round_neg_eq (8 / (16252929 / 1048576)) (-1) 8659208
        (by norm_num) (by norm_num) (by norm_num) (by norm_num) (by norm_num [abs_lt])
      norm_num at h
      show F32.round _ = _
      norm_num
      exact h
    rw [getWarp32_eq, dist32_thirtyOne_next, F32.lt_finite_finite, if_neg (by norm_num), hhalf,
      hdiv]
  refine ⟨hd70, hw70, ?_, dist32_thirtyOne, dist32_thirtyOne_next, ?_, hw31, hw31n, ?_⟩
  · rw [hw70]
    rfl
  · rw [dist32_thirtyOne, dist32_thirtyOne_next, F32.lt_finite_finite]
    norm_num
  · rw [hw31, hw31n, F32.lt_finite_finite]
    norm_num

/-- C3 at a concrete input: the grid of the program at `(x, z) = (31, 0)`. -/
theorem getWarp32_funnel_witness :
    (F32.finite 31).isNumber = true ∧ (F32.zero false).isNumber = true ∧
    F32.lt (SpacetimeGrid.dist32 (F32.finite 31) (F32.zero false))
      (BlackHole.new32).eventHorizonRadius = false ∧
    ((SpacetimeGrid.dist32 (F32.finite 31) (F32.zero false) = F32.inf false ∧
        (SpacetimeGrid.new32 BlackHole.new32).getWarp32 (F32.finite 31) (F32.zero false) =
          F32.zero true) ∨
      ∃ d v : ℚ, SpacetimeGrid.dist32 (F32.finite 31) (F32.zero false) = F32.finite d ∧ 2 ≤ d ∧
        (SpacetimeGrid.new32 BlackHole.new32).getWarp32 (F32.finite 31) (F32.zero false) =
          F32.finite v ∧ -8 ≤ v ∧ v < 0) := by
  have h : F32.lt (SpacetimeGrid.dist32 (F32.finite 31) (F32.zero false))
      (BlackHole.new32).eventHorizonRadius = false := by
    have hH : (BlackHole.new32).eventHorizonRadius = F32.finite 2 := F32.lit_two
    rw [hH, dist32_thirtyOne, F32.lt_finite_finite]
    norm_num
  exact ⟨rfl, rfl, h, ((getWarp32_funnel (F32.finite 31) (F32.zero false) rfl rfl).2 h).2.1⟩

/-- The conversion `(size_t)30` is `30`. -/
theorem toSizeT_thirty : toSizeT 30 = 30 := by decide

/-- The body of the streamer loop keeps `maxTrail = 30` and a trail of at most 30 positions. -/
theorem updateStreamer_trail (m : CMath F) (bh : BlackHole F) (dt : F) (s : Streamer F)
    (g : RandState F) (h : s.maxTrail = 30 ∧ s.trail.length ≤ 30) :
    (InfallingMatter.updateStreamer m bh dt s g).1.maxTrail = 30 ∧
    (InfallingMatter.updateStreamer m bh dt s g).1.trail.length ≤ 30 := by
  unfold InfallingMatter.updateStreamer
  by_cases ha : s.active
  · simp only [ha, Bool.not_true, Bool.false_eq_true, if_false]
    split_ifs with h1 h2
    · exact ⟨h.1, by simp⟩
    · refine ⟨h.1, ?_⟩
      simp only [List.length_tail, List.length_append, List.length_singleton]
      omega
    · refine ⟨h.1, ?_⟩
      simp only [h.1, toSizeT_thirty, List.length_append, List.length_singleton] at h2 ⊢
      omega
  · simp only [ha, Bool.not_false, if_true]
    exact h

/-- The streamer loop keeps `maxTrail = 30` and trails of at most 30 positions. -/
theorem updateStreamers_trail (m : CMath F) (bh : BlackHole F) (dt : F) (ss : List (Streamer F)) :
    ∀ g : RandState F, (∀ s ∈ ss, s.maxTrail = 30 ∧ s.trail.length ≤ 30) →
      ∀ s ∈ (InfallingMatter.updateStreamers m bh dt ss g).1,
        s.maxTrail = 30 ∧ s.trail.length ≤ 30 := by
  induction ss with
  | nil =>
    intro g _ s hs
    simp [InfallingMatter.updateStreamers] at hs
  | cons a as ih =>
    intro g h s hs
    simp only [InfallingMatter.updateStreamers, List.mem_cons] at hs
    rcases hs with hs | hs
    · rw [hs]
      exact updateStreamer_trail m bh dt a g (h a (List.mem_cons_self a as))
    · exact ih _ (fun t ht => h t (List.mem_cons_of_mem a ht)) s hs

/-- The spawn loop of the constructor keeps `maxTrail = 30` and trails of at most 30 positions. -/
theorem spawnLoop_trail (m : CMath F) (n : Nat) :
    ∀ (im : InfallingMatter F) (g : RandState F),
      (∀ s ∈ im.streamers, s.maxTrail = 30 ∧ s.trail.length ≤ 30) →
      ∀ s ∈ (InfallingMatter.spawnLoop m n im g).1.streamers,
        s.maxTrail = 30 ∧ s.trail.length ≤ 30 := by
  induction n with
  | zero =>
    intro im g h s hs
    exact h s hs
  | succ k ih =>
    intro im g h s hs
    simp only [InfallingMatter.spawnLoop] at hs
    refine ih _ _ ?_ s hs
    intro t ht
    simp only [InfallingMatter.spawnStreamer, List.mem_append, List.mem_singleton] at ht
    rcases ht with ht | ht
    · exact h t ht
    · rw [ht]
      exact ⟨rfl, Nat.zero_le _⟩

/-- A sequence of `update` calls keeps `maxTrail = 30` and trails of at most 30 positions. -/
theorem updates_trail (m : CMath F) (calls : List (F × RandState F)) :
    ∀ im : InfallingMatter F, (∀ s ∈ im.streamers, s.maxTrail = 30 ∧ s.trail.length ≤ 30) →
      ∀ s ∈ (InfallingMatter.updates m im calls).streamers,
        s.maxTrail = 30 ∧ s.trail.length ≤ 30 := by
  induction calls with
  | nil =>
    intro im h s hs
    exact h s hs
  | cons c cs ih =>
    intro im h s hs
    simp only [InfallingMatter.updates] at hs
    refine ih _ ?_ s hs
    intro t ht
    simp only [InfallingMatter.update] at ht
    exact updateStreamers_trail m im.blackHole c.1 im.streamers c.2 h t ht

/-- C4: every streamer of an `InfallingMatter` built by its constructor (each streamer
created by `spawnStreamer` with an empty trail and `maxTrail = 30`) has, after every
finite sequence of `update(dt)` calls with arbitrary `dt` values, `maxTrail = 30` and a
trail of at most `maxTrail` positions. -/
theorem trail_length_le_maxTrail (m : CMath F) (bh : BlackHole F) (count : Int)
    (g0 : RandState F) (calls : List (F × RandState F)) :
    ∀ s ∈ (InfallingMatter.updates m (InfallingMatter.new m bh count g0).1 calls).streamers,
      s.maxTrail = 30 ∧ (s.trail.length : Int) ≤ s.maxTrail := by
  intro s hs
  have h := updates_trail m calls (InfallingMatter.new m bh count g0).1
    (spawnLoop_trail m count.toNat _ g0 (by intro t ht; simp at ht)) s hs
  refine ⟨h.1, ?_⟩
  rw [h.1]
  exact_mod_cast h.2

/-- C4 at a concrete input: over the reals, the first streamer of a system of one streamer
after one `update(0.016)`. -/
theorem trail_length_le_maxTrail_witness :
    ∃ s : Streamer ℝ,
      s ∈ (InfallingMatter.updates (CMath.mk Real.sqrt Real.cos Real.sin)
        (InfallingMatter.new (CMath.mk Real.sqrt Real.cos Real.sin) BlackHole.new 1
          ⟨fun _ => 0.5, 0⟩).1 [(0.016, ⟨fun _ => 0.5, 6⟩)]).streamers ∧
      s.maxTrail = 30 ∧ (s.trail.length : Int) ≤ s.maxTrail :=
  ⟨_, List.mem_cons_self _ _,
    trail_length_le_maxTrail (CMath.mk Real.sqrt Real.cos Real.sin) BlackHole.new 1
      ⟨fun _ => 0.5, 0⟩ [(0.016, ⟨fun _ => 0.5, 6⟩)] _ (List.mem_cons_self _ _)⟩

/-- The conversion `(int)n` is `n` itself below `2^31`. -/
theorem toInt32_of_lt (n : Nat) (h : (n : Int) < 2 ^ 31) : toInt32 n = n := by
  unfold toInt32
  have h0 : (0 : Int) ≤ n := Int.ofNat_nonneg n
  rw [Int.emod_eq_of_lt (by omega) (by omega)]
  omega

/-- The particle loop of `JetStream::update` keeps the number of particles. -/
theorem jet_updateParticles_length (m : CMath F) (bh : BlackHole F) (topJet : Bool)
    (dt time : F) (ps : List (JetParticle F)) :
    ∀ g : RandState F,
      (JetStream.updateParticles m bh topJet dt time ps g).1.length = ps.length := by
  induction ps with
  | nil => intro g; rfl
  | cons p ps ih =>
    intro g
    simp only [JetStream.updateParticles, List.length_cons, ih]

/-- One call of `JetStream::update` keeps the capacity and adds one particle exactly when
the pool is below capacity. -/
theorem jet_update_length (m : CMath F) (js : JetStream F) (dt time : F) (g : RandState F)
    (hc : js.maxParticles < 2 ^ 31) (hle : (js.particles.length : Int) ≤ js.maxParticles) :
    (JetStream.update m js dt time g).1.maxParticles = js.maxParticles ∧
    (JetStream.update m js dt time g).1.particles.length =
      if (js.particles.length : Int) < js.maxParticles then js.particles.length + 1
      else js.particles.length := by
  have hcast : toInt32 js.particles.length = js.particles.length :=
    toInt32_of_lt _ (lt_of_le_of_lt hle hc)
  by_cases h : (js.particles.length : Int) < js.maxParticles
  · simp [JetStream.update, jet_updateParticles_length, JetStream.spawn, hcast, h]
  · simp [JetStream.update, jet_updateParticles_length, JetStream.spawn, hcast, h]

/-- After `n` calls a pool that held `k ≤ c` particles holds `min (k + n) c`. -/
theorem jet_updates_length (m : CMath F) (calls : List (F × F × RandState F)) :
    ∀ js : JetStream F, js.maxParticles < 2 ^ 31 →
      (js.particles.length : Int) ≤ js.maxParticles →
      ((JetStream.updates m js calls).particles.length : Int) =
        min ((js.particles.length : Int) + calls.length) js.maxParticles := by
  induction calls with
  | nil =>
    intro js _ hle
    simp only [JetStream.updates, List.length_nil, Nat.cast_zero, add_zero]
    exact (min_eq_left hle).symm
  | cons c cs ih =>
    intro js hc hle
    obtain ⟨h1, h2⟩ := jet_update_length m js c.1 c.2.1 c.2.2 hc hle
    simp only [JetStream.updates]
    have hle2 : (((JetStream.update m js c.1 c.2.1 c.2.2).1.particles.length : Nat) : Int) ≤
        (JetStream.update m js c.1 c.2.1 c.2.2).1.maxParticles := by
      rw [h1, h2]
      split_ifs with h
      · push_cast; omega
      · exact hle
    rw [ih _ (by rw [h1]; exact hc) hle2, h1, h2]
    simp only [List.length_cons]
    split_ifs with h
    · push_cast
      congr 1
      omega
    · push_cast
      have : (js.particles.length : Int) = js.maxParticles := le_antisymm hle (not_lt.mp h)
      rw [min_eq_right (by omega), min_eq_right (by omega)]

/-- C5: a `JetStream` constructed with capacity `maxParticles = c`, `0 ≤ c` (and `c` an
`int`, `c < 2^31`), holds exactly `min(n, c)` particles after `n` calls of `update`; so the
size grows by one per call while it is below `c`, never decreases, never exceeds `c`, and
stays `c` once `c` is reached. -/
theorem jet_pool_size (m : CMath F) (bh : BlackHole F) (top : Bool) (c : Int)
    (h0 : 0 ≤ c) (hc : c < 2 ^ 31) (calls : List (F × F × RandState F)) :
    ((JetStream.updates m (JetStream.new bh top c) calls).particles.length : Int) =
        min (calls.length : Int) c ∧
    ∀ call : F × F × RandState F,
      (JetStream.updates m (JetStream.new bh top c) calls).particles.length ≤
        (JetStream.updates m (JetStream.new bh top c) (calls ++ [call])).particles.length ∧
      ((JetStream.updates m (JetStream.new bh top c) (calls ++ [call])).particles.length : Int)
        ≤ c ∧
      (((JetStream.updates m (JetStream.new bh top c) calls).particles.length : Int) < c →
        (JetStream.updates m (JetStream.new bh top c) (calls ++ [call])).particles.length =
          (JetStream.updates m (JetStream.new bh top c) calls).particles.length + 1) ∧
      (((JetStream.updates m (JetStream.new bh top c) calls).particles.length : Int) = c →
        ((JetStream.updates m (JetStream.new bh top c) (calls ++ [call])).particles.length
          : Int) = c) := by
  have key : ∀ cs : List (F × F × RandState F),
      ((JetStream.updates m (JetStream.new bh top c) cs).particles.length : Int) =
        min (cs.length : Int) c := by
    intro cs
    have := jet_updates_length m cs (JetStream.new bh top c) hc
      (by simp only [JetStream.new, List.length_nil, Nat.cast_zero]; exact h0)
    simpa [JetStream.new] using this
  refine ⟨key calls, fun call => ?_⟩
  have k1 := key calls
  have k2 := key (calls ++ [call])
  simp only [List.length_append, List.length_singleton, Nat.cast_add, Nat.cast_one] at k2
  have hn : (0 : Int) ≤ calls.length := Int.ofNat_nonneg _
  refine ⟨?_, ?_, ?_, ?_⟩
  · have : ((JetStream.updates m (JetStream.new bh top c) calls).particles.length : Int) ≤
        ((JetStream.updates m (JetStream.new bh top c) (calls ++ [call])).particles.length
          : Int) := by
      rw [k1, k2]
      exact min_le_min (by omega) le_rfl
    exact_mod_cast this
  · rw [k2]
    exact min_le_right _ _
  · intro hlt
    rw [k1] at hlt
    have hl : (calls.length : Int) < c := by
      by_contra hcon
      rw [min_eq_right (not_lt.mp hcon)] at hlt
      exact lt_irrefl _ hlt
    have e1 : ((JetStream.updates m (JetStream.new bh top c) calls).particles.length : Int) =
        calls.length := by rw [k1, min_eq_left hl.le]
    have e2 : ((JetStream.updates m (JetStream.new bh top c) (calls ++ [call])).particles.length
        : Int) = calls.length + 1 := by rw [k2, min_eq_left (by omega)]
    have : ((JetStream.updates m (JetStream.new bh top c) (calls ++ [call])).particles.length
        : Int) = ((JetStream.updates m (JetStream.new bh top c) calls).particles.length + 1
          : Nat) := by
      push_cast
      rw [e2, e1]
    exact_mod_cast this
  · intro heq
    rw [k1] at heq
    have hl : c ≤ (calls.length : Int) := by
      by_contra hcon
      rw [min_eq_left (not_le.mp hcon).le] at heq
      exact hcon heq.ge
    rw [k2, min_eq_right (by omega)]

/-- C5 at a concrete input: the top jet of the program (capacity 400) after two calls. -/
theorem jet_pool_size_witness :
    ((JetStream.updates (CMath.mk Real.sqrt Real.cos Real.sin)
        (JetStream.new (BlackHole.new : BlackHole ℝ) true 400)
        [(0.016, 0.016, ⟨fun _ => 0.5, 0⟩), (0.016, 0.032, ⟨fun _ => 0.5, 6⟩)]).particles.length
      : Int) = min (([(0.016, 0.016, ⟨fun _ => 0.5, 0⟩),
        (0.016, 0.032, ⟨fun _ => 0.5, 6⟩)] : List (ℝ × ℝ × RandState ℝ)).length : Int) 400 :=
  (jet_pool_size (CMath.mk Real.sqrt Real.cos Real.sin) BlackHole.new true 400
    (by norm_num) (by norm_num)
    [(0.016, 0.016, ⟨fun _ => 0.5, 0⟩), (0.016, 0.032, ⟨fun _ => 0.5, 6⟩)]).1

/-- The radius sampled by a spawn or a recycle, `inner + u * (outer - inner)` with `u` in
`[0, 1]`, lies in `[inner, outer]`. -/
theorem sampled_radius_mem (inner outer u : F) (hio : inner ≤ outer) (h0 : 0 ≤ u) (h1 : u ≤ 1) :
    inner ≤ inner + u * (outer - inner) ∧ inner + u * (outer - inner) ≤ outer := by
  have hd : 0 ≤ outer - inner := sub_nonneg.mpr hio
  constructor
  · nlinarith [mul_nonneg h0 hd]
  · nlinarith [mul_nonneg (sub_nonneg.mpr h1) hd]

/-- The value drawn from a generator whose values lie in `[0, 1]` lies in `[0, 1]`. -/
theorem draw_mem (g : RandState F) (h : g.InUnit) : 0 ≤ g.draw.1 ∧ g.draw.1 ≤ 1 :=
  h g.used

/-- A spawned particle has its radius in `[inner, outer]`. -/
theorem newParticle_radius (m : CMath F) (bh : BlackHole F)
    (hio : bh.accretionDiskInner ≤ bh.accretionDiskOuter) (g : RandState F) (hg : g.InUnit) :
    bh.accretionDiskInner ≤ (AccretionDisk.newParticle m bh g).1.orbitRadius ∧
    (AccretionDisk.newParticle m bh g).1.orbitRadius ≤ bh.accretionDiskOuter :=
  sampled_radius_mem _ _ _ hio (draw_mem g hg).1 (draw_mem g hg).2

/-- One particle update keeps the radius in `[eventHorizonRadius, outer]`, and a recycle
puts it in `[inner, outer]`. -/
theorem updateParticle_radius (m : CMath F) (bh : BlackHole F)
    (hh : 0 < bh.eventHorizonRadius) (hhi : bh.eventHorizonRadius < bh.accretionDiskInner)
    (hio : bh.accretionDiskInner ≤ bh.accretionDiskOuter) (hmass : 0 < bh.mass)
    (dt : F) (hdt : 0 ≤ dt) (p : Particle F) (g : RandState F) (hg : g.InUnit)
    (hp : bh.eventHorizonRadius ≤ p.orbitRadius ∧ p.orbitRadius ≤ bh.accretionDiskOuter) :
    (bh.eventHorizonRadius ≤ (AccretionDisk.updateParticle m bh dt p g).1.orbitRadius ∧
      (AccretionDisk.updateParticle m bh dt p g).1.orbitRadius ≤ bh.accretionDiskOuter) ∧
    (AccretionDisk.recycles bh dt p →
      bh.accretionDiskInner ≤ (AccretionDisk.updateParticle m bh dt p g).1.orbitRadius ∧
      (AccretionDisk.updateParticle m bh dt p g).1.orbitRadius ≤ bh.accretionDiskOuter) := by
  have hs := sampled_radius_mem bh.accretionDiskInner bh.accretionDiskOuter g.draw.1 hio
    (draw_mem g hg).1 (draw_mem g hg).2
  by_cases hr : AccretionDisk.recycles bh dt p
  · have e : (AccretionDisk.updateParticle m bh dt p g).1.orbitRadius =
        bh.accretionDiskInner + g.draw.1 * (bh.accretionDiskOuter - bh.accretionDiskInner) := by
      unfold AccretionDisk.recycles at hr
      simp only [AccretionDisk.updateParticle, hr, if_true]
    rw [e]
    exact ⟨⟨le_trans hhi.le hs.1, hs.2⟩, fun _ => hs⟩
  · have e : (AccretionDisk.updateParticle m bh dt p g).1.orbitRadius =
        p.orbitRadius - 0.02 * dt * (bh.mass / (p.orbitRadius * p.orbitRadius)) * 0.01 := by
      unfold AccretionDisk.recycles at hr
      simp only [AccretionDisk.updateParticle, hr, if_false]
    rw [e]
    refine ⟨⟨?_, ?_⟩, fun h => absurd h hr⟩
    · unfold AccretionDisk.recycles at hr
      push_neg at hr
      exact hr.2
    · have hr0 : 0 < p.orbitRadius := lt_of_lt_of_le hh hp.1
      have hq : 0 ≤ bh.mass / (p.orbitRadius * p.orbitRadius) :=
        div_nonneg hmass.le (mul_pos hr0 hr0).le
      have : 0 ≤ 0.02 * dt * (bh.mass / (p.orbitRadius * p.orbitRadius)) * 0.01 :=
        mul_nonneg (mul_nonneg (mul_nonneg (by norm_num) hdt) hq) (by norm_num)
      linarith [hp.2]
/-- Building a particle only advances the generator. -/
theorem newParticle_seq (m : CMath F) (bh : BlackHole F) (g : RandState F) :
    (AccretionDisk.newParticle m bh g).2.seq = g.seq := rfl

/-- Updating a particle only advances the generator. -/
theorem updateParticle_seq (m : CMath F) (bh : BlackHole F) (dt : F) (p : Particle F)
    (g : RandState F) : (AccretionDisk.updateParticle m bh dt p g).2.seq = g.seq := by
  unfold AccretionDisk.updateParticle
  simp only
  split_ifs <;> rfl

/-- Whether the values of a generator lie in `[0, 1]` depends on its sequence only. -/
theorem inUnit_of_seq (g g2 : RandState F) (h : g2.seq = g.seq) (hg : g.InUnit) : g2.InUnit := by
  intro n
  rw [h]
  exact hg n

/-- The particle loop keeps every radius in `[eventHorizonRadius, outer]`. -/
theorem updateParticles_radius (m : CMath F) (bh : BlackHole F)
    (hh : 0 < bh.eventHorizonRadius) (hhi : bh.eventHorizonRadius < bh.accretionDiskInner)
    (hio : bh.accretionDiskInner ≤ bh.accretionDiskOuter) (hmass : 0 < bh.mass)
    (dt : F) (hdt : 0 ≤ dt) (ps : List (Particle F)) :
    ∀ g : RandState F, g.InUnit →
      (∀ p ∈ ps, bh.eventHorizonRadius ≤ p.orbitRadius ∧
        p.orbitRadius ≤ bh.accretionDiskOuter) →
      ∀ q ∈ (AccretionDisk.updateParticles m bh dt ps g).1,
        bh.eventHorizonRadius ≤ q.orbitRadius ∧ q.orbitRadius ≤ bh.accretionDiskOuter := by
  induction ps with
  | nil =>
    intro g _ _ q hq
    simp [AccretionDisk.updateParticles] at hq
  | cons a as ih =>
    intro g hg h q hq
    simp only [AccretionDisk.updateParticles, List.mem_cons] at hq
    rcases hq with hq | hq
    · rw [hq]
      exact (updateParticle_radius m bh hh hhi hio hmass dt hdt a g hg
        (h a (List.mem_cons_self a as))).1
    · exact ih _ (inUnit_of_seq g _ (updateParticle_seq m bh dt a g) hg)
        (fun t ht => h t (List.mem_cons_of_mem a ht)) q hq

/-- The spawn loop of `initParticles` keeps the black hole and puts every new radius in
`[inner, outer]`. -/
theorem spawnLoop_radius (m : CMath F) (lo : F) (n : Nat) :
    ∀ (disk : AccretionDisk F) (g : RandState F), g.InUnit →
      disk.blackHole.accretionDiskInner ≤ disk.blackHole.accretionDiskOuter →
      lo ≤ disk.blackHole.accretionDiskInner →
      (∀ p ∈ disk.particles, lo ≤ p.orbitRadius ∧
        p.orbitRadius ≤ disk.blackHole.accretionDiskOuter) →
      (AccretionDisk.spawnLoop m n disk g).1.blackHole = disk.blackHole ∧
      ∀ p ∈ (AccretionDisk.spawnLoop m n disk g).1.particles,
        lo ≤ p.orbitRadius ∧ p.orbitRadius ≤ disk.blackHole.accretionDiskOuter := by
  induction n with
  | zero =>
    intro disk g _ _ _ h
    exact ⟨rfl, h⟩
  | succ k ih =>
    intro disk g hg hio hlo h
    simp only [AccretionDisk.spawnLoop]
    have hb : (AccretionDisk.spawnParticle m disk g).1.blackHole = disk.blackHole := rfl
    have := ih (AccretionDisk.spawnParticle m disk g).1 (AccretionDisk.spawnParticle m disk g).2
      (inUnit_of_seq g _ (newParticle_seq m disk.blackHole g) hg)
      (by rw [hb]; exact hio) (by rw [hb]; exact hlo)
      (by
        intro t ht
        rw [hb]
        simp only [AccretionDisk.spawnParticle, List.mem_append, List.mem_singleton] at ht
        rcases ht with ht | ht
        · exact h t ht
        · rw [ht]
          have hn := newParticle_radius m disk.blackHole hio g hg
          exact ⟨le_trans hlo hn.1, hn.2⟩)
    rw [hb] at this
    exact this

/-- A sequence of `update` calls with non-negative `dt` keeps the black hole and every
radius in `[eventHorizonRadius, outer]`. -/
theorem updates_radius (m : CMath F) (calls : List (F × RandState F)) :
    ∀ disk : AccretionDisk F,
      0 < disk.blackHole.eventHorizonRadius →
      disk.blackHole.eventHorizonRadius < disk.blackHole.accretionDiskInner →
      disk.blackHole.accretionDiskInner ≤ disk.blackHole.accretionDiskOuter →
      0 < disk.blackHole.mass →
      (∀ c ∈ calls, 0 ≤ c.1 ∧ c.2.InUnit) →
      (∀ p ∈ disk.particles, disk.blackHole.eventHorizonRadius ≤ p.orbitRadius ∧
        p.orbitRadius ≤ disk.blackHole.accretionDiskOuter) →
      ∀ p ∈ (AccretionDisk.updates m disk calls).particles,
        disk.blackHole.eventHorizonRadius ≤ p.orbitRadius ∧
        p.orbitRadius ≤ disk.blackHole.accretionDiskOuter := by
  induction calls with
  | nil =>
    intro disk _ _ _ _ _ h
    exact h
  | cons c cs ih =>
    intro disk hh hhi hio hmass hc h
    simp only [AccretionDisk.updates]
    have hb : (AccretionDisk.update m disk c.1 c.2).1.blackHole = disk.blackHole := rfl
    have hc0 := hc c (List.mem_cons_self c cs)
    have := ih (AccretionDisk.update m disk c.1 c.2).1 (by rw [hb]; exact hh)
      (by rw [hb]; exact hhi) (by rw [hb]; exact hio) (by rw [hb]; exact hmass)
      (fun d hd => hc d (List.mem_cons_of_mem c hd))
      (by
        rw [hb]
        exact updateParticles_radius m disk.blackHole hh hhi hio hmass c.1 hc0.1
          disk.particles c.2 hc0.2 h)
    rw [hb] at this
    exact this

/-- C6: with `0 < eventHorizonRadius < accretionDiskInner ≤ accretionDiskOuter` and
`mass > 0`, `orbitRadius ∈ [eventHorizonRadius, accretionDiskOuter]` is an invariant of
the accretion disk: it holds for every particle after construction and after every
sequence of `update(dt)` calls with `dt ≥ 0` and random draws in `[0, 1]`; every spawned
particle has its radius in `[inner, outer]`; one update of a particle that satisfies the
invariant yields a particle that satisfies it, and whenever that update recycles the
particle its new radius lies in `[inner, outer]`. -/
theorem orbitRadius_invariant (m : CMath F) (bh : BlackHole F)
    (hh : 0 < bh.eventHorizonRadius) (hhi : bh.eventHorizonRadius < bh.accretionDiskInner)
    (hio : bh.accretionDiskInner ≤ bh.accretionDiskOuter) (hmass : 0 < bh.mass) :
    (∀ (count : Int) (g0 : RandState F) (calls : List (F × RandState F)),
      g0.InUnit → (∀ c ∈ calls, 0 ≤ c.1 ∧ c.2.InUnit) →
      ∀ p ∈ (AccretionDisk.updates m (AccretionDisk.new m bh count g0).1 calls).particles,
        bh.eventHorizonRadius ≤ p.orbitRadius ∧ p.orbitRadius ≤ bh.accretionDiskOuter) ∧
    (∀ g : RandState F, g.InUnit →
      bh.accretionDiskInner ≤ (AccretionDisk.newParticle m bh g).1.orbitRadius ∧
      (AccretionDisk.newParticle m bh g).1.orbitRadius ≤ bh.accretionDiskOuter) ∧
    (∀ (dt : F) (p : Particle F) (g : RandState F), 0 ≤ dt → g.InUnit →
      bh.eventHorizonRadius ≤ p.orbitRadius → p.orbitRadius ≤ bh.accretionDiskOuter →
      (bh.eventHorizonRadius ≤ (AccretionDisk.updateParticle m bh dt p g).1.orbitRadius ∧
        (AccretionDisk.updateParticle m bh dt p g).1.orbitRadius ≤ bh.accretionDiskOuter) ∧
      (AccretionDisk.recycles bh dt p →
        bh.accretionDiskInner ≤ (AccretionDisk.updateParticle m bh dt p g).1.orbitRadius ∧
        (AccretionDisk.updateParticle m bh dt p g).1.orbitRadius ≤ bh.accretionDiskOuter)) := by
  refine ⟨?_, fun g hg => newParticle_radius m bh hio g hg, ?_⟩
  · intro count g0 calls hg0 hcalls p hp
    have hinit := spawnLoop_radius m bh.eventHorizonRadius count.toNat
      { particles := [], particleCount := count, blackHole := bh } g0 hg0 hio hhi.le
      (by intro t ht; simp at ht)
    have hb : (AccretionDisk.new m bh count g0).1.blackHole = bh := hinit.1
    have := updates_radius m calls (AccretionDisk.new m bh count g0).1 (by rw [hb]; exact hh)
      (by rw [hb]; exact hhi) (by rw [hb]; exact hio) (by rw [hb]; exact hmass) hcalls
      (by rw [hb]; exact hinit.2) p hp
    rw [hb] at this
    exact this
  · intro dt p g hdt hg h1 h2
    exact updateParticle_radius m bh hh hhi hio hmass dt hdt p g hg ⟨h1, h2⟩

/-- C6 at a concrete input: the default black hole over the reals, a spawn with every
draw equal to `0.5`. -/
theorem orbitRadius_invariant_witness :
    (BlackHole.new : BlackHole ℝ).accretionDiskInner ≤
      (AccretionDisk.newParticle (CMath.mk Real.sqrt Real.cos Real.sin)
        (BlackHole.new : BlackHole ℝ) ⟨fun _ => 0.5, 0⟩).1.orbitRadius ∧
    (AccretionDisk.newParticle (CMath.mk Real.sqrt Real.cos Real.sin)
        (BlackHole.new : BlackHole ℝ) ⟨fun _ => 0.5, 0⟩).1.orbitRadius ≤
      (BlackHole.new : BlackHole ℝ).accretionDiskOuter :=
  (orbitRadius_invariant (CMath.mk Real.sqrt Real.cos Real.sin) (BlackHole.new : BlackHole ℝ)
    (by norm_num [BlackHole.new]) (by norm_num [BlackHole.new]) (by norm_num [BlackHole.new])
    (by norm_num [BlackHole.new])).2.1 ⟨fun _ => 0.5, 0⟩
    (fun _ => ⟨by norm_num, by norm_num⟩)

/-- C7: the particle pushed by `spawnParticle` has
`orbitSpeed = (sqrtf(mass / orbitRadius) * 0.15) / orbitRadius`; for the default black hole
(mass 50, horizon 2.0, disk from 3.5 to 14.0) a particle spawned at `orbitRadius = 3.5`
(the radius sampled when the draw is `0`) has
`orbitSpeed = (sqrtf(50 / 3.5) * 0.15) / 3.5`. -/
theorem spawnParticle_orbitSpeed (m : CMath F) (disk : AccretionDisk F) (g : RandState F) :
    (AccretionDisk.spawnParticle m disk g).1.particles =
      disk.particles ++ [(AccretionDisk.newParticle m disk.blackHole g).1] ∧
    (AccretionDisk.newParticle m disk.blackHole g).1.orbitSpeed =
      (m.sqrtf (disk.blackHole.mass /
          (AccretionDisk.newParticle m disk.blackHole g).1.orbitRadius) * 0.15) /
        (AccretionDisk.newParticle m disk.blackHole g).1.orbitRadius ∧
    (disk.blackHole = BlackHole.new →
      (AccretionDisk.newParticle m disk.blackHole g).1.orbitRadius = 3.5 →
      (AccretionDisk.newParticle m disk.blackHole g).1.orbitSpeed =
        (m.sqrtf (50 / 3.5) * 0.15) / 3.5) ∧
    (disk.blackHole = BlackHole.new → g.seq g.used = 0 →
      (AccretionDisk.newParticle m disk.blackHole g).1.orbitRadius = 3.5) := by
  have hspeed : (AccretionDisk.newParticle m disk.blackHole g).1.orbitSpeed =
      (m.sqrtf (disk.blackHole.mass /
          (AccretionDisk.newParticle m disk.blackHole g).1.orbitRadius) * 0.15) /
        (AccretionDisk.newParticle m disk.blackHole g).1.orbitRadius := rfl
  refine ⟨rfl, hspeed, ?_, ?_⟩
  · intro hb hr
    rw [hspeed, hr, hb]
    simp only [BlackHole.new]
    norm_num
  · intro hb hu
    simp only [AccretionDisk.newParticle, RandState.draw, hu, hb, BlackHole.new]
    norm_num

/-- The particle loop updates the particles one by one, in place: the `i`-th particle of
the result is the update of the `i`-th particle, with the generator as it stands then. -/
theorem updateParticles_pointwise (m : CMath F) (bh : BlackHole F) (dt : F)
    (ps : List (Particle F)) :
    ∀ g : RandState F,
      List.Forall₂ (fun p q => ∃ gi : RandState F, q = (AccretionDisk.updateParticle m bh dt p gi).1)
        ps (AccretionDisk.updateParticles m bh dt ps g).1 := by
  induction ps with
  | nil =>
    intro g
    exact List.Forall₂.nil
  | cons a as ih =>
    intro g
    simp only [AccretionDisk.updateParticles]
    exact List.Forall₂.cons ⟨g, rfl⟩ (ih _)

/-- The spawn loop of `initParticles` pushes one particle per iteration. -/
theorem spawnLoop_length (m : CMath F) (n : Nat) :
    ∀ (disk : AccretionDisk F) (g : RandState F),
      (AccretionDisk.spawnLoop m n disk g).1.particles.length = disk.particles.length + n := by
  induction n with
  | zero =>
    intro disk g
    rfl
  | succ k ih =>
    intro disk g
    simp only [AccretionDisk.spawnLoop, ih, AccretionDisk.spawnParticle, List.length_append,
      List.length_singleton]
    omega

/-- A sequence of `update` calls keeps the number of particles. -/
theorem updates_length (m : CMath F) (calls : List (F × RandState F)) :
    ∀ disk : AccretionDisk F,
      (AccretionDisk.updates m disk calls).particles.length = disk.particles.length := by
  induction calls with
  | nil =>
    intro disk
    rfl
  | cons c cs ih =>
    intro disk
    simp only [AccretionDisk.updates, ih, AccretionDisk.update]
    exact (updateParticles_pointwise m disk.blackHole c.1 disk.particles c.2).length_eq.symm

/-- C10: `AccretionDisk::update(dt)` recycles a closed population in place.  For every
`dt` and every disk state it keeps the number of particles (which is `particleCount`
after `initParticles`, also after any number of updates), and the `i`-th particle of the
result is the update of the `i`-th particle.  That update leaves `orbitHeight`, `color`,
`maxLife` and `orbitSpeed` unchanged and always sets `pos` from the stepped angle and
radius; without a recycle `orbitAngle`, `orbitRadius` and `life` are the stepped values,
and a recycle rewrites exactly these three: a freshly sampled radius and angle, and
`life := maxLife`. -/
theorem update_closed_population (m : CMath F) (disk : AccretionDisk F) (dt : F)
    (g : RandState F) :
    (AccretionDisk.update m disk dt g).1.particles.length = disk.particles.length ∧
    (∀ (disk0 : AccretionDisk F) (g0 : RandState F) (calls : List (F × RandState F)),
      (AccretionDisk.initParticles m disk0 g0).1.particles.length =
        disk0.particleCount.toNat ∧
      (AccretionDisk.updates m (AccretionDisk.initParticles m disk0 g0).1 calls).particles.length =
        disk0.particleCount.toNat) ∧
    List.Forall₂
      (fun p q => ∃ gi : RandState F,
        q = (AccretionDisk.updateParticle m disk.blackHole dt p gi).1)
      disk.particles (AccretionDisk.update m disk dt g).1.particles ∧
    ∀ (p : Particle F) (gi : RandState F),
      (AccretionDisk.updateParticle m disk.blackHole dt p gi).1.orbitHeight = p.orbitHeight ∧
      (AccretionDisk.updateParticle m disk.blackHole dt p gi).1.color = p.color ∧
      (AccretionDisk.updateParticle m disk.blackHole dt p gi).1.maxLife = p.maxLife ∧
      (AccretionDisk.updateParticle m disk.blackHole dt p gi).1.orbitSpeed = p.orbitSpeed ∧
      (AccretionDisk.updateParticle m disk.blackHole dt p gi).1.pos =
        ⟨m.cosf (p.orbitAngle + p.orbitSpeed * dt) *
            (p.orbitRadius -
              0.02 * dt * (disk.blackHole.mass / (p.orbitRadius * p.orbitRadius)) * 0.01),
          p.orbitHeight *
              ((p.orbitRadius -
                  0.02 * dt * (disk.blackHole.mass / (p.orbitRadius * p.orbitRadius)) * 0.01) /
                disk.blackHole.accretionDiskOuter) +
            m.sinf ((p.orbitAngle + p.orbitSpeed * dt) * 3.0 +
              (p.orbitRadius -
                0.02 * dt * (disk.blackHole.mass / (p.orbitRadius * p.orbitRadius)) * 0.01)) *
              0.08,
          m.sinf (p.orbitAngle + p.orbitSpeed * dt) *
            (p.orbitRadius -
              0.02 * dt * (disk.blackHole.mass / (p.orbitRadius * p.orbitRadius)) * 0.01)⟩ ∧
      (¬ AccretionDisk.recycles disk.blackHole dt p →
        (AccretionDisk.updateParticle m disk.blackHole dt p gi).1.orbitAngle =
          p.orbitAngle + p.orbitSpeed * dt ∧
        (AccretionDisk.updateParticle m disk.blackHole dt p gi).1.orbitRadius =
          p.orbitRadius -
            0.02 * dt * (disk.blackHole.mass / (p.orbitRadius * p.orbitRadius)) * 0.01 ∧
        (AccretionDisk.updateParticle m disk.blackHole dt p gi).1.life = p.life - dt) ∧
      (AccretionDisk.recycles disk.blackHole dt p →
        (AccretionDisk.updateParticle m disk.blackHole dt p gi).1.orbitRadius =
          disk.blackHole.accretionDiskInner +
            gi.draw.1 * (disk.blackHole.accretionDiskOuter - disk.blackHole.accretionDiskInner) ∧
        (AccretionDisk.updateParticle m disk.blackHole dt p gi).1.orbitAngle =
          gi.draw.2.draw.1 * BH_PI * 2.0 ∧
        (AccretionDisk.updateParticle m disk.blackHole dt p gi).1.life = p.maxLife) := by
  have hpt := updateParticles_pointwise m disk.blackHole dt disk.particles g
  refine ⟨hpt.length_eq.symm, ?_, hpt, ?_⟩
  · intro disk0 g0 calls
    have hnew : (AccretionDisk.initParticles m disk0 g0).1.particles.length =
        disk0.particleCount.toNat := by
      simp only [AccretionDisk.initParticles, spawnLoop_length, List.length_nil, zero_add]
    exact ⟨hnew, by rw [updates_length, hnew]⟩
  · intro p gi
    by_cases hr : AccretionDisk.recycles disk.blackHole dt p
    · have hr2 := hr
      unfold AccretionDisk.recycles at hr2
      simp only [AccretionDisk.updateParticle, hr2, if_true, hr, not_true_eq_false,
        false_implies, true_implies, and_self, true_and]
    · have hr2 := hr
      unfold AccretionDisk.recycles at hr2
      simp only [AccretionDisk.updateParticle, hr2, if_false, hr, not_false_eq_true,
        false_implies, true_implies, and_self, and_true]

/-- The length of a vector on the x-axis is the absolute value of its coordinate. -/
theorem length_axis (m : CMath F) (hm : m.SqrtExact) (x : F) :
    Vector3Length m ⟨x, 0, 0⟩ = |x| := by
  unfold Vector3Length
  have : x * x + (0 : F) * 0 + 0 * 0 = |x| * |x| := by
    rw [abs_mul_abs_self]
    ring
  simp only [this]
  exact sqrtf_mul_self m hm _ (abs_nonneg x)

/-- Normalising a vector that points along the negative x-axis gives `(-1, 0, 0)`. -/
theorem normalize_axis (m : CMath F) (hm : m.SqrtExact) (x : F) (hx : 0 < x) :
    Vector3Normalize m ⟨-x, 0, 0⟩ = ⟨-1, 0, 0⟩ := by
  have hlen : m.sqrtf (-x * -x + (0 : F) * 0 + 0 * 0) = x := by
    have := length_axis m hm (-x)
    rw [abs_neg, abs_of_pos hx] at this
    exact this
  have hx1 : -x * (1 / x) = -1 := by
    field_simp
  simp only [Vector3Normalize]
  rw [hlen, if_pos hx.ne', hx1, zero_mul]

/-- The gravity of a black hole at the origin, at a point of the positive x-axis at
distance at least `0.1`: it points along the axis toward the origin, with strength
`mass / x^2`. -/
theorem getGravity_axis (m : CMath F) (hm : m.SqrtExact) (bh : BlackHole F)
    (hpos : bh.position = ⟨0, 0, 0⟩) (x : F) (hx : 0.1 ≤ x) :
    bh.getGravity m ⟨x, 0, 0⟩ = ⟨-(bh.mass / (x * x)), 0, 0⟩ := by
  have hx0 : 0 < x := lt_of_lt_of_le (by norm_num) hx
  have hdir : Vector3Subtract bh.position ⟨x, 0, 0⟩ = ⟨-x, 0, 0⟩ := by
    rw [hpos]
    simp only [Vector3Subtract, zero_sub, sub_zero]
  have hlen : Vector3Length m (⟨-x, 0, 0⟩ : Vector3 F) = x := by
    rw [length_axis m hm, abs_neg, abs_of_pos hx0]
  simp only [BlackHole.getGravity, hdir, hlen, not_lt.mpr hx, if_false,
    normalize_axis m hm x hx0, Vector3Scale, zero_mul, neg_mul, one_mul]
/-- The streamer loop updates the streamers one by one, in place: the `i`-th streamer of
the result is the update of the `i`-th streamer, with the generator as it stands then. -/
theorem updateStreamers_pointwise (m : CMath F) (bh : BlackHole F) (dt : F)
    (ss : List (Streamer F)) :
    ∀ g : RandState F,
      List.Forall₂
        (fun s t => ∃ gi : RandState F, t = (InfallingMatter.updateStreamer m bh dt s gi).1)
        ss (InfallingMatter.updateStreamers m bh dt ss g).1 := by
  induction ss with
  | nil =>
    intro g
    exact List.Forall₂.nil
  | cons a as ih =>
    intro g
    simp only [InfallingMatter.updateStreamers]
    exact List.Forall₂.cons ⟨g, rfl⟩ (ih _)

/-- An active streamer for which the recycle test holds leaves the update with an empty
trail. -/
theorem updateStreamer_recycled (m : CMath F) (bh : BlackHole F) (dt : F) (s : Streamer F)
    (g : RandState F) (ha : s.active = true)
    (hr : Vector3Length m (InfallingMatter.steppedPos m bh dt s) < bh.eventHorizonRadius ∨
      s.life - dt ≤ 0 ∨ Vector3Length m (InfallingMatter.steppedPos m bh dt s) > 50.0) :
    (InfallingMatter.updateStreamer m bh dt s g).1.trail = [] := by
  unfold InfallingMatter.steppedPos at hr
  simp only [InfallingMatter.updateStreamer, ha, Bool.not_true, Bool.false_eq_true, if_false, hr,
    if_true]

/-- An active streamer for which the recycle test fails is integrated: the new velocity,
the new position, the position pushed on the trail (the oldest entry erased when the trail
is longer than `maxTrail`) and the life reduced by `dt`. -/
theorem updateStreamer_kept (m : CMath F) (bh : BlackHole F) (dt : F) (s : Streamer F)
    (g : RandState F) (ha : s.active = true)
    (hr : ¬ (Vector3Length m (InfallingMatter.steppedPos m bh dt s) < bh.eventHorizonRadius ∨
      s.life - dt ≤ 0 ∨ Vector3Length m (InfallingMatter.steppedPos m bh dt s) > 50.0)) :
    (InfallingMatter.updateStreamer m bh dt s g).1 =
      { s with
        pos := InfallingMatter.steppedPos m bh dt s
        vel := Vector3Add s.vel (Vector3Scale (bh.getGravity m s.pos) dt)
        trail :=
          if (s.trail ++ [InfallingMatter.steppedPos m bh dt s]).length > toSizeT s.maxTrail
          then (s.trail ++ [InfallingMatter.steppedPos m bh dt s]).tail
          else s.trail ++ [InfallingMatter.steppedPos m bh dt s]
        life := s.life - dt } := by
  unfold InfallingMatter.steppedPos at hr ⊢
  simp only [InfallingMatter.updateStreamer, ha, Bool.not_true, Bool.false_eq_true, if_false, hr]

/-- Updating a streamer only advances the generator. -/
theorem updateStreamer_seq (m : CMath F) (bh : BlackHole F) (dt : F) (s : Streamer F)
    (g : RandState F) : (InfallingMatter.updateStreamer m bh dt s g).2.seq = g.seq := by
  unfold InfallingMatter.updateStreamer
  simp only
  split_ifs <;> rfl

/-- The streamer loop updates the streamers one by one, in place, each with a generator
that reads the same sequence of draws as the one the call started with. -/
theorem updateStreamers_pointwise_seq (m : CMath F) (bh : BlackHole F) (dt : F)
    (ss : List (Streamer F)) :
    ∀ g : RandState F,
      List.Forall₂
        (fun s t => ∃ gi : RandState F, gi.seq = g.seq ∧
          t = (InfallingMatter.updateStreamer m bh dt s gi).1)
        ss (InfallingMatter.updateStreamers m bh dt ss g).1 := by
  induction ss with
  | nil =>
    intro g
    exact List.Forall₂.nil
  | cons a as ih =>
    intro g
    simp only [InfallingMatter.updateStreamers]
    refine List.Forall₂.cons ⟨g, rfl, rfl⟩ ((ih _).imp ?_)
    rintro s t ⟨gi, hseq, rfl⟩
    exact ⟨gi, hseq.trans (updateStreamer_seq m bh dt a g), rfl⟩

/-- An active streamer for which the recycle test holds is replaced by the respawned
streamer, and the generator has advanced by five draws. -/
theorem updateStreamer_eq_respawned (m : CMath F) (bh : BlackHole F) (dt : F) (s : Streamer F)
    (g : RandState F) (ha : s.active = true) (hr : InfallingMatter.recycles m bh dt s) :
    (InfallingMatter.updateStreamer m bh dt s g).1 = InfallingMatter.respawned m bh s g ∧
    (InfallingMatter.updateStreamer m bh dt s g).2 = { g with used := g.used + 5 } := by
  have hr2 := hr
  unfold InfallingMatter.recycles InfallingMatter.steppedPos at hr2
  simp only [InfallingMatter.updateStreamer, ha, Bool.not_true, Bool.false_eq_true, if_false, hr2,
    if_true, InfallingMatter.respawned, RandState.draw, true_and]

/-- The respawned streamer, field by field. -/
theorem respawned_fields (m : CMath F) (bh : BlackHole F) (s : Streamer F) (g : RandState F) :
    (InfallingMatter.respawned m bh s g).trail = [] ∧
    (InfallingMatter.respawned m bh s g).pos =
      ⟨m.cosf (g.seq g.used * BH_PI * 2.0) * (18.0 + g.seq (g.used + 1) * 12.0),
        (g.seq (g.used + 2) - 0.5) * 8.0,
        m.sinf (g.seq g.used * BH_PI * 2.0) * (18.0 + g.seq (g.used + 1) * 12.0)⟩ ∧
    (InfallingMatter.respawned m bh s g).vel =
      Vector3Add
        (Vector3Scale
          (Vector3Normalize m
            (Vector3Subtract bh.position (InfallingMatter.respawned m bh s g).pos)) 2.0)
        (Vector3Scale
          (Vector3Normalize m
            (Vector3CrossProduct
              (Vector3Normalize m
                (Vector3Subtract bh.position (InfallingMatter.respawned m bh s g).pos))
              ⟨0, 1, 0⟩))
          ((0.5 + g.seq (g.used + 3) * 0.5) * 3.0)) ∧
    (InfallingMatter.respawned m bh s g).life = 15.0 + g.seq (g.used + 4) * 10.0 ∧
    (InfallingMatter.respawned m bh s g).maxTrail = s.maxTrail ∧
    (InfallingMatter.respawned m bh s g).color = s.color ∧
    (InfallingMatter.respawned m bh s g).active = s.active :=
  ⟨rfl, rfl, rfl, rfl, rfl, rfl, rfl⟩

/-- C8, as the code has it: `update(dt)` tests the escape condition on the position it has
just integrated.  Streamer by streamer, an active streamer whose position after the step
`vel += gravity * dt; pos += vel * dt` is at distance greater than 50 from the origin is
recycled by that call: it is replaced by the respawned streamer, whose trail is empty and
whose position, velocity and life are drawn afresh (position
`(cos(a) * d, h, sin(a) * d)` with `a = u0 * BH_PI * 2`, `d = 18 + u1 * 12`,
`h = (u2 - 0.5) * 8`; velocity `2 * toCenter + 3 * (0.5 + u3 * 0.5) * perpendicular`; life
`15 + u4 * 10`, for the next five draws `u0 .. u4` of the generator), while `maxTrail`,
`color` and `active` stay as they were. -/
theorem update_recycles_escaped (m : CMath F) (im : InfallingMatter F) (dt : F)
    (g : RandState F) :
    List.Forall₂
      (fun s t => s.active = true →
        50 < Vector3Length m (InfallingMatter.steppedPos m im.blackHole dt s) →
        ∃ gi : RandState F, gi.seq = g.seq ∧
          t = InfallingMatter.respawned m im.blackHole s gi ∧
          t.trail = [] ∧
          t.pos =
            ⟨m.cosf (gi.seq gi.used * BH_PI * 2.0) * (18.0 + gi.seq (gi.used + 1) * 12.0),
              (gi.seq (gi.used + 2) - 0.5) * 8.0,
              m.sinf (gi.seq gi.used * BH_PI * 2.0) * (18.0 + gi.seq (gi.used + 1) * 12.0)⟩ ∧
          t.vel =
            Vector3Add
              (Vector3Scale
                (Vector3Normalize m (Vector3Subtract im.blackHole.position t.pos)) 2.0)
              (Vector3Scale
                (Vector3Normalize m
                  (Vector3CrossProduct
                    (Vector3Normalize m (Vector3Subtract im.blackHole.position t.pos))
                    ⟨0, 1, 0⟩))
                ((0.5 + gi.seq (gi.used + 3) * 0.5) * 3.0)) ∧
          t.life = 15.0 + gi.seq (gi.used + 4) * 10.0 ∧
          t.maxTrail = s.maxTrail ∧ t.color = s.color ∧ t.active = true)
      im.streamers (InfallingMatter.update m im dt g).1.streamers := by
  have h := updateStreamers_pointwise_seq m im.blackHole dt im.streamers g
  refine h.imp ?_
  rintro s t ⟨gi, hseq, rfl⟩ ha hesc
  have hr : InfallingMatter.recycles m im.blackHole dt s := by
    refine Or.inr (Or.inr ?_)
    have e : (50.0 : F) = 50 := by norm_num
    rw [gt_iff_lt, e]
    exact hesc
  obtain ⟨h1, h2, h3, h4, h5, h6, h7⟩ := respawned_fields m im.blackHole s gi
  rw [(updateStreamer_eq_respawned m im.blackHole dt s gi ha hr).1]
  exact ⟨gi, hseq, rfl, h1, h2, h3, h4, h5, h6, h7.trans ha⟩

/-- C8 at a concrete input: over the reals, with the default black hole, the active
streamer at `(60, 0, 0)` with velocity `(1, 0, 0)` is still beyond distance 50 after the
step of `update(0.016)`; with every draw equal to `0.5` it leaves the call with an empty
trail, the life `15 + 0.5 * 10 = 20`, the height `(0.5 - 0.5) * 8 = 0` and its `maxTrail`
of 30. -/
theorem update_recycles_escaped_witness :
    ((InfallingMatter.update (CMath.mk Real.sqrt Real.cos Real.sin)
        { streamers := [{ pos := ⟨60, 0, 0⟩, vel := ⟨1, 0, 0⟩,
                          trail := [⟨59.9, 0, 0⟩, ⟨60, 0, 0⟩], maxTrail := 30,
                          color := ⟨255, 100, 50, 255⟩, active := true, life := 7 }],
          blackHole := (BlackHole.new : BlackHole ℝ), maxStreamers := 1 }
        0.016 ⟨fun _ => 0.5, 0⟩).1.streamers.map
        fun s => (s.trail, s.life, s.pos.y, s.maxTrail)) = [([], 20, 0, 30)] := by
  have hm := real_sqrtExact Real.cos Real.sin
  have h := update_recycles_escaped (CMath.mk Real.sqrt Real.cos Real.sin)
    { streamers := [{ pos := ⟨60, 0, 0⟩, vel := ⟨1, 0, 0⟩,
                      trail := [⟨59.9, 0, 0⟩, ⟨60, 0, 0⟩], maxTrail := 30,
                      color := ⟨255, 100, 50, 255⟩, active := true, life := 7 }],
      blackHole := (BlackHole.new : BlackHole ℝ), maxStreamers := 1 }
    0.016 ⟨fun _ => 0.5, 0⟩
  have hg := getGravity_axis (CMath.mk Real.sqrt Real.cos Real.sin) hm
    (BlackHole.new : BlackHole ℝ) rfl 60 (by norm_num)
  have hstep : InfallingMatter.steppedPos (CMath.mk Real.sqrt Real.cos Real.sin)
      (BlackHole.new : BlackHole ℝ) 0.016
      { pos := ⟨60, 0, 0⟩, vel := ⟨1, 0, 0⟩, trail := [⟨59.9, 0, 0⟩, ⟨60, 0, 0⟩],
        maxTrail := 30, color := ⟨255, 100, 50, 255⟩, active := true, life := 7 } =
      ⟨60 + (1 + -((BlackHole.new : BlackHole ℝ).mass / (60 * 60)) * 0.016) * 0.016, 0, 0⟩ := by
    simp only [InfallingMatter.steppedPos, hg, Vector3Add, Vector3Scale, zero_mul, add_zero]
  simp only [InfallingMatter.update, InfallingMatter.updateStreamers] at h ⊢
  obtain ⟨gi, hseq, _, htrail, hpos, _, hlife, hmax, _, _⟩ := (List.forall₂_cons.mp h).1 rfl
    (by
      rw [hstep, length_axis _ hm]
      simp only [BlackHole.new]
      rw [abs_of_pos (by norm_num)]
      norm_num)
  have hy := congrArg Vector3.y hpos
  simp only [hseq] at hlife hy
  simp only [List.map_cons, List.map_nil, htrail, hlife, hy, hmax]
  norm_num

/-- C8 fails as stated: over the reals, with the default black hole, the active streamer
at `(50.1, 0, 0)` (distance `50.1` from the origin) with velocity `(-10, 0, 0)` and life
`20` is not recycled by `update(1)`: the step brings it back to distance about `40.08`,
and its trail holds one position after the call. -/
theorem update_escape_counterexample :
    (50 : ℝ) < Vector3Length (CMath.mk Real.sqrt Real.cos Real.sin) ⟨50.1, 0, 0⟩ ∧
    ((InfallingMatter.update (CMath.mk Real.sqrt Real.cos Real.sin)
        { streamers := [{ pos := ⟨50.1, 0, 0⟩, vel := ⟨-10, 0, 0⟩, trail := [], maxTrail := 30,
                          color := ⟨255, 100, 50, 255⟩, active := true, life := 20 }],
          blackHole := (BlackHole.new : BlackHole ℝ), maxStreamers := 1 }
        1 ⟨fun _ => 0.5, 0⟩).1.streamers.map fun s => s.trail.length) = [1] := by
  have hm := real_sqrtExact Real.cos Real.sin
  constructor
  · rw [length_axis _ hm, abs_of_pos (by norm_num)]
    norm_num
  · have hg := getGravity_axis (CMath.mk Real.sqrt Real.cos Real.sin) hm
      (BlackHole.new : BlackHole ℝ) rfl 50.1 (by norm_num)
    have hstep : InfallingMatter.steppedPos (CMath.mk Real.sqrt Real.cos Real.sin)
        (BlackHole.new : BlackHole ℝ) 1
        { pos := ⟨50.1, 0, 0⟩, vel := ⟨-10, 0, 0⟩, trail := [], maxTrail := 30,
          color := ⟨255, 100, 50, 255⟩, active := true, life := 20 } =
        ⟨50.1 + (-10 + -((BlackHole.new : BlackHole ℝ).mass / (50.1 * 50.1)) * 1) * 1, 0, 0⟩ := by
      simp only [InfallingMatter.steppedPos, hg, Vector3Add, Vector3Scale, zero_mul, add_zero]
    have hkeep := updateStreamer_kept (CMath.mk Real.sqrt Real.cos Real.sin)
      (BlackHole.new : BlackHole ℝ) 1
      { pos := ⟨50.1, 0, 0⟩, vel := ⟨-10, 0, 0⟩, trail := [], maxTrail := 30,
        color := ⟨255, 100, 50, 255⟩, active := true, life := 20 } ⟨fun _ => 0.5, 0⟩ rfl
      (by
        rw [hstep, length_axis _ hm]
        simp only [BlackHole.new]
        rw [abs_of_pos (by norm_num)]
        norm_num)
    simp only [InfallingMatter.update, InfallingMatter.updateStreamers, hkeep, List.map_cons,
      List.map_nil, List.nil_append, List.length_singleton, toSizeT_thirty]
    norm_num

/-- The inner loop of `generateLines` when the early stop fires first at step `k`: the
stored points are those held before steps `0..k`. -/
theorem traceLine_stops (m : CMath F) (bh : BlackHole F) (k : Nat) :
    ∀ (n : Nat) (pos : Vector3 F) (line : List (Vector3 F)), k < n →
      (∀ j < k, ¬ Vector3Length m (GravityFieldLines.pointAt m bh pos (j + 1)) <
        bh.eventHorizonRadius * 1.2) →
      Vector3Length m (GravityFieldLines.pointAt m bh pos (k + 1)) <
        bh.eventHorizonRadius * 1.2 →
      GravityFieldLines.traceLine m bh n pos line =
        line ++ (List.range (k + 1)).map (GravityFieldLines.pointAt m bh pos) := by
  induction k with
  | zero =>
    intro n pos line hn _ hb
    obtain ⟨n, rfl⟩ := Nat.exists_eq_succ_of_ne_zero (Nat.pos_iff_ne_zero.mp hn)
    have hb2 : Vector3Length m (GravityFieldLines.advance m bh pos) <
        bh.eventHorizonRadius * 1.2 := hb
    simp only [GravityFieldLines.traceLine, hb2, if_true]
    rfl
  | succ k ih =>
    intro n pos line hn hf hb
    obtain ⟨n, rfl⟩ := Nat.exists_eq_succ_of_ne_zero (Nat.pos_iff_ne_zero.mp (by omega : 0 < n))
    have h0 : ¬ Vector3Length m (GravityFieldLines.advance m bh pos) <
        bh.eventHorizonRadius * 1.2 := hf 0 (Nat.succ_pos k)
    have hshift : ∀ j, GravityFieldLines.pointAt m bh (GravityFieldLines.advance m bh pos) j =
        GravityFieldLines.pointAt m bh pos (j + 1) := fun j => rfl
    simp only [GravityFieldLines.traceLine, h0, if_false]
    rw [ih n (GravityFieldLines.advance m bh pos) (line ++ [pos]) (by omega)
      (fun j hj => by rw [hshift]; exact hf (j + 1) (by omega))
      (by rw [hshift]; exact hb)]
    rw [List.range_succ_eq_map (k + 1), List.map_cons, List.map_map, List.append_assoc]
    rfl

/-- The inner loop of `generateLines` when the early stop never fires: one point per step. -/
theorem traceLine_full (m : CMath F) (bh : BlackHole F) (n : Nat) :
    ∀ (pos : Vector3 F) (line : List (Vector3 F)),
      (∀ j < n, ¬ Vector3Length m (GravityFieldLines.pointAt m bh pos (j + 1)) <
        bh.eventHorizonRadius * 1.2) →
      GravityFieldLines.traceLine m bh n pos line =
        line ++ (List.range n).map (GravityFieldLines.pointAt m bh pos) := by
  induction n with
  | zero =>
    intro pos line _
    simp [GravityFieldLines.traceLine]
  | succ n ih =>
    intro pos line hf
    have h0 : ¬ Vector3Length m (GravityFieldLines.advance m bh pos) <
        bh.eventHorizonRadius * 1.2 := hf 0 (Nat.succ_pos n)
    have hshift : ∀ j, GravityFieldLines.pointAt m bh (GravityFieldLines.advance m bh pos) j =
        GravityFieldLines.pointAt m bh pos (j + 1) := fun j => rfl
    simp only [GravityFieldLines.traceLine, h0, if_false]
    rw [ih (GravityFieldLines.advance m bh pos) (line ++ [pos])
      (fun j hj => by rw [hshift]; exact hf (j + 1) (by omega))]
    rw [List.range_succ_eq_map n, List.map_cons, List.map_map, List.append_assoc]
    rfl

/-- Line `i` of `generateLines` is the trace of at most 100 steps from seed `i`. -/
theorem generateLines_line (m : CMath F) (gfl : GravityFieldLines F) (i : Nat)
    (hi : i < gfl.lineCount.toNat) :
    (GravityFieldLines.generateLines m gfl).fieldLines[i]? =
      some (GravityFieldLines.traceLine m gfl.blackHole 100
        (GravityFieldLines.seed m gfl.lineCount i) []) := by
  simp only [GravityFieldLines.generateLines, List.getElem?_map, List.getElem?_range hi,
    Option.map_some']
/-- The seed of line 0 is `(25, 0, 0)` when `cosf 0 = 1` and `sinf 0 = 0`. -/
theorem seed_zero (m : CMath F) (hc : m.cosf 0 = 1) (hs : m.sinf 0 = 0) (lineCount : Int) :
    GravityFieldLines.seed m lineCount 0 = ⟨25, 0, 0⟩ := by
  simp only [GravityFieldLines.seed, Nat.cast_zero, zero_div, zero_mul, hc, hs, one_mul,
    Vector3.mk.injEq, and_true, true_and]
  norm_num

/-- One integration step from a point of the positive x-axis at distance at least `0.1`
from a black hole at the origin moves the point along the axis by `0.15 * mass / x^2`. -/
theorem advance_axis (m : CMath F) (hm : m.SqrtExact) (bh : BlackHole F)
    (hpos : bh.position = ⟨0, 0, 0⟩) (x : F) (hx : 0.1 ≤ x) :
    GravityFieldLines.advance m bh ⟨x, 0, 0⟩ = ⟨x - 0.15 * (bh.mass / (x * x)), 0, 0⟩ := by
  simp only [GravityFieldLines.advance, getGravity_axis m hm bh hpos x hx, Vector3Add,
    Vector3Scale, zero_mul, add_zero, Vector3.mk.injEq, and_true]
  ring

/-- At the black hole's own position the gravity is the zero vector. -/
theorem getGravity_at_position (m : CMath F) (bh : BlackHole F) :
    bh.getGravity m bh.position = ⟨0, 0, 0⟩ := by
  have hdir : Vector3Subtract bh.position bh.position = ⟨0, 0, 0⟩ := by
    simp only [Vector3Subtract, sub_self]
  have hn : Vector3Normalize m (⟨0, 0, 0⟩ : Vector3 F) = ⟨0, 0, 0⟩ := by
    simp only [Vector3Normalize]
    split_ifs
    · simp only [zero_mul]
    · rfl
  simp only [BlackHole.getGravity, hdir, hn, Vector3Scale, zero_mul]

/-- A point at the black hole's position is not moved by the integration. -/
theorem pointAt_position (m : CMath F) (bh : BlackHole F) (k : Nat) :
    GravityFieldLines.pointAt m bh bh.position k = bh.position := by
  have hfix : GravityFieldLines.advance m bh bh.position = bh.position := by
    simp only [GravityFieldLines.advance, getGravity_at_position, Vector3Add, Vector3Scale,
      zero_mul, add_zero]
  exact Function.iterate_fixed hfix k

/-- C9, as the code has it: `generateLines` measures the distance of the integrated
position from the origin (`Vector3Length(pos)`), and the test follows the push.  For line
`i` with points `p_0 = seed`, `p_(j+1) = p_j + 0.15 * getGravity(p_j)`: if `p_(k+1)`, the
position computed at step `k < 100`, is closer to the origin than
`1.2 * eventHorizonRadius`, then integration stops at the first such step `k0 ≤ k`, the
stored line is exactly `p_0, ..., p_k0` (no later point), and it has `k0 + 1 ≤ k + 1`
points: fewer than 100 whenever `k < 99`. -/
theorem generateLines_early_stop (m : CMath F) (gfl : GravityFieldLines F) (i : Nat)
    (hi : i < gfl.lineCount.toNat) (k : Nat) (hk : k < 100)
    (hb : Vector3Length m (GravityFieldLines.pointAt m gfl.blackHole
        (GravityFieldLines.seed m gfl.lineCount i) (k + 1)) <
      gfl.blackHole.eventHorizonRadius * 1.2) :
    ∃ k0 : Nat, k0 ≤ k ∧
      Vector3Length m (GravityFieldLines.pointAt m gfl.blackHole
          (GravityFieldLines.seed m gfl.lineCount i) (k0 + 1)) <
        gfl.blackHole.eventHorizonRadius * 1.2 ∧
      (∀ j < k0, ¬ Vector3Length m (GravityFieldLines.pointAt m gfl.blackHole
          (GravityFieldLines.seed m gfl.lineCount i) (j + 1)) <
        gfl.blackHole.eventHorizonRadius * 1.2) ∧
      ∃ line : List (Vector3 F),
        (GravityFieldLines.generateLines m gfl).fieldLines[i]? = some line ∧
        line = (List.range (k0 + 1)).map
          (GravityFieldLines.pointAt m gfl.blackHole
            (GravityFieldLines.seed m gfl.lineCount i)) ∧
        line.length = k0 + 1 ∧ line.length ≤ k + 1 ∧ (k < 99 → line.length < 100) := by
  classical
  have hex : ∃ j, Vector3Length m (GravityFieldLines.pointAt m gfl.blackHole
      (GravityFieldLines.seed m gfl.lineCount i) (j + 1)) <
      gfl.blackHole.eventHorizonRadius * 1.2 := ⟨k, hb⟩
  have hle : Nat.find hex ≤ k := Nat.find_min' hex hb
  refine ⟨Nat.find hex, hle, Nat.find_spec hex, fun j hj => Nat.find_min hex hj, _, ?_, rfl,
    ?_, ?_, ?_⟩
  · rw [generateLines_line m gfl i hi,
      traceLine_stops m gfl.blackHole (Nat.find hex) 100 _ [] (by omega)
        (fun j hj => Nat.find_min hex hj) (Nat.find_spec hex), List.nil_append]
  · simp only [List.length_map, List.length_range]
  · simp only [List.length_map, List.length_range]
    omega
  · intro h99
    simp only [List.length_map, List.length_range]
    omega

/-- C9 at a concrete input: over the reals, line 0 of the black hole with horizon radius 30;
the position computed at step 0 is at distance below `36 = 1.2 * 30`. -/
theorem generateLines_early_stop_witness :
    ∃ k0 : Nat, k0 ≤ 0 ∧
      Vector3Length (CMath.mk Real.sqrt Real.cos Real.sin)
          (GravityFieldLines.pointAt (CMath.mk Real.sqrt Real.cos Real.sin) (wideHole : BlackHole ℝ)
            (GravityFieldLines.seed (CMath.mk Real.sqrt Real.cos Real.sin) 24 0) (k0 + 1)) <
        (wideHole : BlackHole ℝ).eventHorizonRadius * 1.2 ∧
      (∀ j < k0, ¬ Vector3Length (CMath.mk Real.sqrt Real.cos Real.sin)
          (GravityFieldLines.pointAt (CMath.mk Real.sqrt Real.cos Real.sin) (wideHole : BlackHole ℝ)
            (GravityFieldLines.seed (CMath.mk Real.sqrt Real.cos Real.sin) 24 0) (j + 1)) <
        (wideHole : BlackHole ℝ).eventHorizonRadius * 1.2) ∧
      ∃ line : List (Vector3 ℝ),
        (GravityFieldLines.generateLines (CMath.mk Real.sqrt Real.cos Real.sin)
          { blackHole := wideHole, lineCount := 24, fieldLines := [] }).fieldLines[0]? =
            some line ∧
        line = (List.range (k0 + 1)).map
          (GravityFieldLines.pointAt (CMath.mk Real.sqrt Real.cos Real.sin)
            (wideHole : BlackHole ℝ)
            (GravityFieldLines.seed (CMath.mk Real.sqrt Real.cos Real.sin) 24 0)) ∧
        line.length = k0 + 1 ∧ line.length ≤ 0 + 1 ∧ (0 < 99 → line.length < 100) :=
  generateLines_early_stop (CMath.mk Real.sqrt Real.cos Real.sin)
    { blackHole := wideHole, lineCount := 24, fieldLines := [] } 0 (by decide) 0 (by decide)
    (by
      have hm := real_sqrtExact Real.cos Real.sin
      have hseed := seed_zero (CMath.mk Real.sqrt Real.cos Real.sin) Real.cos_zero Real.sin_zero 24
      have hadv := advance_axis (CMath.mk Real.sqrt Real.cos Real.sin) hm
        (wideHole : BlackHole ℝ) rfl 25 (by norm_num)
      show Vector3Length _ (GravityFieldLines.advance _ _ (GravityFieldLines.seed _ 24 0)) < _
      rw [hseed, hadv, length_axis _ hm]
      simp only [wideHole, BlackHole.new]
      rw [abs_of_pos (by norm_num)]
      norm_num)

/-- The gravity depends on the black hole through its position and mass only. -/
theorem getGravity_congr (m : CMath F) (bh1 bh2 : BlackHole F)
    (hp : bh1.position = bh2.position) (hmass : bh1.mass = bh2.mass) (p : Vector3 F) :
    bh1.getGravity m p = bh2.getGravity m p := by
  simp only [BlackHole.getGravity, hp, hmass]

/-- The integrated points depend on the black hole through its position and mass only. -/
theorem pointAt_congr (m : CMath F) (bh1 bh2 : BlackHole F)
    (hp : bh1.position = bh2.position) (hmass : bh1.mass = bh2.mass) (seed : Vector3 F)
    (k : Nat) :
    GravityFieldLines.pointAt m bh1 seed k = GravityFieldLines.pointAt m bh2 seed k := by
  have : GravityFieldLines.advance m bh1 = GravityFieldLines.advance m bh2 := by
    funext p
    simp only [GravityFieldLines.advance, getGravity_congr m bh1 bh2 hp hmass]
  simp only [GravityFieldLines.pointAt, this]

/-- One radial step from `x ≥ 20` with mass 50: the point moves inward, and its cube
drops by at most `22.5`. -/
theorem radial_step (x : F) (hx : 20 ≤ x) :
    x - 0.15 * (50 / (x * x)) < x ∧ 0 < x - 0.15 * (50 / (x * x)) ∧
    x ^ 3 - 22.5 ≤ (x - 0.15 * (50 / (x * x))) ^ 3 := by
  have hx0 : 0 < x := lt_of_lt_of_le (by norm_num) hx
  have hxx : 0 < x * x := mul_pos hx0 hx0
  have hxx400 : 400 ≤ x * x := by nlinarith
  have ht0 : 0 < 0.15 * (50 / (x * x)) := mul_pos (by norm_num) (div_pos (by norm_num) hxx)
  have htx : 0.15 * (50 / (x * x)) * (x * x) = 7.5 := by
    field_simp
    norm_num
  have ht1 : 0.15 * (50 / (x * x)) < 1 := by
    by_contra hcon
    have h1 : 1 ≤ 0.15 * (50 / (x * x)) := not_lt.mp hcon
    have : (x * x) ≤ 0.15 * (50 / (x * x)) * (x * x) := by
      calc x * x = 1 * (x * x) := (one_mul _).symm
        _ ≤ 0.15 * (50 / (x * x)) * (x * x) := mul_le_mul_of_nonneg_right h1 hxx.le
    rw [htx] at this
    have : (400 : F) ≤ 7.5 := le_trans hxx400 this
    norm_num at this
  refine ⟨by linarith, by linarith, ?_⟩
  have hcube : (x - 0.15 * (50 / (x * x))) ^ 3 =
      x ^ 3 - 3 * (0.15 * (50 / (x * x)) * (x * x)) +
        (0.15 * (50 / (x * x))) ^ 2 * (3 * x - 0.15 * (50 / (x * x))) := by ring
  rw [hcube, htx]
  have : 0 ≤ (0.15 * (50 / (x * x))) ^ 2 * (3 * x - 0.15 * (50 / (x * x))) :=
    mul_nonneg (sq_nonneg _) (by linarith)
  have e : (3 : F) * 7.5 = 22.5 := by norm_num
  linarith

/-- Along the first 100 steps from `(25, 0, 0)`, with the black hole at the origin and
mass 50, the point stays on the x-axis at distance at least 20. -/
theorem radial_invariant (m : CMath F) (hm : m.SqrtExact) (bh : BlackHole F)
    (hpos : bh.position = ⟨0, 0, 0⟩) (hmass : bh.mass = 50) (k : Nat) (hk : k ≤ 100) :
    GravityFieldLines.pointAt m bh ⟨25, 0, 0⟩ k =
      ⟨(GravityFieldLines.pointAt m bh ⟨25, 0, 0⟩ k).x, 0, 0⟩ ∧
    20 ≤ (GravityFieldLines.pointAt m bh ⟨25, 0, 0⟩ k).x ∧
    15625 - 22.5 * (k : F) ≤ (GravityFieldLines.pointAt m bh ⟨25, 0, 0⟩ k).x ^ 3 := by
  induction k with
  | zero =>
    refine ⟨rfl, ?_, ?_⟩
    · show (20 : F) ≤ 25
      norm_num
    · show 15625 - 22.5 * ((0 : Nat) : F) ≤ (25 : F) ^ 3
      norm_num
  | succ k ih =>
    obtain ⟨hax, h20, hcube⟩ := ih (by omega)
    have hnext : GravityFieldLines.pointAt m bh ⟨25, 0, 0⟩ (k + 1) =
        GravityFieldLines.advance m bh (GravityFieldLines.pointAt m bh ⟨25, 0, 0⟩ k) :=
      Function.iterate_succ_apply' _ _ _
    have hstep := radial_step _ h20
    have hadv : GravityFieldLines.pointAt m bh ⟨25, 0, 0⟩ (k + 1) =
        ⟨(GravityFieldLines.pointAt m bh ⟨25, 0, 0⟩ k).x -
          0.15 * (50 / ((GravityFieldLines.pointAt m bh ⟨25, 0, 0⟩ k).x *
            (GravityFieldLines.pointAt m bh ⟨25, 0, 0⟩ k).x)), 0, 0⟩ := by
      rw [hnext, hax, advance_axis m hm bh hpos _ (le_trans (by norm_num) h20), hmass]
    rw [hadv]
    have hk1 : ((k + 1 : Nat) : F) ≤ 100 := by exact_mod_cast hk
    have hc2 : 15625 - 22.5 * ((k + 1 : Nat) : F) ≤
        ((GravityFieldLines.pointAt m bh ⟨25, 0, 0⟩ k).x -
          0.15 * (50 / ((GravityFieldLines.pointAt m bh ⟨25, 0, 0⟩ k).x *
            (GravityFieldLines.pointAt m bh ⟨25, 0, 0⟩ k).x))) ^ 3 := by
      push_cast
      linarith [hstep.2.2]
    refine ⟨rfl, ?_, hc2⟩
    by_contra hcon
    have hlt := not_le.mp hcon
    have h8000 : ((GravityFieldLines.pointAt m bh ⟨25, 0, 0⟩ k).x -
          0.15 * (50 / ((GravityFieldLines.pointAt m bh ⟨25, 0, 0⟩ k).x *
            (GravityFieldLines.pointAt m bh ⟨25, 0, 0⟩ k).x))) ^ 3 < 20 ^ 3 :=
      pow_lt_pow_left₀ hlt hstep.2.1.le (by norm_num)
    have : (15625 : F) - 22.5 * 100 ≤ 15625 - 22.5 * ((k + 1 : Nat) : F) := by
      have : (22.5 : F) * ((k + 1 : Nat) : F) ≤ 22.5 * 100 :=
        mul_le_mul_of_nonneg_left hk1 (by norm_num)
      linarith
    norm_num at h8000 this
    linarith
/-- Along the first 100 steps from `(25, 0, 0)`, each step moves the point strictly
inward. -/
theorem radial_decreasing (m : CMath F) (hm : m.SqrtExact) (bh : BlackHole F)
    (hpos : bh.position = ⟨0, 0, 0⟩) (hmass : bh.mass = 50) (k : Nat) (hk : k < 100) :
    (GravityFieldLines.pointAt m bh ⟨25, 0, 0⟩ (k + 1)).x <
      (GravityFieldLines.pointAt m bh ⟨25, 0, 0⟩ k).x := by
  obtain ⟨hax, h20, _⟩ := radial_invariant m hm bh hpos hmass k hk.le
  have hnext : GravityFieldLines.pointAt m bh ⟨25, 0, 0⟩ (k + 1) =
      GravityFieldLines.advance m bh (GravityFieldLines.pointAt m bh ⟨25, 0, 0⟩ k) :=
    Function.iterate_succ_apply' _ _ _
  have hadv : GravityFieldLines.pointAt m bh ⟨25, 0, 0⟩ (k + 1) =
      ⟨(GravityFieldLines.pointAt m bh ⟨25, 0, 0⟩ k).x -
        0.15 * (50 / ((GravityFieldLines.pointAt m bh ⟨25, 0, 0⟩ k).x *
          (GravityFieldLines.pointAt m bh ⟨25, 0, 0⟩ k).x)), 0, 0⟩ := by
    rw [hnext, hax, advance_axis m hm bh hpos _ (le_trans (by norm_num) h20), hmass]
  rw [hadv]
  exact (radial_step _ h20).1

/-- Along the first 100 steps from `(25, 0, 0)`, a later point is at most as far out as an
earlier one. -/
theorem radial_antitone (m : CMath F) (hm : m.SqrtExact) (bh : BlackHole F)
    (hpos : bh.position = ⟨0, 0, 0⟩) (hmass : bh.mass = 50) (j k : Nat) (hjk : j ≤ k)
    (hk : k ≤ 100) :
    (GravityFieldLines.pointAt m bh ⟨25, 0, 0⟩ k).x ≤
      (GravityFieldLines.pointAt m bh ⟨25, 0, 0⟩ j).x := by
  induction k with
  | zero =>
    have : j = 0 := by omega
    rw [this]
  | succ k ih =>
    rcases Nat.eq_or_lt_of_le hjk with h | h
    · rw [h]
    · exact le_trans (radial_decreasing m hm bh hpos hmass k (by omega)).le
        (ih (by omega) (by omega))

/-- The distance from the origin of the point held after `k ≤ 100` steps from
`(25, 0, 0)` is its x-coordinate. -/
theorem radial_length (m : CMath F) (hm : m.SqrtExact) (bh : BlackHole F)
    (hpos : bh.position = ⟨0, 0, 0⟩) (hmass : bh.mass = 50) (k : Nat) (hk : k ≤ 100) :
    Vector3Length m (GravityFieldLines.pointAt m bh ⟨25, 0, 0⟩ k) =
      (GravityFieldLines.pointAt m bh ⟨25, 0, 0⟩ k).x := by
  obtain ⟨hax, h20, _⟩ := radial_invariant m hm bh hpos hmass k hk
  rw [hax, length_axis m hm, abs_of_pos (lt_of_lt_of_le (by norm_num) h20)]

/-- With the horizon radius of `lastStepHole` the early stop fires at step 99, the last
one, and the line from `(25, 0, 0)` holds 100 points. -/
theorem lastStep_line (m : CMath F) (hm : m.SqrtExact) :
    Vector3Length m (GravityFieldLines.pointAt m (lastStepHole m) ⟨25, 0, 0⟩ 100) <
      (lastStepHole m).eventHorizonRadius * 1.2 ∧
    GravityFieldLines.traceLine m (lastStepHole m) 100 ⟨25, 0, 0⟩ [] =
      (List.range 100).map (GravityFieldLines.pointAt m (lastStepHole m) ⟨25, 0, 0⟩) := by
  have hpos : (lastStepHole m).position = ⟨0, 0, 0⟩ := rfl
  have hmass : (lastStepHole m).mass = 50 := by
    show (50.0 : F) = 50
    norm_num
  have hth : (lastStepHole m).eventHorizonRadius * 1.2 =
      (GravityFieldLines.pointAt m (lastStepHole m) ⟨25, 0, 0⟩ 99).x := by
    rw [pointAt_congr m (lastStepHole m) BlackHole.new rfl rfl]
    show (GravityFieldLines.pointAt m (BlackHole.new : BlackHole F) ⟨25, 0, 0⟩ 99).x / 1.2 * 1.2 = _
    field_simp
  have hlast : Vector3Length m (GravityFieldLines.pointAt m (lastStepHole m) ⟨25, 0, 0⟩ 100) <
      (lastStepHole m).eventHorizonRadius * 1.2 := by
    rw [hth, radial_length m hm _ hpos hmass 100 le_rfl]
    exact radial_decreasing m hm _ hpos hmass 99 (by norm_num)
  refine ⟨hlast, ?_⟩
  have := traceLine_stops m (lastStepHole m) 99 100 ⟨25, 0, 0⟩ [] (by norm_num)
    (by
      intro j hj
      rw [hth, radial_length m hm _ hpos hmass (j + 1) (by omega), not_lt]
      exact radial_antitone m hm _ hpos hmass (j + 1) 99 (by omega) (by norm_num))
    hlast
  rw [this, List.nil_append]
/-- The distance of a point from a source at the origin is the length of the point. -/
theorem length_sub_origin (m : CMath F) (p : Vector3 F) :
    Vector3Length m (Vector3Subtract ⟨0, 0, 0⟩ p) = Vector3Length m p := by
  simp only [Vector3Length, Vector3Subtract, zero_sub, neg_mul_neg]

/-- C9 fails as stated, in two ways, both over the reals on the line seeded at radius 25
along angle 0.  With the black hole at `(25, 0, 0)` the position computed at step 0 is at
distance 0 from the source, below `1.2 * eventHorizonRadius = 2.4`, yet the integration
does not stop (the code measures the distance from the origin) and the line has 100
points.  With the black hole at the origin and the horizon radius of `lastStepHole`, the
first position below the threshold is the one computed at step 99: the loop stops there,
and the line has 100 points, as many as the step budget. -/
theorem generateLines_early_stop_counterexample :
    (Vector3Length (CMath.mk Real.sqrt Real.cos Real.sin)
        (Vector3Subtract (displacedHole : BlackHole ℝ).position
          (GravityFieldLines.pointAt (CMath.mk Real.sqrt Real.cos Real.sin) displacedHole
            (GravityFieldLines.seed (CMath.mk Real.sqrt Real.cos Real.sin) 24 0) 1)) <
        1.2 * (displacedHole : BlackHole ℝ).eventHorizonRadius ∧
      (GravityFieldLines.generateLines (CMath.mk Real.sqrt Real.cos Real.sin)
        { blackHole := displacedHole, lineCount := 24, fieldLines := [] }).fieldLines[0]?.map
          List.length = some 100) ∧
    (Vector3Length (CMath.mk Real.sqrt Real.cos Real.sin)
        (Vector3Subtract (lastStepHole (CMath.mk Real.sqrt Real.cos Real.sin)).position
          (GravityFieldLines.pointAt (CMath.mk Real.sqrt Real.cos Real.sin)
            (lastStepHole (CMath.mk Real.sqrt Real.cos Real.sin))
            (GravityFieldLines.seed (CMath.mk Real.sqrt Real.cos Real.sin) 24 0) 100)) <
        1.2 * (lastStepHole (CMath.mk Real.sqrt Real.cos Real.sin)).eventHorizonRadius ∧
      (GravityFieldLines.generateLines (CMath.mk Real.sqrt Real.cos Real.sin)
        { blackHole := lastStepHole (CMath.mk Real.sqrt Real.cos Real.sin), lineCount := 24,
          fieldLines := [] }).fieldLines[0]?.map List.length = some 100) := by
  have hm := real_sqrtExact Real.cos Real.sin
  have hseed := seed_zero (CMath.mk Real.sqrt Real.cos Real.sin) Real.cos_zero Real.sin_zero 24
  have hfix : ∀ k, GravityFieldLines.pointAt (CMath.mk Real.sqrt Real.cos Real.sin)
      (displacedHole : BlackHole ℝ) ⟨25, 0, 0⟩ k = ⟨25, 0, 0⟩ :=
    fun k => pointAt_position (CMath.mk Real.sqrt Real.cos Real.sin) displacedHole k
  refine ⟨⟨?_, ?_⟩, ?_, ?_⟩
  · rw [hseed, hfix]
    have : Vector3Subtract (displacedHole : BlackHole ℝ).position ⟨25, 0, 0⟩ = ⟨0, 0, 0⟩ := by
      simp only [displacedHole, Vector3Subtract, sub_self]
    rw [this, length_axis _ hm, abs_zero]
    simp only [displacedHole, BlackHole.new]
    norm_num
  · rw [generateLines_line _ _ 0 (by decide), hseed]
    rw [traceLine_full _ _ 100 _ []
      (by
        intro j _
        rw [hfix, length_axis _ hm, abs_of_pos (by norm_num)]
        simp only [displacedHole, BlackHole.new]
        norm_num)]
    simp only [List.nil_append, Option.map_some', List.length_map, List.length_range]
  · rw [hseed]
    have hp : (lastStepHole (CMath.mk Real.sqrt Real.cos Real.sin)).position = ⟨0, 0, 0⟩ := rfl
    rw [hp, length_sub_origin, mul_comm]
    exact (lastStep_line _ hm).1
  · rw [generateLines_line _ _ 0 (by decide), hseed, (lastStep_line _ hm).2]
    simp only [Option.map_some', List.length_map, List.length_range]

/-- `Real.cos` and `Real.sin` satisfy `cos^2 + sin^2 = 1`. -/
theorem real_pythagorean (s : ℝ → ℝ) : (CMath.mk s Real.cos Real.sin).Pythagorean := by
  intro a
  have := Real.cos_sq_add_sin_sq a
  simp only [sq] at this
  exact this

/-- The height a spawn samples is `(u - 0.5) * 0.6` scaled by a factor of the radius that
is `1` at the inner edge and `0.5` at the outer edge. -/
theorem newParticle_height (m : CMath F) (bh : BlackHole F) (g : RandState F) :
    (AccretionDisk.newParticle m bh g).1.orbitHeight =
      (g.seq (g.used + 2) - 0.5) * 0.6 *
        (1.0 - ((AccretionDisk.newParticle m bh g).1.orbitRadius - bh.accretionDiskInner) /
          (bh.accretionDiskOuter - bh.accretionDiskInner) * 0.5) := rfl

/-- C12, as the code has it: in `spawnParticle` the random vertical offset is scaled by
`1 - 0.5 * (r - inner) / (outer - inner)`, which is `1` at the inner edge and `0.5` at the
outer edge.  For the same height draw `u` in `[0, 1]` and two sampled radii `r1 ≤ r2` in
`[inner, outer]` the offsets satisfy `|orbitHeight(r2, u)| ≤ |orbitHeight(r1, u)|`: the
spawned offset is largest at the inner edge and halved at the outer edge. -/
theorem spawn_height_scaling (m : CMath F) (bh : BlackHole F)
    (hio : bh.accretionDiskInner < bh.accretionDiskOuter) (g1 g2 : RandState F)
    (hg1 : g1.InUnit) (hg2 : g2.InUnit) (hu : g1.seq (g1.used + 2) = g2.seq (g2.used + 2))
    (hr : (AccretionDisk.newParticle m bh g1).1.orbitRadius ≤
      (AccretionDisk.newParticle m bh g2).1.orbitRadius) :
    |(AccretionDisk.newParticle m bh g2).1.orbitHeight| ≤
      |(AccretionDisk.newParticle m bh g1).1.orbitHeight| := by
  have hd : 0 < bh.accretionDiskOuter - bh.accretionDiskInner := sub_pos.mpr hio
  have hb1 := newParticle_radius m bh hio.le g1 hg1
  have hb2 := newParticle_radius m bh hio.le g2 hg2
  rw [newParticle_height m bh g1, newParticle_height m bh g2, hu]
  simp only [abs_mul]
  apply mul_le_mul_of_nonneg_left _ (mul_nonneg (abs_nonneg _) (abs_nonneg _))
  have hq : ∀ r : F, r ≤ bh.accretionDiskOuter →
      0 ≤ 1.0 - (r - bh.accretionDiskInner) /
        (bh.accretionDiskOuter - bh.accretionDiskInner) * 0.5 := by
    intro r hr2
    have : (r - bh.accretionDiskInner) / (bh.accretionDiskOuter - bh.accretionDiskInner) ≤ 1 :=
      (div_le_one hd).mpr (by linarith)
    norm_num
    linarith
  rw [abs_of_nonneg (hq _ hb1.2), abs_of_nonneg (hq _ hb2.2)]
  have : ((AccretionDisk.newParticle m bh g1).1.orbitRadius - bh.accretionDiskInner) /
      (bh.accretionDiskOuter - bh.accretionDiskInner) ≤
      ((AccretionDisk.newParticle m bh g2).1.orbitRadius - bh.accretionDiskInner) /
      (bh.accretionDiskOuter - bh.accretionDiskInner) :=
    div_le_div_of_nonneg_right (by linarith) hd.le
  linarith

/-- C12 at a concrete input: over the reals, the default black hole, the height draw `1`
and the radius draws `0` and `1`. -/
theorem spawn_height_scaling_witness :
    |(AccretionDisk.newParticle (CMath.mk Real.sqrt Real.cos Real.sin)
        (BlackHole.new : BlackHole ℝ) ⟨fun n => if n = 0 then 1 else 1, 0⟩).1.orbitHeight| ≤
      |(AccretionDisk.newParticle (CMath.mk Real.sqrt Real.cos Real.sin)
        (BlackHole.new : BlackHole ℝ) ⟨fun n => if n = 0 then 0 else 1, 0⟩).1.orbitHeight| :=
  spawn_height_scaling (CMath.mk Real.sqrt Real.cos Real.sin) (BlackHole.new : BlackHole ℝ)
    (by norm_num [BlackHole.new])
    ⟨fun n => if n = 0 then 0 else 1, 0⟩ ⟨fun n => if n = 0 then 1 else 1, 0⟩
    (fun n => by show (0 : ℝ) ≤ (if n = 0 then 0 else 1) ∧ (if n = 0 then (0 : ℝ) else 1) ≤ 1
                 split_ifs <;> norm_num)
    (fun n => by show (0 : ℝ) ≤ (if n = 0 then 1 else 1) ∧ (if n = 0 then (1 : ℝ) else 1) ≤ 1
                 split_ifs <;> norm_num)
    rfl
    (by simp only [AccretionDisk.newParticle, RandState.draw, BlackHole.new]
        norm_num)

/-- C12 fails as stated: over the reals, with the default black hole and the height draw
`u = 1`, the particle spawned at the inner edge (`r1 = 3.5`) gets the offset `0.3` and the
one spawned at the outer edge (`r2 = 14`) the offset `0.15`: `r1 < r2`, yet
`|orbitHeight(r1, u)| ≤ |orbitHeight(r2, u)|` is false. -/
theorem spawn_height_counterexample :
    (AccretionDisk.newParticle (CMath.mk Real.sqrt Real.cos Real.sin)
        (BlackHole.new : BlackHole ℝ) ⟨fun n => if n = 0 then 0 else 1, 0⟩).1.orbitRadius = 3.5 ∧
    (AccretionDisk.newParticle (CMath.mk Real.sqrt Real.cos Real.sin)
        (BlackHole.new : BlackHole ℝ) ⟨fun n => if n = 0 then 1 else 1, 0⟩).1.orbitRadius = 14 ∧
    (AccretionDisk.newParticle (CMath.mk Real.sqrt Real.cos Real.sin)
        (BlackHole.new : BlackHole ℝ) ⟨fun n => if n = 0 then 0 else 1, 0⟩).1.orbitHeight = 0.3 ∧
    (AccretionDisk.newParticle (CMath.mk Real.sqrt Real.cos Real.sin)
        (BlackHole.new : BlackHole ℝ) ⟨fun n => if n = 0 then 1 else 1, 0⟩).1.orbitHeight = 0.15 ∧
    ¬ |(AccretionDisk.newParticle (CMath.mk Real.sqrt Real.cos Real.sin)
        (BlackHole.new : BlackHole ℝ) ⟨fun n => if n = 0 then 0 else 1, 0⟩).1.orbitHeight| ≤
      |(AccretionDisk.newParticle (CMath.mk Real.sqrt Real.cos Real.sin)
        (BlackHole.new : BlackHole ℝ) ⟨fun n => if n = 0 then 1 else 1, 0⟩).1.orbitHeight| := by
  have r1 : (AccretionDisk.newParticle (CMath.mk Real.sqrt Real.cos Real.sin)
      (BlackHole.new : BlackHole ℝ) ⟨fun n => if n = 0 then 0 else 1, 0⟩).1.orbitRadius = 3.5 := by
    simp only [AccretionDisk.newParticle, RandState.draw, BlackHole.new]
    norm_num
  have r2 : (AccretionDisk.newParticle (CMath.mk Real.sqrt Real.cos Real.sin)
      (BlackHole.new : BlackHole ℝ) ⟨fun n => if n = 0 then 1 else 1, 0⟩).1.orbitRadius = 14 := by
    simp only [AccretionDisk.newParticle, RandState.draw, BlackHole.new]
    norm_num
  have h1 : (AccretionDisk.newParticle (CMath.mk Real.sqrt Real.cos Real.sin)
      (BlackHole.new : BlackHole ℝ) ⟨fun n => if n = 0 then 0 else 1, 0⟩).1.orbitHeight = 0.3 := by
    rw [newParticle_height, r1]
    simp only [BlackHole.new]
    norm_num
  have h2 : (AccretionDisk.newParticle (CMath.mk Real.sqrt Real.cos Real.sin)
      (BlackHole.new : BlackHole ℝ) ⟨fun n => if n = 0 then 1 else 1, 0⟩).1.orbitHeight = 0.15 := by
    rw [newParticle_height, r2]
    simp only [BlackHole.new]
    norm_num
  refine ⟨r1, r2, h1, h2, ?_⟩
  rw [h1, h2, abs_of_pos (by norm_num), abs_of_pos (by norm_num)]
  norm_num

/-- The conversion `(size_t)n` is `n` itself for `0 ≤ n < 2^64`. -/
theorem toSizeT_of_nonneg (n : Int) (h0 : 0 ≤ n) (h : n < 2 ^ 64) : toSizeT n = n.toNat := by
  unfold toSizeT
  rw [Int.emod_eq_of_lt h0 h]

/-- An active streamer that is not recycled: the result of the update, field by field. -/
theorem updateStreamer_step (m : CMath F) (bh : BlackHole F) (dt : F) (s : Streamer F)
    (g : RandState F) (ha : s.active = true) (h0 : 0 ≤ s.maxTrail) (h31 : s.maxTrail < 2 ^ 31)
    (hr : ¬ InfallingMatter.recycles m bh dt s) :
    (InfallingMatter.updateStreamer m bh dt s g).1.vel =
      Vector3Add s.vel (Vector3Scale (bh.getGravity m s.pos) dt) ∧
    (InfallingMatter.updateStreamer m bh dt s g).1.pos =
      Vector3Add s.pos (Vector3Scale (InfallingMatter.updateStreamer m bh dt s g).1.vel dt) ∧
    (InfallingMatter.updateStreamer m bh dt s g).1.life = s.life - dt ∧
    (InfallingMatter.updateStreamer m bh dt s g).1.trail =
      (if s.maxTrail < (s.trail.length : Int) + 1
       then (s.trail ++ [(InfallingMatter.updateStreamer m bh dt s g).1.pos]).tail
       else s.trail ++ [(InfallingMatter.updateStreamer m bh dt s g).1.pos]) ∧
    (InfallingMatter.updateStreamer m bh dt s g).1.maxTrail = s.maxTrail ∧
    (InfallingMatter.updateStreamer m bh dt s g).1.active = true := by
  have hk := updateStreamer_kept m bh dt s g ha hr
  rw [hk]
  refine ⟨rfl, rfl, rfl, ?_, rfl, ha⟩
  have hsz : toSizeT s.maxTrail = s.maxTrail.toNat :=
    toSizeT_of_nonneg _ h0 (lt_trans h31 (by norm_num))
  simp only [hsz, List.length_append, List.length_singleton, gt_iff_lt]
  have hiff : s.maxTrail.toNat < s.trail.length + 1 ↔
      s.maxTrail < (s.trail.length : Int) + 1 := by
    omega
  by_cases hc : s.maxTrail < (s.trail.length : Int) + 1
  · rw [if_pos hc, if_pos (hiff.mpr hc)]
  · rw [if_neg hc, if_neg (fun h => hc (hiff.mp h))]
/-- The last position of a non-empty sequence of calls is the streamer's position. -/
theorem positionsAfter_getLast (m : CMath F) (bh : BlackHole F)
    (calls : List (F × RandState F)) :
    ∀ s : Streamer F, calls ≠ [] →
      (InfallingMatter.positionsAfter m bh s calls).getLast? =
        some (InfallingMatter.streamerAfter m bh s calls).pos := by
  induction calls with
  | nil => intro s h; exact absurd rfl h
  | cons c cs ih =>
    intro s _
    cases cs with
    | nil => rfl
    | cons d ds =>
      have := ih (InfallingMatter.updateStreamer m bh c.1 s c.2).1 (List.cons_ne_nil d ds)
      simp only [InfallingMatter.positionsAfter, InfallingMatter.streamerAfter,
        List.getLast?_cons_cons] at this ⊢
      exact this

/-- The sequence of positions has one entry per call. -/
theorem positionsAfter_length (m : CMath F) (bh : BlackHole F)
    (calls : List (F × RandState F)) :
    ∀ s : Streamer F, (InfallingMatter.positionsAfter m bh s calls).length = calls.length := by
  induction calls with
  | nil => intro s; rfl
  | cons c cs ih =>
    intro s
    simp only [InfallingMatter.positionsAfter, List.length_cons, ih]

/-- After a sequence of calls none of which recycles it, the trail of an active streamer
is its former trail followed by the positions of the calls, cut to the last `maxTrail`
entries. -/
theorem streamerAfter_trail (m : CMath F) (bh : BlackHole F) (calls : List (F × RandState F)) :
    ∀ s : Streamer F, s.active = true → 0 ≤ s.maxTrail → s.maxTrail < 2 ^ 31 →
      s.trail.length ≤ s.maxTrail.toNat →
      InfallingMatter.neverRecycles m bh s calls →
      (InfallingMatter.streamerAfter m bh s calls).trail =
        (s.trail ++ InfallingMatter.positionsAfter m bh s calls).drop
          ((s.trail ++ InfallingMatter.positionsAfter m bh s calls).length -
            s.maxTrail.toNat) := by
  induction calls with
  | nil =>
    intro s _ _ _ hlen _
    simp only [InfallingMatter.streamerAfter, InfallingMatter.positionsAfter, List.append_nil]
    rw [Nat.sub_eq_zero_of_le hlen, List.drop_zero]
  | cons c cs ih =>
    intro s ha h0 h31 hlen hnr
    obtain ⟨hr, hrest⟩ := hnr
    obtain ⟨_, _, _, htrail, hmax, hact⟩ := updateStreamer_step m bh c.1 s c.2 ha h0 h31 hr
    have hlen1 : (InfallingMatter.updateStreamer m bh c.1 s c.2).1.trail.length ≤
        (InfallingMatter.updateStreamer m bh c.1 s c.2).1.maxTrail.toNat := by
      rw [htrail, hmax]
      split_ifs with hc
      · simp only [List.length_tail, List.length_append, List.length_singleton]
        omega
      · simp only [List.length_append, List.length_singleton]
        omega
    have hdrop : (InfallingMatter.updateStreamer m bh c.1 s c.2).1.trail =
        (s.trail ++ [(InfallingMatter.updateStreamer m bh c.1 s c.2).1.pos]).drop
          (s.trail.length + 1 - s.maxTrail.toNat) := by
      rw [htrail]
      split_ifs with hc
      · have : s.trail.length + 1 - s.maxTrail.toNat = 1 := by omega
        rw [this, List.drop_one]
      · have : s.trail.length + 1 - s.maxTrail.toNat = 0 := by omega
        rw [this, List.drop_zero]
    have := ih (InfallingMatter.updateStreamer m bh c.1 s c.2).1 hact (by rw [hmax]; exact h0)
      (by rw [hmax]; exact h31) hlen1 hrest
    simp only [InfallingMatter.streamerAfter, InfallingMatter.positionsAfter]
    rw [this, hmax, hdrop]
    rw [← List.drop_append_of_le_length
      (by simp only [List.length_append, List.length_singleton]; omega), List.drop_drop,
      List.append_assoc, List.singleton_append]
    congr 1
    simp only [List.length_drop, List.length_append, List.length_singleton, List.length_cons,
      positionsAfter_length]
    omega
/-- C13: for an active streamer (with `0 < maxTrail`, an `int`) and a `dt` for which
`update(dt)` does not recycle it, the step is semi-implicit Euler with a FIFO trail:
`vel' = vel + getGravity(pos) * dt`, `pos' = pos + vel' * dt`, `life' = life - dt`, and
`trail'` is `trail` followed by `pos'`, its front entry removed exactly when the length
would exceed `maxTrail`.  Hence after a sequence of `k` calls none of which recycles it,
started with an empty trail, the trail holds the last `min(k, maxTrail)` of the positions
of these calls in chronological order, and for `k > 0` its last element is the current
position. -/
theorem streamer_semi_implicit_euler (m : CMath F) (bh : BlackHole F) (s : Streamer F)
    (ha : s.active = true) (h0 : 0 < s.maxTrail) (h31 : s.maxTrail < 2 ^ 31) :
    (∀ (dt : F) (g : RandState F), ¬ InfallingMatter.recycles m bh dt s →
      (InfallingMatter.updateStreamer m bh dt s g).1.vel =
        Vector3Add s.vel (Vector3Scale (bh.getGravity m s.pos) dt) ∧
      (InfallingMatter.updateStreamer m bh dt s g).1.pos =
        Vector3Add s.pos (Vector3Scale (InfallingMatter.updateStreamer m bh dt s g).1.vel dt) ∧
      (InfallingMatter.updateStreamer m bh dt s g).1.life = s.life - dt ∧
      (InfallingMatter.updateStreamer m bh dt s g).1.trail =
        (if s.maxTrail < (s.trail.length : Int) + 1
         then (s.trail ++ [(InfallingMatter.updateStreamer m bh dt s g).1.pos]).tail
         else s.trail ++ [(InfallingMatter.updateStreamer m bh dt s g).1.pos])) ∧
    (∀ calls : List (F × RandState F), s.trail = [] →
      InfallingMatter.neverRecycles m bh s calls →
      (InfallingMatter.streamerAfter m bh s calls).trail =
        (InfallingMatter.positionsAfter m bh s calls).drop
          (calls.length - s.maxTrail.toNat) ∧
      (InfallingMatter.positionsAfter m bh s calls).length = calls.length ∧
      ((InfallingMatter.streamerAfter m bh s calls).trail.length : Int) =
        min (calls.length : Int) s.maxTrail ∧
      (calls ≠ [] →
        (InfallingMatter.streamerAfter m bh s calls).trail.getLast? =
          some (InfallingMatter.streamerAfter m bh s calls).pos)) := by
  constructor
  · intro dt g hr
    obtain ⟨h1, h2, h3, h4, _, _⟩ := updateStreamer_step m bh dt s g ha h0.le h31 hr
    exact ⟨h1, h2, h3, h4⟩
  · intro calls hempty hnr
    have ht := streamerAfter_trail m bh calls s ha h0.le h31
      (by rw [hempty]; exact Nat.zero_le _) hnr
    rw [hempty, List.nil_append, positionsAfter_length] at ht
    have hlen := positionsAfter_length m bh calls s
    refine ⟨ht, hlen, ?_, ?_⟩
    · rw [ht, List.length_drop, hlen]
      omega
    · intro hne
      rw [ht, List.getLast?_drop, hlen, positionsAfter_getLast m bh calls s hne]
      have hpos : 0 < calls.length := List.length_pos.mpr hne
      rw [if_neg (by omega)]

/-- Over the reals, with the default black hole, `update(1)` does not recycle the streamer
at `(50.1, 0, 0)` with velocity `(-10, 0, 0)` and life 20. -/
theorem returning_streamer_kept :
    ¬ InfallingMatter.recycles (CMath.mk Real.sqrt Real.cos Real.sin)
      (BlackHole.new : BlackHole ℝ) 1
      { pos := ⟨50.1, 0, 0⟩, vel := ⟨-10, 0, 0⟩, trail := [], maxTrail := 30,
        color := ⟨255, 100, 50, 255⟩, active := true, life := 20 } := by
  have hm := real_sqrtExact Real.cos Real.sin
  have hg := getGravity_axis (CMath.mk Real.sqrt Real.cos Real.sin) hm
    (BlackHole.new : BlackHole ℝ) rfl 50.1 (by norm_num)
  have hstep : InfallingMatter.steppedPos (CMath.mk Real.sqrt Real.cos Real.sin)
      (BlackHole.new : BlackHole ℝ) 1
      { pos := ⟨50.1, 0, 0⟩, vel := ⟨-10, 0, 0⟩, trail := [], maxTrail := 30,
        color := ⟨255, 100, 50, 255⟩, active := true, life := 20 } =
      ⟨50.1 + (-10 + -((BlackHole.new : BlackHole ℝ).mass / (50.1 * 50.1)) * 1) * 1, 0, 0⟩ := by
    simp only [InfallingMatter.steppedPos, hg, Vector3Add, Vector3Scale, zero_mul, add_zero]
  unfold InfallingMatter.recycles
  rw [hstep, length_axis _ hm]
  simp only [BlackHole.new]
  rw [abs_of_pos (by norm_num)]
  norm_num

/-- C13 at a concrete input: over the reals, with the default black hole, one `update(1)`
of the streamer at `(50.1, 0, 0)` with velocity `(-10, 0, 0)`, life 20 and an empty
trail. -/
theorem streamer_semi_implicit_euler_witness :
    (InfallingMatter.streamerAfter (CMath.mk Real.sqrt Real.cos Real.sin)
        (BlackHole.new : BlackHole ℝ)
        { pos := ⟨50.1, 0, 0⟩, vel := ⟨-10, 0, 0⟩, trail := [], maxTrail := 30,
          color := ⟨255, 100, 50, 255⟩, active := true, life := 20 }
        [(1, ⟨fun _ => 0.5, 0⟩)]).trail =
      (InfallingMatter.positionsAfter (CMath.mk Real.sqrt Real.cos Real.sin)
        (BlackHole.new : BlackHole ℝ)
        { pos := ⟨50.1, 0, 0⟩, vel := ⟨-10, 0, 0⟩, trail := [], maxTrail := 30,
          color := ⟨255, 100, 50, 255⟩, active := true, life := 20 }
        [(1, ⟨fun _ => 0.5, 0⟩)]).drop
          (([(1, ⟨fun _ => 0.5, 0⟩)] : List (ℝ × RandState ℝ)).length - (30 : Int).toNat) ∧
    (InfallingMatter.streamerAfter (CMath.mk Real.sqrt Real.cos Real.sin)
        (BlackHole.new : BlackHole ℝ)
        { pos := ⟨50.1, 0, 0⟩, vel := ⟨-10, 0, 0⟩, trail := [], maxTrail := 30,
          color := ⟨255, 100, 50, 255⟩, active := true, life := 20 }
        [(1, ⟨fun _ => 0.5, 0⟩)]).trail.getLast? =
      some (InfallingMatter.streamerAfter (CMath.mk Real.sqrt Real.cos Real.sin)
        (BlackHole.new : BlackHole ℝ)
        { pos := ⟨50.1, 0, 0⟩, vel := ⟨-10, 0, 0⟩, trail := [], maxTrail := 30,
          color := ⟨255, 100, 50, 255⟩, active := true, life := 20 }
        [(1, ⟨fun _ => 0.5, 0⟩)]).pos :=
  have h := (streamer_semi_implicit_euler (CMath.mk Real.sqrt Real.cos Real.sin)
    (BlackHole.new : BlackHole ℝ)
    { pos := ⟨50.1, 0, 0⟩, vel := ⟨-10, 0, 0⟩, trail := [], maxTrail := 30,
      color := ⟨255, 100, 50, 255⟩, active := true, life := 20 }
    rfl (by norm_num) (by norm_num)).2 [(1, ⟨fun _ => 0.5, 0⟩)] rfl
    ⟨returning_streamer_kept, trivial⟩
  ⟨h.1, h.2.2.2 (List.cons_ne_nil _ _)⟩

/-- One particle update: the position is computed from the stepped angle and radius, and
these are the angle and radius the particle holds at the end unless it is recycled. -/
theorem updateParticle_pos (m : CMath F) (bh : BlackHole F) (dt : F) (p : Particle F)
    (g : RandState F) :
    ((AccretionDisk.updateParticle m bh dt p g).1.pos =
      ⟨m.cosf (p.orbitAngle + p.orbitSpeed * dt) *
          (p.orbitRadius - 0.02 * dt * (bh.mass / (p.orbitRadius * p.orbitRadius)) * 0.01),
        p.orbitHeight *
            ((p.orbitRadius - 0.02 * dt * (bh.mass / (p.orbitRadius * p.orbitRadius)) * 0.01) /
              bh.accretionDiskOuter) +
          m.sinf ((p.orbitAngle + p.orbitSpeed * dt) * 3.0 +
            (p.orbitRadius - 0.02 * dt * (bh.mass / (p.orbitRadius * p.orbitRadius)) * 0.01)) *
            0.08,
        m.sinf (p.orbitAngle + p.orbitSpeed * dt) *
          (p.orbitRadius - 0.02 * dt * (bh.mass / (p.orbitRadius * p.orbitRadius)) * 0.01)⟩) ∧
    (¬ AccretionDisk.recycles bh dt p →
      (AccretionDisk.updateParticle m bh dt p g).1.pos.x =
        m.cosf (AccretionDisk.updateParticle m bh dt p g).1.orbitAngle *
          (AccretionDisk.updateParticle m bh dt p g).1.orbitRadius ∧
      (AccretionDisk.updateParticle m bh dt p g).1.pos.z =
        m.sinf (AccretionDisk.updateParticle m bh dt p g).1.orbitAngle *
          (AccretionDisk.updateParticle m bh dt p g).1.orbitRadius ∧
      (AccretionDisk.updateParticle m bh dt p g).1.pos.y =
        (AccretionDisk.updateParticle m bh dt p g).1.orbitHeight *
            ((AccretionDisk.updateParticle m bh dt p g).1.orbitRadius / bh.accretionDiskOuter) +
          0.08 * m.sinf (3 * (AccretionDisk.updateParticle m bh dt p g).1.orbitAngle +
            (AccretionDisk.updateParticle m bh dt p g).1.orbitRadius)) := by
  by_cases hr : AccretionDisk.recycles bh dt p
  · have hr2 := hr
    unfold AccretionDisk.recycles at hr2
    simp only [AccretionDisk.updateParticle, hr2, if_true, hr, not_true_eq_false, false_implies,
      and_self]
  · have hr2 := hr
    unfold AccretionDisk.recycles at hr2
    simp only [AccretionDisk.updateParticle, hr2, if_false, hr, not_false_eq_true, true_implies,
      true_and]
    have e3 : (3.0 : F) = 3 := by norm_num
    rw [e3, mul_comm (0.08 : F), mul_comm (3 : F)]

/-- C14, as the code has it: `AccretionDisk::update(dt)` computes `pos` before it tests the
recycle condition, and a recycle does not touch `pos`.  Particle by particle, after
`update(dt)` the position is `(cos(a) * r, orbitHeight * (r / accretionDiskOuter) +
0.08 * sin(3 * a + r), sin(a) * r)` for the stepped angle `a = orbitAngle + orbitSpeed * dt`
and the decayed radius `r`; for a particle that is not recycled in that update these are
the `orbitAngle` and `orbitRadius` (and the unchanged `orbitHeight`) it holds at the end of
the update. -/
theorem update_position_derived (m : CMath F) (disk : AccretionDisk F) (dt : F)
    (g : RandState F) :
    List.Forall₂
      (fun p q =>
        q.pos =
          ⟨m.cosf (p.orbitAngle + p.orbitSpeed * dt) *
              (p.orbitRadius -
                0.02 * dt * (disk.blackHole.mass / (p.orbitRadius * p.orbitRadius)) * 0.01),
            p.orbitHeight *
                ((p.orbitRadius -
                    0.02 * dt * (disk.blackHole.mass / (p.orbitRadius * p.orbitRadius)) * 0.01) /
                  disk.blackHole.accretionDiskOuter) +
              m.sinf ((p.orbitAngle + p.orbitSpeed * dt) * 3.0 +
                (p.orbitRadius -
                  0.02 * dt * (disk.blackHole.mass / (p.orbitRadius * p.orbitRadius)) * 0.01)) *
                0.08,
            m.sinf (p.orbitAngle + p.orbitSpeed * dt) *
              (p.orbitRadius -
                0.02 * dt * (disk.blackHole.mass / (p.orbitRadius * p.orbitRadius)) * 0.01)⟩ ∧
        (¬ AccretionDisk.recycles disk.blackHole dt p →
          q.pos.x = m.cosf q.orbitAngle * q.orbitRadius ∧
          q.pos.z = m.sinf q.orbitAngle * q.orbitRadius ∧
          q.pos.y = q.orbitHeight * (q.orbitRadius / disk.blackHole.accretionDiskOuter) +
            0.08 * m.sinf (3 * q.orbitAngle + q.orbitRadius)))
      disk.particles (AccretionDisk.update m disk dt g).1.particles := by
  have h := updateParticles_pointwise m disk.blackHole dt disk.particles g
  refine h.imp ?_
  rintro p q ⟨gi, rfl⟩
  exact updateParticle_pos m disk.blackHole dt p gi

/-- C14 fails as stated: over the reals, with the default black hole, the particle with
`orbitRadius = 10`, `orbitAngle = 0`, `orbitSpeed = 0` and `life = 0.5` is recycled by
`update(1)`; with both draws `0` it ends with `orbitAngle = 0` and `orbitRadius = 3.5`, so
`cos(orbitAngle) * orbitRadius = 3.5`, while its `pos.x` is `9.9999`, computed from the
radius it had before the recycle. -/
theorem update_position_counterexample :
    ((AccretionDisk.update (CMath.mk Real.sqrt Real.cos Real.sin)
        { particles := [{ pos := ⟨10, 0, 0⟩, life := 0.5, maxLife := 10,
                          color := ⟨255, 140, 60, 255⟩, orbitRadius := 10, orbitAngle := 0,
                          orbitSpeed := 0, orbitHeight := 0 }],
          particleCount := 1, blackHole := (BlackHole.new : BlackHole ℝ) }
        1 ⟨fun _ => 0, 0⟩).1.particles.map fun q => q.pos.x) = [9.9999] ∧
    ((AccretionDisk.update (CMath.mk Real.sqrt Real.cos Real.sin)
        { particles := [{ pos := ⟨10, 0, 0⟩, life := 0.5, maxLife := 10,
                          color := ⟨255, 140, 60, 255⟩, orbitRadius := 10, orbitAngle := 0,
                          orbitSpeed := 0, orbitHeight := 0 }],
          particleCount := 1, blackHole := (BlackHole.new : BlackHole ℝ) }
        1 ⟨fun _ => 0, 0⟩).1.particles.map fun q => Real.cos q.orbitAngle * q.orbitRadius) =
      [3.5] := by
  have hrec : AccretionDisk.recycles (BlackHole.new : BlackHole ℝ) 1
      { pos := ⟨10, 0, 0⟩, life := 0.5, maxLife := 10, color := ⟨255, 140, 60, 255⟩,
        orbitRadius := 10, orbitAngle := 0, orbitSpeed := 0, orbitHeight := 0 } := by
    left
    norm_num
  have hrec2 := hrec
  unfold AccretionDisk.recycles at hrec2
  constructor
  · simp only [AccretionDisk.update, AccretionDisk.updateParticles, AccretionDisk.updateParticle,
      hrec2, if_true, List.map_cons, List.map_nil, BlackHole.new]
    norm_num
  · simp only [AccretionDisk.update, AccretionDisk.updateParticles, AccretionDisk.updateParticle,
      hrec2, if_true, List.map_cons, List.map_nil, BlackHole.new, RandState.draw]
    norm_num
/-- C14 at a concrete input: over the reals, with the default black hole, the particle with
`orbitRadius = 10`, `orbitAngle = 0`, `orbitSpeed = 0` and `life = 5` is not recycled by
`update(1)`, and its `pos.x` differs by `0` from `cos(orbitAngle) * orbitRadius` for the values it
holds at the end. -/
theorem update_position_derived_witness :
    ((AccretionDisk.update (CMath.mk Real.sqrt Real.cos Real.sin)
        { particles := [{ pos := ⟨10, 0, 0⟩, life := 5, maxLife := 10,
                          color := ⟨255, 140, 60, 255⟩, orbitRadius := 10, orbitAngle := 0,
                          orbitSpeed := 0, orbitHeight := 0 }],
          particleCount := 1, blackHole := (BlackHole.new : BlackHole ℝ) }
        1 ⟨fun _ => 0, 0⟩).1.particles.map
        fun q => q.pos.x - Real.cos q.orbitAngle * q.orbitRadius) = [0] := by
  have h := update_position_derived (CMath.mk Real.sqrt Real.cos Real.sin)
    { particles := [{ pos := ⟨10, 0, 0⟩, life := 5, maxLife := 10,
                      color := ⟨255, 140, 60, 255⟩, orbitRadius := 10, orbitAngle := 0,
                      orbitSpeed := 0, orbitHeight := 0 }],
      particleCount := 1, blackHole := (BlackHole.new : BlackHole ℝ) }
    1 ⟨fun _ => 0, 0⟩
  simp only [AccretionDisk.update, AccretionDisk.updateParticles] at h ⊢
  have h1 := ((List.forall₂_cons.mp h).1.2
    (by
      unfold AccretionDisk.recycles
      simp only [BlackHole.new]
      norm_num)).1
  simp only [List.map_cons, List.map_nil, h1, sub_self]

/-- One integration step from a point at distance `L ≥ 20` from a black hole of mass 50 at
the origin scales the point by `1 - 7.5 / L^3`: it moves radially inward, by `7.5 / L^2`. -/
theorem advance_radial (m : CMath F) (hm : m.SqrtExact) (bh : BlackHole F)
    (hpos : bh.position = ⟨0, 0, 0⟩) (hmass : bh.mass = 50) (v : Vector3 F)
    (hL : 20 ≤ Vector3Length m v) :
    GravityFieldLines.advance m bh v =
      Vector3Scale v (1 - 7.5 / Vector3Length m v ^ 3) ∧
    Vector3Length m (GravityFieldLines.advance m bh v) =
      Vector3Length m v - 7.5 / Vector3Length m v ^ 2 ∧
    Vector3Length m v - 7.5 / Vector3Length m v ^ 2 =
      Vector3Length m v - 0.15 * (50 / (Vector3Length m v * Vector3Length m v)) := by
  have hL0 : 0 < Vector3Length m v := lt_of_lt_of_le (by norm_num) hL
  have hne : Vector3Length m v ≠ 0 := hL0.ne'
  have hstep := radial_step (Vector3Length m v) hL
  have hform : Vector3Length m v - 7.5 / Vector3Length m v ^ 2 =
      Vector3Length m v - 0.15 * (50 / (Vector3Length m v * Vector3Length m v)) := by
    field_simp
    ring
  have hc : Vector3Length m v * (1 - 7.5 / Vector3Length m v ^ 3) =
      Vector3Length m v - 7.5 / Vector3Length m v ^ 2 := by
    field_simp
    ring
  have hc0 : 0 ≤ 1 - 7.5 / Vector3Length m v ^ 3 := by
    have h1 : 0 < Vector3Length m v * (1 - 7.5 / Vector3Length m v ^ 3) := by
      rw [hc, hform]
      exact hstep.2.1
    exact (pos_of_mul_pos_right h1 hL0.le).le
  have hdirlen : m.sqrtf
      ((Vector3Subtract ⟨0, 0, 0⟩ v).x * (Vector3Subtract ⟨0, 0, 0⟩ v).x +
        (Vector3Subtract ⟨0, 0, 0⟩ v).y * (Vector3Subtract ⟨0, 0, 0⟩ v).y +
        (Vector3Subtract ⟨0, 0, 0⟩ v).z * (Vector3Subtract ⟨0, 0, 0⟩ v).z) =
      Vector3Length m v := length_sub_origin m v
  have hnorm : Vector3Normalize m (Vector3Subtract ⟨0, 0, 0⟩ v) =
      Vector3Scale (Vector3Subtract ⟨0, 0, 0⟩ v) (1 / Vector3Length m v) := by
    simp only [Vector3Normalize, hdirlen, hne, ne_eq, not_false_eq_true, if_true, Vector3Scale]
  have hnotlt : ¬ Vector3Length m v < 0.1 := not_lt.mpr (le_trans (by norm_num) hL)
  have hadv : GravityFieldLines.advance m bh v =
      Vector3Scale v (1 - 7.5 / Vector3Length m v ^ 3) := by
    have hgrav : bh.getGravity m v =
        Vector3Scale (Vector3Scale (Vector3Subtract ⟨0, 0, 0⟩ v) (1 / Vector3Length m v))
          (50 / (Vector3Length m v * Vector3Length m v)) := by
      simp only [BlackHole.getGravity, hpos, hmass, length_sub_origin, hnotlt, if_false, hnorm]
    simp only [GravityFieldLines.advance, hgrav, Vector3Scale, Vector3Add, Vector3Subtract,
      Vector3.mk.injEq]
    refine ⟨?_, ?_, ?_⟩ <;>
    · field_simp
      ring
  refine ⟨hadv, ?_, hform⟩
  rw [hadv, length_scale m hm v _ hc0, hc]

/-- Every seed of `generateLines` is at distance 25 from the origin. -/
theorem seed_length (m : CMath F) (hm : m.SqrtExact) (hp : m.Pythagorean) (lineCount : Int)
    (i : Nat) : Vector3Length m (GravityFieldLines.seed m lineCount i) = 25 := by
  have h1 := hp ((i : F) / (lineCount : F) * BH_PI * 2.0)
  simp only [GravityFieldLines.seed, Vector3Length]
  have e : m.cosf ((i : F) / (lineCount : F) * BH_PI * 2.0) * 25.0 *
        (m.cosf ((i : F) / (lineCount : F) * BH_PI * 2.0) * 25.0) + 0 * 0 +
      m.sinf ((i : F) / (lineCount : F) * BH_PI * 2.0) * 25.0 *
        (m.sinf ((i : F) / (lineCount : F) * BH_PI * 2.0) * 25.0) = 25 * 25 := by
    have e25 : (25.0 : F) = 25 := by norm_num
    rw [e25]
    linear_combination 625 * h1
  rw [e]
  exact sqrtf_mul_self m hm 25 (by norm_num)

/-- Along the first 100 steps from a point at distance 25, with the black hole at the
origin and mass 50, the point stays at distance at least 20. -/
theorem distance_invariant (m : CMath F) (hm : m.SqrtExact) (bh : BlackHole F)
    (hpos : bh.position = ⟨0, 0, 0⟩) (hmass : bh.mass = 50) (seed : Vector3 F)
    (hseed : Vector3Length m seed = 25) (k : Nat) (hk : k ≤ 100) :
    20 ≤ Vector3Length m (GravityFieldLines.pointAt m bh seed k) ∧
    15625 - 22.5 * (k : F) ≤ Vector3Length m (GravityFieldLines.pointAt m bh seed k) ^ 3 := by
  induction k with
  | zero =>
    have : GravityFieldLines.pointAt m bh seed 0 = seed := rfl
    rw [this, hseed]
    norm_num
  | succ k ih =>
    obtain ⟨h20, hcube⟩ := ih (by omega)
    have hnext : GravityFieldLines.pointAt m bh seed (k + 1) =
        GravityFieldLines.advance m bh (GravityFieldLines.pointAt m bh seed k) :=
      Function.iterate_succ_apply' _ _ _
    obtain ⟨_, hlen, hform⟩ := advance_radial m hm bh hpos hmass _ h20
    have hstep := radial_step _ h20
    rw [hnext, hlen, hform]
    have hk1 : ((k + 1 : Nat) : F) ≤ 100 := by exact_mod_cast hk
    have hc2 : 15625 - 22.5 * ((k + 1 : Nat) : F) ≤
        (Vector3Length m (GravityFieldLines.pointAt m bh seed k) -
          0.15 * (50 / (Vector3Length m (GravityFieldLines.pointAt m bh seed k) *
            Vector3Length m (GravityFieldLines.pointAt m bh seed k)))) ^ 3 := by
      push_cast
      linarith [hstep.2.2]
    refine ⟨?_, hc2⟩
    by_contra hcon
    have hlt := not_le.mp hcon
    have h8000 : (Vector3Length m (GravityFieldLines.pointAt m bh seed k) -
          0.15 * (50 / (Vector3Length m (GravityFieldLines.pointAt m bh seed k) *
            Vector3Length m (GravityFieldLines.pointAt m bh seed k)))) ^ 3 < 20 ^ 3 :=
      pow_lt_pow_left₀ hlt hstep.2.1.le (by norm_num)
    have : (15625 : F) - 22.5 * 100 ≤ 15625 - 22.5 * ((k + 1 : Nat) : F) := by
      have : (22.5 : F) * ((k + 1 : Nat) : F) ≤ 22.5 * 100 :=
        mul_le_mul_of_nonneg_left hk1 (by norm_num)
      linarith
    norm_num at h8000 this
    linarith
/-- With the program's constants no position computed in the first 100 steps from a seed
comes closer to the origin than `eventHorizonRadius * 1.2f`. -/
theorem default_never_stops (m : CMath F) (hm : m.SqrtExact) (hp : m.Pythagorean)
    (lineCount : Int) (i k : Nat) (hk : k ≤ 100) :
    ¬ Vector3Length m (GravityFieldLines.pointAt m (BlackHole.new : BlackHole F)
        (GravityFieldLines.seed m lineCount i) k) <
      (BlackHole.new : BlackHole F).eventHorizonRadius * 1.2 := by
  have h := (distance_invariant m hm (BlackHole.new : BlackHole F) rfl
    (by show (50.0 : F) = 50; norm_num) _ (seed_length m hm hp lineCount i) k hk).1
  rw [not_lt]
  refine le_trans ?_ h
  show (2.0 : F) * 1.2 ≤ 20
  norm_num

/-- With the program's constants every line of `generateLines` is the full trace of 100
points. -/
theorem default_line (m : CMath F) (hm : m.SqrtExact) (hp : m.Pythagorean) (lineCount : Int)
    (i : Nat) :
    GravityFieldLines.traceLine m (BlackHole.new : BlackHole F) 100
        (GravityFieldLines.seed m lineCount i) [] =
      (List.range 100).map (GravityFieldLines.pointAt m (BlackHole.new : BlackHole F)
        (GravityFieldLines.seed m lineCount i)) := by
  rw [traceLine_full m _ 100 _ []
    (fun j hj => default_never_stops m hm hp lineCount i (j + 1) (by omega)), List.nil_append]

/-- C15: with the program's constants (source at the origin, mass 50, horizon radius 2.0,
seed radius 25, step 0.15, 100 steps, 24 seed angles) `generateLines` builds 24 lines of
exactly 100 points each.  Each step scales the point by `1 - 7.5 / r^3`, moving it radially
inward by `7.5 / r^2`; every computed position stays at distance greater than
`2.4 = 1.2 * eventHorizonRadius` (at least 20, in fact), so the early stop never fires. -/
theorem fieldLines_full (m : CMath F) (hm : m.SqrtExact) (hp : m.Pythagorean) :
    (GravityFieldLines.new m (BlackHole.new : BlackHole F)).fieldLines.length = 24 ∧
    (∀ line ∈ (GravityFieldLines.new m (BlackHole.new : BlackHole F)).fieldLines,
      line.length = 100) ∧
    (∀ i : Nat, i < 24 →
      (GravityFieldLines.new m (BlackHole.new : BlackHole F)).fieldLines[i]? =
        some ((List.range 100).map (GravityFieldLines.pointAt m (BlackHole.new : BlackHole F)
          (GravityFieldLines.seed m 24 i)))) ∧
    (∀ i k : Nat, k < 100 →
      GravityFieldLines.pointAt m (BlackHole.new : BlackHole F)
          (GravityFieldLines.seed m 24 i) (k + 1) =
        Vector3Scale
          (GravityFieldLines.pointAt m (BlackHole.new : BlackHole F)
            (GravityFieldLines.seed m 24 i) k)
          (1 - 7.5 / Vector3Length m (GravityFieldLines.pointAt m (BlackHole.new : BlackHole F)
            (GravityFieldLines.seed m 24 i) k) ^ 3) ∧
      Vector3Length m (GravityFieldLines.pointAt m (BlackHole.new : BlackHole F)
          (GravityFieldLines.seed m 24 i) (k + 1)) =
        Vector3Length m (GravityFieldLines.pointAt m (BlackHole.new : BlackHole F)
            (GravityFieldLines.seed m 24 i) k) -
          7.5 / Vector3Length m (GravityFieldLines.pointAt m (BlackHole.new : BlackHole F)
            (GravityFieldLines.seed m 24 i) k) ^ 2 ∧
      2.4 < Vector3Length m (GravityFieldLines.pointAt m (BlackHole.new : BlackHole F)
          (GravityFieldLines.seed m 24 i) (k + 1)) ∧
      ¬ Vector3Length m (GravityFieldLines.pointAt m (BlackHole.new : BlackHole F)
          (GravityFieldLines.seed m 24 i) (k + 1)) <
        (BlackHole.new : BlackHole F).eventHorizonRadius * 1.2) := by
  have hlines : (GravityFieldLines.new m (BlackHole.new : BlackHole F)).fieldLines =
      (List.range 24).map fun i =>
        (List.range 100).map (GravityFieldLines.pointAt m (BlackHole.new : BlackHole F)
          (GravityFieldLines.seed m 24 i)) := by
    show (List.range 24).map (fun i => GravityFieldLines.traceLine m (BlackHole.new : BlackHole F)
      100 (GravityFieldLines.seed m 24 i) []) = _
    exact List.map_congr_left (fun i _ => default_line m hm hp 24 i)
  refine ⟨?_, ?_, ?_, ?_⟩
  · rw [hlines, List.length_map, List.length_range]
  · intro line hline
    rw [hlines, List.mem_map] at hline
    obtain ⟨i, _, rfl⟩ := hline
    rw [List.length_map, List.length_range]
  · intro i hi
    rw [hlines, List.getElem?_map, List.getElem?_range hi, Option.map_some']
  · intro i k hk
    have hmass : (BlackHole.new : BlackHole F).mass = 50 := by
      show (50.0 : F) = 50
      norm_num
    have hinv := distance_invariant m hm (BlackHole.new : BlackHole F) rfl hmass _
      (seed_length m hm hp 24 i)
    obtain ⟨hscale, hlen, _⟩ := advance_radial m hm (BlackHole.new : BlackHole F) rfl hmass _
      (hinv k hk.le).1
    have hnext : GravityFieldLines.pointAt m (BlackHole.new : BlackHole F)
        (GravityFieldLines.seed m 24 i) (k + 1) =
        GravityFieldLines.advance m (BlackHole.new : BlackHole F)
          (GravityFieldLines.pointAt m (BlackHole.new : BlackHole F)
            (GravityFieldLines.seed m 24 i) k) :=
      Function.iterate_succ_apply' _ _ _
    refine ⟨by rw [hnext, hscale], by rw [hnext, hlen], ?_,
      default_never_stops m hm hp 24 i (k + 1) (by omega)⟩
    exact lt_of_lt_of_le (by norm_num) (hinv (k + 1) (by omega)).1

/-- C15 at a concrete input: over the reals, the field lines of the program. -/
theorem fieldLines_full_witness :
    (GravityFieldLines.new (CMath.mk Real.sqrt Real.cos Real.sin)
        (BlackHole.new : BlackHole ℝ)).fieldLines.length = 24 ∧
    ((GravityFieldLines.new (CMath.mk Real.sqrt Real.cos Real.sin)
        (BlackHole.new : BlackHole ℝ)).fieldLines.map List.length) = List.replicate 24 100 := by
  have h := fieldLines_full (CMath.mk Real.sqrt Real.cos Real.sin) (real_sqrtExact _ _)
    (real_pythagorean _)
  refine ⟨h.1, ?_⟩
  apply List.eq_replicate_iff.mpr
  refine ⟨by rw [List.length_map, h.1], ?_⟩
  intro n hn
  rw [List.mem_map] at hn
  obtain ⟨line, hline, rfl⟩ := hn
  exact h.2.1 line hline

end Theorems

end BlackHoleSim
